import Mathlib

/-!
Verification of the Earley-parser repository: a shallow embedding of
`cfg.py`, `naive_earley.py`, `fast_earley.py` and `deduction.py`,
followed by theorems settling the specification claims.

Python sets are modelled as `Finset`, iterated in a canonical sorted
order (Python's set-iteration order is unspecified; all set-level
results proved here are independent of that order).  The deduction map
(a Python dict written with a first-writer-wins guard) is modelled as an
association list to which guarded inserts append, so list order records
write order.  The unbounded `while` loop inside `feed` is modelled with
explicit fuel, large enough to reach the closure fixpoint (proved below).
Failing `assert`s are modelled by `Option`.
-/

namespace Astar

/-- `Symbol` from `cfg.py`: integer code of a terminal or nonterminal. -/
abbrev Symbol := Nat

/-- `GrammarPoint` from `cfg.py`: a dotted production rule. -/
structure GrammarPoint where
  sym : Symbol
  rule : Nat
  dot : Nat
deriving DecidableEq, Repr

/-- `GrammarPoint.proceed`: move the dot one step forward. -/
def GrammarPoint.proceed (p : GrammarPoint) : GrammarPoint :=
  ⟨p.sym, p.rule, p.dot + 1⟩

/-- `StarPoint` from `cfg.py`: a rule-collapsed prediction marker. -/
structure StarPoint where
  sym : Symbol
  done : Bool
deriving DecidableEq, Repr

/-- `StarPoint.proceed`: complete the star item. -/
def StarPoint.proceed (p : StarPoint) : StarPoint :=
  ⟨p.sym, true⟩

/-- `Grammar` from `cfg.py`.  `symbols` is the bijective symbol table in
registration order (index = integer code), `terminals` the set of terminal
codes, `rules` the per-symbol alternative right-hand sides. -/
structure Grammar where
  symbols : List String
  terminals : Finset Symbol
  rules : List (List (List Symbol))
deriving DecidableEq

/-- The right-hand side referenced by a grammar point (`self.rules[pt.sym][pt.rule]`). -/
def Grammar.ruleAt (g : Grammar) (s r : Nat) : List Symbol :=
  (g.rules.getD s []).getD r []

/-- `Grammar.get_symbol_at_point`: the symbol right after the dot, `none` when
the dot sits at the end of the rule. -/
def Grammar.get_symbol_at_point (g : Grammar) (pt : GrammarPoint) : Option Symbol :=
  (g.ruleAt pt.sym pt.rule).get? pt.dot

/-- `Grammar.terminal_symbol`: resolve a terminal token to its code; `none`
models the failing assertion (`UnknownTerminal`) when the token is not
registered as a terminal. -/
def Grammar.terminal_symbol (g : Grammar) (c : String) : Option Symbol :=
  match g.symbols.findIdx? (· == c) with
  | none => none
  | some i => if i ∈ g.terminals then some i else none

/-- The code of the reserved start nonterminal `"<start>"`
(`self.grammar.symbols.inverse[NonTerminal("<start>")]`). -/
def Grammar.startSymbol (g : Grammar) : Symbol :=
  (g.symbols.findIdx? (· == "<start>")).getD 0

/-- Well-formedness guaranteed by `Grammar.__init__` / `add_symbol` / `add_rule`:
the two reserved symbols sit at codes 0 and 1, the table is bijective, terminals
own no production rules, every referenced symbol is registered, and right-hand
sides are non-empty (spec §3 invariants). -/
def Grammar.WF (g : Grammar) : Prop :=
  g.symbols.get? 0 = some "<start>" ∧
  g.symbols.get? 1 = some "\x00" ∧
  g.symbols.Nodup ∧
  0 ∉ g.terminals ∧
  1 ∈ g.terminals ∧
  g.rules.length ≤ g.symbols.length ∧
  (∀ s ∈ g.terminals, s < g.symbols.length) ∧
  (∀ s ∈ g.terminals, g.rules.getD s [] = []) ∧
  (∀ rs ∈ g.rules, ∀ rhs ∈ rs, rhs ≠ [] ∧ ∀ x ∈ rhs, x < g.symbols.length)

instance (g : Grammar) : Decidable g.WF := by
  unfold Grammar.WF
  infer_instance

/-- All dotted points of the grammar's rules (the finite universe bounding
closure computations). -/
def pointUniverse (g : Grammar) : Finset GrammarPoint :=
  (Finset.range g.rules.length).biUnion fun s =>
    (Finset.range (g.rules.getD s []).length).biUnion fun r =>
      (Finset.range ((g.ruleAt s r).length + 1)).image fun d => ⟨s, r, d⟩

/-- A grammar point that references an existing alternative and a dot position
within the rule (spec §3: `dot` ranges over `[0, len(rule)]`). -/
def validPoint (g : Grammar) (p : GrammarPoint) : Prop :=
  p.sym < g.rules.length ∧
  p.rule < (g.rules.getD p.sym []).length ∧
  p.dot ≤ (g.ruleAt p.sym p.rule).length

instance (g : Grammar) (p : GrammarPoint) : Decidable (validPoint g p) := by
  unfold validPoint
  infer_instance

/-- The point kind of a `DeductionSpan` (`deduction.py`): a grammar point, a
star point, or a bare terminal symbol. -/
inductive DPoint where
  | gp (p : GrammarPoint)
  | sp (p : StarPoint)
  | sym (s : Symbol)
deriving DecidableEq, Repr

/-- `DeductionSpan` from `deduction.py`: a point (or symbol) matched over a
half-open input range. -/
structure DeductionSpan where
  point : DPoint
  span : Nat × Nat
deriving DecidableEq, Repr

/-- `DeductionNode` from `deduction.py`: a span plus its ordered children. -/
inductive DeductionNode where
  | mk (span : DeductionSpan) (children : List DeductionNode)
deriving Repr

/-- The span at the root of a derivation node. -/
def DeductionNode.span : DeductionNode → DeductionSpan
  | .mk s _ => s

/-- The children of a derivation node. -/
def DeductionNode.children : DeductionNode → List DeductionNode
  | .mk _ c => c

mutual

/-- `goodLeaves t`: every leaf of the derivation tree is a bare-terminal span
of width exactly one. -/
def goodLeaves : DeductionNode → Bool
  | .mk s [] =>
    match s.point with
    | DPoint.sym _ => s.span.2 = s.span.1 + 1
    | _ => false
  | .mk _ (c :: cs) => goodLeaves c && goodLeavesList cs

/-- All leaves of all trees in the list are width-one terminal spans. -/
def goodLeavesList : List DeductionNode → Bool
  | [] => true
  | c :: cs => goodLeaves c && goodLeavesList cs

end

/-- `DeductionChart` from `naive_earley.py`, modelled as an association list;
guarded inserts append at the end, so earlier entries are earlier writes. -/
abbrev DeductionChart := List (DeductionSpan × DeductionSpan)

/-- Dictionary lookup in the deduction chart. -/
def dedLookup (dd : DeductionChart) (k : DeductionSpan) : Option DeductionSpan :=
  dd.lookup k

/-- The guarded write `if k not in dd: dd[k] = v` (first writer wins). -/
def dedInsert (dd : DeductionChart) (k v : DeductionSpan) : DeductionChart :=
  if (dedLookup dd k).isSome then dd else dd ++ [(k, v)]

namespace Naive

/-- `Item` from `naive_earley.py`: a partially parsed rule plus the input
position where the parse began. -/
structure Item where
  point : GrammarPoint
  beg : Nat
deriving DecidableEq, Repr

/-- `Item.proceed`: move the dot one step forward. -/
def Item.proceed (it : Item) : Item :=
  ⟨it.point.proceed, it.beg⟩

/-- `Item.deduction_span`. -/
def Item.deduction_span (it : Item) (e : Nat) : DeductionSpan :=
  ⟨DPoint.gp it.point, (it.beg, e)⟩

/-- Injective numeric key used only to give items a canonical enumeration
order (standing in for Python's unspecified set-iteration order). -/
def Item.key (i : Item) : Nat :=
  Nat.pair i.point.sym (Nat.pair i.point.rule (Nat.pair i.point.dot i.beg))

instance : LinearOrder Item :=
  LinearOrder.lift' Item.key (by
    intro a b h
    obtain ⟨⟨s, r, d⟩, pb⟩ := a
    obtain ⟨⟨s', r', d'⟩, pb'⟩ := b
    simp only [Item.key, Nat.pair_eq_pair] at h
    obtain ⟨h1, h2, h3, h4⟩ := h
    subst h1 h2 h3 h4
    rfl)

/-- A `State`: the set of items at one chart position. -/
abbrev State := Finset Item

/-- A `Chart`: the list of states, one per input position plus one. -/
abbrev Chart := List State

/-- Canonical enumeration of a state (insertion sort on the canonical item
order; it stands in for Python's unspecified set-iteration order). -/
def enumItems (s : State) : List Item :=
  Quot.liftOn s.val (fun l => l.insertionSort (· ≤ ·)) (fun _ _ h =>
    List.eq_of_perm_of_sorted
      ((List.perm_insertionSort _ _).trans (h.trans (List.perm_insertionSort _ _).symm))
      (List.sorted_insertionSort _ _) (List.sorted_insertionSort _ _))

/-- The body of `Earley.process` for one item `it` of the current state:
the same-position items (completions and predictions), the next-position
items (scans), and the updated deduction chart. -/
def processItem (g : Grammar) (chart : Chart) (cur_pos : Nat) (next_sym : Symbol)
    (dd : DeductionChart) (it : Item) : State × State × DeductionChart :=
  match g.get_symbol_at_point it.point with
  | none =>
    let more := ((chart.getD it.beg ∅).filter
      (fun cit => g.get_symbol_at_point cit.point = some it.point.sym)).image Item.proceed
    let it_span := it.deduction_span cur_pos
    (more, ∅,
      (enumItems more).foldl (fun m nit => dedInsert m (nit.deduction_span cur_pos) it_span) dd)
  | some s =>
    if s = next_sym then
      let nit := it.proceed
      (∅, {nit},
        dedInsert dd (nit.deduction_span (cur_pos + 1)) ⟨DPoint.sym s, (cur_pos, cur_pos + 1)⟩)
    else if s ∉ g.terminals then
      ((Finset.range (g.rules.getD s []).length).image (fun r => Item.mk ⟨s, r, 0⟩ cur_pos),
        ∅, dd)
    else (∅, ∅, dd)

/-- `Earley.process`: iterate `processItem` over the given enumeration of the
current state, accumulating same-position items, next-position items, and
deduction-chart writes. -/
def process (g : Grammar) (chart : Chart) (cur_pos : Nat) (items : List Item)
    (next_sym : Symbol) (dd : DeductionChart) : State × State × DeductionChart :=
  match items with
  | [] => (∅, ∅, dd)
  | it :: rest =>
    let r1 := processItem g chart cur_pos next_sym dd it
    let r2 := process g chart cur_pos rest next_sym r1.2.2
    (r1.1 ∪ r2.1, r1.2.1 ∪ r2.2.1, r2.2.2)

/-- The finite universe of items that can appear at positions `≤ cur`. -/
def itemUniverse (g : Grammar) (cur : Nat) : Finset Item :=
  (pointUniverse g).biUnion fun p => (Finset.range (cur + 1)).image fun b => ⟨p, b⟩

/-- The `while len(old) != 0` loop in `Earley.feed`, with explicit fuel. -/
def feedLoop (g : Grammar) (cur : Nat) (cid : Symbol) :
    Nat → Chart → State → State → DeductionChart → Chart × State × DeductionChart
  | 0, chart, _, new, dd => (chart, new, dd)
  | fuel + 1, chart, old, new, dd =>
    if old = ∅ then (chart, new, dd)
    else
      let r := process g chart cur (enumItems old) cid dd
      let old' := r.1 \ chart.getD cur ∅
      feedLoop g cur cid fuel (chart.set cur (chart.getD cur ∅ ∪ old')) old' (new ∪ r.2.1) r.2.2

/-- The `Earley` engine state of `naive_earley.py`. -/
structure Earley where
  grammar : Grammar
  chart : Chart
  deduced_by : DeductionChart
deriving DecidableEq

/-- `Earley.__init__`: seed `chart[0]` with one dot-0 item per alternative of
the start nonterminal. -/
def Earley.init (g : Grammar) : Earley :=
  ⟨g,
    [(Finset.range (g.rules.getD g.startSymbol []).length).image
      (fun r => Item.mk ⟨g.startSymbol, r, 0⟩ 0)],
    []⟩

/-- `Earley.feed` with explicit fuel for the inner closure loop; `none` models
the failing terminal lookup (`UnknownTerminal`). -/
def Earley.feedFuel (e : Earley) (c : String) (fuel : Nat) : Option Earley :=
  match e.grammar.terminal_symbol c with
  | none => none
  | some cid =>
    let cur := e.chart.length - 1
    let cur_state := e.chart.getD cur ∅
    let r0 := process e.grammar e.chart cur (enumItems cur_state) cid e.deduced_by
    let old1 := r0.1 \ cur_state
    let chart1 := e.chart.set cur (cur_state ∪ old1)
    let r := feedLoop e.grammar cur cid fuel chart1 old1 r0.2.1 r0.2.2
    some ⟨e.grammar, if c = "\x00" then r.1 else r.1 ++ [r.2.1], r.2.2⟩

/-- `Earley.feed`: the fuel provided always suffices to reach the closure
fixpoint (proved below for reachable engine states). -/
def Earley.feed (e : Earley) (c : String) : Option Earley :=
  e.feedFuel c ((itemUniverse e.grammar (e.chart.length - 1)).card + 1)

/-- `Earley.complete_items`. -/
def Earley.complete_items (e : Earley) (pos? : Option Nat) : List DeductionSpan :=
  let p := pos?.getD (e.chart.length - 1)
  (enumItems ((e.chart.getD p ∅).filter
    (fun c => c.point.sym = e.grammar.startSymbol ∧ e.grammar.get_symbol_at_point c.point = none))).map
    (fun c => c.deduction_span p)

/-- Feed a whole input followed by the end-of-input sentinel. -/
def run (g : Grammar) (input : List String) : Option Earley :=
  (input ++ ["\x00"]).foldlM Earley.feed (Earley.init g)

end Naive

/-- The inner `for dot in range(it.point.dot, 0, -1)` loop of
`trace_deduction`, recursing through the justification `tr` for each genuinely
distinct sub-derivation; returns the children in discovery order.  `none`
models a missing deduction entry (`MissingDeduction`). -/
def traceLoop (dd : DeductionChart) (tr : DeductionSpan → Option DeductionNode)
    (s r b : Nat) : Nat → Nat → Option (List DeductionNode)
  | 0, _ => some []
  | d + 1, e =>
    let t : DeductionSpan := ⟨DPoint.gp ⟨s, r, d + 1⟩, (b, e)⟩
    match dedLookup dd t with
    | none => none
    | some v =>
      if t = v then traceLoop dd tr s r b d v.span.1
      else
        match tr v with
        | none => none
        | some c => (traceLoop dd tr s r b d v.span.1).map (fun rest => c :: rest)

/-- `Earley.trace_deduction` from `naive_earley.py`, with fuel bounding the
recursion depth (the Python recursion is unbounded; sufficient fuel is
established below). -/
def trace_deduction (dd : DeductionChart) : Nat → DeductionSpan → Option DeductionNode
  | 0, _ => none
  | fuel + 1, it =>
    match it.point with
    | DPoint.gp p =>
      match traceLoop dd (trace_deduction dd fuel) p.sym p.rule it.span.1 p.dot it.span.2 with
      | none => none
      | some children => some (.mk it children.reverse)
    | _ => some (.mk it [])

namespace Fast

/-- The tagged union `Union[StarPoint, GrammarPoint]` used by the fast
engine's items. -/
inductive Point where
  | gp (p : GrammarPoint)
  | sp (p : StarPoint)
deriving DecidableEq, Repr

/-- `Item.proceed` dispatches on the point kind. -/
def Point.proceed : Point → Point
  | .gp p => .gp p.proceed
  | .sp p => .sp p.proceed

/-- `Item` from `fast_earley.py`. -/
structure Item where
  point : Point
  beg : Nat
deriving DecidableEq, Repr

/-- `Item.proceed`. -/
def Item.proceed (it : Item) : Item :=
  ⟨it.point.proceed, it.beg⟩

/-- Injective numeric key giving fast items a canonical enumeration order. -/
def Item.key (i : Item) : Nat :=
  match i.point with
  | .gp p => Nat.pair 0 (Nat.pair p.sym (Nat.pair p.rule (Nat.pair p.dot i.beg)))
  | .sp p => Nat.pair 1 (Nat.pair p.sym (Nat.pair (cond p.done 1 0) i.beg))

instance : LinearOrder Item :=
  LinearOrder.lift' Item.key (by
    intro a b h
    obtain ⟨pa, ba⟩ := a
    obtain ⟨pb, bb⟩ := b
    cases pa with
    | gp p =>
      cases pb with
      | gp q =>
        obtain ⟨s, r, d⟩ := p
        obtain ⟨s', r', d'⟩ := q
        simp only [Item.key, Nat.pair_eq_pair] at h
        obtain ⟨-, h1, h2, h3, h4⟩ := h
        subst h1 h2 h3 h4
        rfl
      | sp q =>
        simp only [Item.key, Nat.pair_eq_pair] at h
        exact absurd h.1 one_ne_zero.symm
    | sp p =>
      cases pb with
      | gp q =>
        simp only [Item.key, Nat.pair_eq_pair] at h
        exact absurd h.1 one_ne_zero
      | sp q =>
        obtain ⟨s, d⟩ := p
        obtain ⟨s', d'⟩ := q
        simp only [Item.key, Nat.pair_eq_pair] at h
        obtain ⟨-, h1, h2, h3⟩ := h
        subst h1 h3
        cases d <;> cases d' <;> simp_all)

/-- A `State` of the fast engine. -/
abbrev State := Finset Item

/-- A `Chart` of the fast engine. -/
abbrev Chart := List State

/-- Canonical enumeration of a fast state. -/
def enumItems (s : State) : List Item :=
  Quot.liftOn s.val (fun l => l.insertionSort (· ≤ ·)) (fun _ _ h =>
    List.eq_of_perm_of_sorted
      ((List.perm_insertionSort _ _).trans (h.trans (List.perm_insertionSort _ _).symm))
      (List.sorted_insertionSort _ _) (List.sorted_insertionSort _ _))

/-- Does this (grammar-point) item wait for nonterminal `A` right after its
dot?  Used by the star-completion filter in `Earley.process`. -/
def waitsFor (g : Grammar) (A : Symbol) (cit : Item) : Bool :=
  match cit.point with
  | Point.gp q => g.get_symbol_at_point q = some A
  | Point.sp _ => false

/-- The body of the fast `Earley.process` for one item of the current state. -/
def processItem (g : Grammar) (chart : Chart) (cur_pos : Nat) (next_sym : Symbol)
    (it : Item) : State × State :=
  match it.point with
  | Point.gp p =>
    match g.get_symbol_at_point p with
    | none =>
      (((chart.getD it.beg ∅).filter
        (fun cit => cit.point = Point.sp ⟨p.sym, false⟩)).image Item.proceed, ∅)
    | some s =>
      if s = next_sym then (∅, {it.proceed})
      else if s ∉ g.terminals then ({⟨Point.sp ⟨s, false⟩, cur_pos⟩}, ∅)
      else (∅, ∅)
  | Point.sp sp =>
    if sp.done then
      (((chart.getD it.beg ∅).filter (fun cit => waitsFor g sp.sym cit = true)).image
        Item.proceed, ∅)
    else
      ((Finset.range (g.rules.getD sp.sym []).length).image
        (fun r => Item.mk (Point.gp ⟨sp.sym, r, 0⟩) cur_pos), ∅)

/-- The fast `Earley.process` over an enumeration of the current state. -/
def process (g : Grammar) (chart : Chart) (cur_pos : Nat) (items : List Item)
    (next_sym : Symbol) : State × State :=
  match items with
  | [] => (∅, ∅)
  | it :: rest =>
    let r1 := processItem g chart cur_pos next_sym it
    let r2 := process g chart cur_pos rest next_sym
    (r1.1 ∪ r2.1, r1.2 ∪ r2.2)

/-- The finite universe of fast points. -/
def fastPointUniverse (g : Grammar) : Finset Point :=
  (pointUniverse g).image Point.gp ∪
    (Finset.range g.symbols.length).biUnion
      (fun s => {Point.sp ⟨s, false⟩, Point.sp ⟨s, true⟩})

/-- The finite universe of fast items at positions `≤ cur`. -/
def itemUniverse (g : Grammar) (cur : Nat) : Finset Item :=
  (fastPointUniverse g).biUnion fun p => (Finset.range (cur + 1)).image fun b => ⟨p, b⟩

/-- The `while len(old) != 0` loop of the fast `Earley.feed`. -/
def feedLoop (g : Grammar) (cur : Nat) (cid : Symbol) :
    Nat → Chart → State → State → Chart × State
  | 0, chart, _, new => (chart, new)
  | fuel + 1, chart, old, new =>
    if old = ∅ then (chart, new)
    else
      let r := process g chart cur (enumItems old) cid
      let old' := r.1 \ chart.getD cur ∅
      feedLoop g cur cid fuel (chart.set cur (chart.getD cur ∅ ∪ old')) old' (new ∪ r.2)

/-- The `Earley` engine state of `fast_earley.py`. -/
structure Earley where
  grammar : Grammar
  chart : Chart
deriving DecidableEq

/-- The fast `Earley.__init__`. -/
def Earley.init (g : Grammar) : Earley :=
  ⟨g,
    [(Finset.range (g.rules.getD g.startSymbol []).length).image
      (fun r => Item.mk (Point.gp ⟨g.startSymbol, r, 0⟩) 0)]⟩

/-- The fast `Earley.feed` with explicit fuel. -/
def Earley.feedFuel (e : Earley) (c : String) (fuel : Nat) : Option Earley :=
  match e.grammar.terminal_symbol c with
  | none => none
  | some cid =>
    let cur := e.chart.length - 1
    let cur_state := e.chart.getD cur ∅
    let r0 := process e.grammar e.chart cur (enumItems cur_state) cid
    let old1 := r0.1 \ cur_state
    let chart1 := e.chart.set cur (cur_state ∪ old1)
    let r := feedLoop e.grammar cur cid fuel chart1 old1 r0.2
    some ⟨e.grammar, if c = "\x00" then r.1 else r.1 ++ [r.2]⟩

/-- The fast `Earley.feed`. -/
def Earley.feed (e : Earley) (c : String) : Option Earley :=
  e.feedFuel c ((itemUniverse e.grammar (e.chart.length - 1)).card + 1)

/-- Is this a fully matched grammar-point item of the start nonterminal?
(The filter of `complete_items`, on fast items.) -/
def completeStart (g : Grammar) (c : Item) : Bool :=
  match c.point with
  | Point.gp q => decide (q.sym = g.startSymbol) && decide (g.get_symbol_at_point q = none)
  | Point.sp _ => false

/-- Modelled from the spec: `fast_earley.Earley.complete_items` is called by
the repository's tests (`test_earley.py`, `TestFastEarley.test_simple`) but is
absent from the sources; spec §4.3/§6 require the fast engine to expose the
same `complete_items` surface as the naive engine, so this mirrors the naive
implementation on the fast item type (grammar-point items only). -/
def Earley.complete_items (e : Earley) (pos? : Option Nat) : List DeductionSpan :=
  let p := pos?.getD (e.chart.length - 1)
  (enumItems ((e.chart.getD p ∅).filter
    (fun c => completeStart e.grammar c = true))).filterMap
    (fun c => match c.point with
      | Point.gp q => some ⟨DPoint.gp q, (c.beg, p)⟩
      | Point.sp _ => none)

/-- Feed a whole input followed by the end-of-input sentinel (fast engine). -/
def run (g : Grammar) (input : List String) : Option Earley :=
  (input ++ ["\x00"]).foldlM Earley.feed (Earley.init g)

end Fast

namespace Naive

/-- The same-position contributions (completions and predictions) of one item,
as computed by `processItem`; independent of the deduction chart. -/
def contribOld (g : Grammar) (chart : Chart) (cur_pos : Nat) (next_sym : Symbol)
    (it : Item) : State :=
  (processItem g chart cur_pos next_sym [] it).1

/-- The next-position contributions (scans) of one item. -/
def contribNew (g : Grammar) (chart : Chart) (cur_pos : Nat) (next_sym : Symbol)
    (it : Item) : State :=
  (processItem g chart cur_pos next_sym [] it).2.1

end Naive

namespace Fast

/-- The same-position contributions of one fast item. -/
def contribOld (g : Grammar) (chart : Chart) (cur_pos : Nat) (next_sym : Symbol)
    (it : Item) : State :=
  (processItem g chart cur_pos next_sym it).1

/-- The next-position contributions (scans) of one fast item. -/
def contribNew (g : Grammar) (chart : Chart) (cur_pos : Nat) (next_sym : Symbol)
    (it : Item) : State :=
  (processItem g chart cur_pos next_sym it).2

end Fast

/-- The toy grammar of `test_earley.py` (`<start> -> A A`, `A -> A a | b A | c`),
with the registration order of the tests: codes `<start>` 0, `"\x00"` 1, `A` 2,
`a` 3, `b` 4, `c` 5. -/
def toyGrammar : Grammar :=
  ⟨["<start>", "\x00", "A", "a", "b", "c"], {1, 3, 4, 5},
   [[[2, 2]], [], [[2, 3], [4, 2], [5]], [], [], []]⟩

/-- A grammar whose start nonterminal occurs on a right-hand side
(`<start> -> a | <start> <start>`): codes `<start>` 0, `"\x00"` 1, `a` 2. -/
def cexGrammar : Grammar :=
  ⟨["<start>", "\x00", "a"], {1, 2}, [[[2], [0, 0]], [], []]⟩

/-- Is this fast point a grammar point (not a star point)? -/
def Fast.Point.isGp : Fast.Point → Bool
  | .gp _ => true
  | .sp _ => false

/-- The grammar point under a fast point (junk value on star points; only used
beneath an `isGp` filter). -/
def Fast.Point.toGp : Fast.Point → GrammarPoint
  | .gp q => q
  | .sp p => ⟨p.sym, 0, 0⟩

/-- The Grammar-Point items of a fast state, as naive items (the projection
under which the two engines are compared; star items are dropped). -/
def fastGpItems (s : Fast.State) : Finset Naive.Item :=
  (s.filter (fun it => it.point.isGp = true)).image (fun it => ⟨it.point.toGp, it.beg⟩)

/-- The generic least-closure predicate: everything reachable from `seed` by
repeatedly applying the one-item contribution map `f`. -/
inductive Clos {α : Type} (f : α → Finset α) (seed : Finset α) : α → Prop
  | base {x : α} : x ∈ seed → Clos f seed x
  | step {x y : α} : Clos f seed x → y ∈ f x → Clos f seed y

namespace Naive

/-- The same-position contributions (completions and predictions) of one item,
written without the next terminal: for a terminal next symbol the same-position
contribution is empty whichever terminal is scanned next. -/
def closOld (g : Grammar) (chart : Chart) (cur : Nat) (it : Item) : State :=
  match g.get_symbol_at_point it.point with
  | none =>
    ((chart.getD it.beg ∅).filter
      (fun cit => g.get_symbol_at_point cit.point = some it.point.sym)).image Item.proceed
  | some s =>
    if s ∉ g.terminals then
      (Finset.range (g.rules.getD s []).length).image (fun r => Item.mk ⟨s, r, 0⟩ cur)
    else ∅

/-- The scan contribution of one item for next terminal `cid`. -/
def scanContrib (g : Grammar) (cid : Symbol) (it : Item) : State :=
  if g.get_symbol_at_point it.point = some cid then {it.proceed} else ∅

/-- The invariant of an item stored at chart position `p`: valid point, origin
at most `p`, and a zero-width item can only be a fresh prediction (dot 0). -/
def validItem (g : Grammar) (p : Nat) (it : Item) : Prop :=
  validPoint g it.point ∧ it.beg ≤ p ∧ (it.beg = p → it.point.dot = 0)

/-- The run invariant of a naive engine state: every stored item is valid for
its position, and every state but the last is closed under predictions and
completions. -/
def EngineInv (g : Grammar) (e : Earley) : Prop :=
  e.grammar = g ∧ e.chart ≠ [] ∧
  (∀ b it, it ∈ e.chart.getD b ∅ → validItem g b it) ∧
  (∀ p, p < e.chart.length - 1 → ∀ it ∈ e.chart.getD p ∅,
    closOld g e.chart p it ⊆ e.chart.getD p ∅)

end Naive

namespace Fast

/-- The same-position contributions of one fast item, written without the next
terminal. -/
def closOld (g : Grammar) (chart : Chart) (cur : Nat) (it : Item) : State :=
  match it.point with
  | Point.gp p =>
    match g.get_symbol_at_point p with
    | none =>
      ((chart.getD it.beg ∅).filter
        (fun cit => cit.point = Point.sp ⟨p.sym, false⟩)).image Item.proceed
    | some s =>
      if s ∉ g.terminals then {⟨Point.sp ⟨s, false⟩, cur⟩} else ∅
  | Point.sp sp =>
    if sp.done then
      ((chart.getD it.beg ∅).filter (fun cit => waitsFor g sp.sym cit = true)).image
        Item.proceed
    else
      (Finset.range (g.rules.getD sp.sym []).length).image
        (fun r => Item.mk (Point.gp ⟨sp.sym, r, 0⟩) cur)

/-- The scan contribution of one fast item (star points never scan). -/
def scanContrib (g : Grammar) (cid : Symbol) (it : Item) : State :=
  match it.point with
  | Point.gp p => if g.get_symbol_at_point p = some cid then {it.proceed} else ∅
  | Point.sp _ => ∅

/-- The invariant of a fast item stored at chart position `p`: grammar-point
items as in the naive engine; a not-yet-done star lives where it was
predicted, a done star always records an earlier origin. -/
def validItem (g : Grammar) (p : Nat) (it : Item) : Prop :=
  match it.point with
  | Point.gp q => validPoint g q ∧ it.beg ≤ p ∧ (it.beg = p → q.dot = 0)
  | Point.sp sp =>
    it.beg ≤ p ∧ sp.sym < g.symbols.length ∧ sp.sym ∉ g.terminals ∧
      (sp.done = false → it.beg = p) ∧ (sp.done = true → it.beg ≠ p)

/-- The run invariant of a fast engine state. -/
def EngineInv (g : Grammar) (e : Earley) : Prop :=
  e.grammar = g ∧ e.chart ≠ [] ∧
  (∀ b it, it ∈ e.chart.getD b ∅ → validItem g b it) ∧
  (∀ p, p < e.chart.length - 1 → ∀ it ∈ e.chart.getD p ∅,
    closOld g e.chart p it ⊆ e.chart.getD p ∅)

end Fast

/-- Characterization of the not-yet-done star items of a closed fast state:
exactly one per nonterminal that some grammar-point item of the state is
waiting for. -/
def starCharF (g : Grammar) (chart : Fast.Chart) (p : Nat) : Prop :=
  ∀ A b, (⟨Fast.Point.sp ⟨A, false⟩, b⟩ : Fast.Item) ∈ chart.getD p ∅ ↔
    (b = p ∧ A ∉ g.terminals ∧
      ∃ q : GrammarPoint, ∃ bq : Nat,
        (⟨Fast.Point.gp q, bq⟩ : Fast.Item) ∈ chart.getD p ∅ ∧
        g.get_symbol_at_point q = some A)

/-- Characterization of the done star items of a closed fast state: exactly
the stars predicted at their origin whose nonterminal has a fully matched
alternative with that origin in the state. -/
def starCharT (g : Grammar) (chart : Fast.Chart) (p : Nat) : Prop :=
  ∀ A b, (⟨Fast.Point.sp ⟨A, true⟩, b⟩ : Fast.Item) ∈ chart.getD p ∅ ↔
    ((⟨Fast.Point.sp ⟨A, false⟩, b⟩ : Fast.Item) ∈ chart.getD b ∅ ∧
      ∃ q : GrammarPoint, q.sym = A ∧ g.get_symbol_at_point q = none ∧
        (⟨Fast.Point.gp q, b⟩ : Fast.Item) ∈ chart.getD p ∅)

/-- A fast state containing no star items (initial and freshly scanned
states). -/
def noStars (s : Fast.State) : Prop :=
  ∀ it ∈ s, it.point.isGp = true

/-- The coupled invariant of a naive and a fast engine run on the same grammar
and input: equal chart lengths, equal Grammar-Point items at every position,
and the star items of every closed fast state characterized. -/
def Coupled (g : Grammar) (en : Naive.Earley) (ef : Fast.Earley) : Prop :=
  Naive.EngineInv g en ∧ Fast.EngineInv g ef ∧
  en.chart.length = ef.chart.length ∧
  (∀ i, fastGpItems (ef.chart.getD i ∅) = en.chart.getD i ∅) ∧
  (∀ p, p < en.chart.length - 1 → starCharF g ef.chart p ∧ starCharT g ef.chart p) ∧
  (noStars (ef.chart.getD (ef.chart.length - 1) ∅) ∨
    (starCharF g ef.chart (ef.chart.length - 1) ∧ starCharT g ef.chart (ef.chart.length - 1)))

/-- A token registered as a terminal of the grammar (the precondition for a
successful `feed`). -/
def registeredTerminal (g : Grammar) (tok : String) : Prop :=
  (g.terminal_symbol tok).isSome = true

/-- The position of the first entry of the deduction chart carrying key `k`
(the entry `dedLookup` returns). -/
def keyIdx (dd : DeductionChart) (k : DeductionSpan) : Option Nat :=
  match dd with
  | [] => none
  | e :: rest => if e.1 = k then some 0 else (keyIdx rest k).map (· + 1)

/-- Well-formedness of the deduction-chart entry `(k, v)` sitting at index
`i`: the key is a dotted Grammar-Point span; the value is either a width-one
terminal span ending where the key ends (a scan justification) or a dotted
Grammar-Point span ending where the key ends whose own key occurs strictly
earlier in the chart (a completion justification); and when the key's dot is
above one, the span of the one-step-shorter item also occurs as a key
strictly earlier.  Write order makes these indices decrease, which is what
drives `trace_deduction` to a well-founded finish. -/
def GoodEntry (dd : DeductionChart) (i : Nat) (k v : DeductionSpan) : Prop :=
  ∃ pk : GrammarPoint, ∃ kb ke : Nat, k = ⟨DPoint.gp pk, (kb, ke)⟩ ∧ 1 ≤ pk.dot ∧
    ((∃ s : Symbol, v = ⟨DPoint.sym s, (ke - 1, ke)⟩ ∧ kb < ke) ∨
      (∃ pv : GrammarPoint, ∃ vb : Nat, v = ⟨DPoint.gp pv, (vb, ke)⟩ ∧ 1 ≤ pv.dot ∧
        kb ≤ vb ∧ vb < ke ∧
        ∃ j, j < i ∧ ∃ v' : DeductionSpan, dd.get? j = some (v, v'))) ∧
    (1 < pk.dot → ∃ j, j < i ∧ ∃ v' : DeductionSpan,
      dd.get? j = some (⟨DPoint.gp ⟨pk.sym, pk.rule, pk.dot - 1⟩, (kb, v.span.1)⟩, v'))

/-- Every entry of the deduction chart is well-formed at its index. -/
def DdGood (dd : DeductionChart) : Prop :=
  ∀ i k v, dd.get? i = some (k, v) → GoodEntry dd i k v

/-- The run invariant tying the naive engine's deduction chart to its item
chart: the deduction chart is entrywise well-formed, and every stored item
with at least one consumed symbol has a justification entry under its span. -/
def TraceInv (e : Naive.Earley) : Prop :=
  DdGood e.deduced_by ∧
  ∀ p it, it ∈ e.chart.getD p ∅ → 1 ≤ it.point.dot →
    (dedLookup e.deduced_by (it.deduction_span p)).isSome = true

/-!  ## Basic lemmas about the embedded operations  -/

theorem getD_set_same {α : Type} (l : List α) (j : Nat) (a d : α) :
    (l.set j a).getD j d = if j < l.length then a else l.getD j d := by
  by_cases h : j < l.length
  · simp [List.getD_eq_getElem?_getD, List.getElem?_set_self h, h]
  · rw [List.set_eq_of_length_le (by omega)]
    simp [h]

theorem getD_set_ne {α : Type} (l : List α) (j i : Nat) (a d : α) (h : j ≠ i) :
    (l.set j a).getD i d = l.getD i d := by
  simp [List.getD_eq_getElem?_getD, List.getElem?_set_ne h]

theorem dedLookup_dedInsert_of_some {dd : DeductionChart} {k' v' : DeductionSpan}
    (k v : DeductionSpan) (h : dedLookup dd k' = some v') :
    dedLookup (dedInsert dd k v) k' = some v' := by
  unfold dedInsert
  split
  · exact h
  · unfold dedLookup at h ⊢
    rw [List.lookup_append, h]
    rfl

theorem dedLookup_foldl_of_some {β : Type} {dd : DeductionChart} {k' v' : DeductionSpan}
    (L : List β) (f : β → DeductionSpan) (w : β → DeductionSpan)
    (h : dedLookup dd k' = some v') :
    dedLookup (L.foldl (fun m x => dedInsert m (f x) (w x)) dd) k' = some v' := by
  induction L generalizing dd with
  | nil => exact h
  | cons a l ih => exact ih (dedLookup_dedInsert_of_some _ _ h)

namespace Naive

theorem mem_enumItems {s : State} {x : Item} : x ∈ enumItems s ↔ x ∈ s := by
  rcases s with ⟨m, hnd⟩
  induction m using Quotient.inductionOn with
  | h l =>
    simp only [enumItems, Finset.mem_mk]
    change x ∈ l.insertionSort (· ≤ ·) ↔ _
    rw [(List.perm_insertionSort _ _).mem_iff]
    simp

theorem processItem_fst (g : Grammar) (chart : Chart) (cur_pos : Nat) (next_sym : Symbol)
    (dd : DeductionChart) (it : Item) :
    (processItem g chart cur_pos next_sym dd it).1 = contribOld g chart cur_pos next_sym it := by
  cases h : g.get_symbol_at_point it.point <;>
    simp only [processItem, contribOld, h] <;> try rfl
  split_ifs <;> rfl

theorem processItem_snd (g : Grammar) (chart : Chart) (cur_pos : Nat) (next_sym : Symbol)
    (dd : DeductionChart) (it : Item) :
    (processItem g chart cur_pos next_sym dd it).2.1 = contribNew g chart cur_pos next_sym it := by
  cases h : g.get_symbol_at_point it.point <;>
    simp only [processItem, contribNew, h] <;> try rfl
  split_ifs <;> rfl

theorem processItem_dd_extends (g : Grammar) (chart : Chart) (cur_pos : Nat)
    (next_sym : Symbol) (dd : DeductionChart) (it : Item) {k v : DeductionSpan}
    (h : dedLookup dd k = some v) :
    dedLookup (processItem g chart cur_pos next_sym dd it).2.2 k = some v := by
  cases hs : g.get_symbol_at_point it.point <;> simp only [processItem, hs]
  · exact dedLookup_foldl_of_some _ _ _ h
  · split_ifs
    · exact dedLookup_dedInsert_of_some _ _ h
    · exact h
    · exact h

theorem process_fst_mem (g : Grammar) (chart : Chart) (cur_pos : Nat)
    (items : List Item) (next_sym : Symbol) (dd : DeductionChart) (x : Item) :
    x ∈ (process g chart cur_pos items next_sym dd).1 ↔
      ∃ it ∈ items, x ∈ contribOld g chart cur_pos next_sym it := by
  induction items generalizing dd with
  | nil => simp [process]
  | cons a l ih =>
    simp only [process, Finset.mem_union, processItem_fst, ih, List.mem_cons]
    constructor
    · rintro (h | ⟨it, hit, hx⟩)
      · exact ⟨a, Or.inl rfl, h⟩
      · exact ⟨it, Or.inr hit, hx⟩
    · rintro ⟨it, (rfl | hit), hx⟩
      · exact Or.inl hx
      · exact Or.inr ⟨it, hit, hx⟩

theorem process_snd_mem (g : Grammar) (chart : Chart) (cur_pos : Nat)
    (items : List Item) (next_sym : Symbol) (dd : DeductionChart) (x : Item) :
    x ∈ (process g chart cur_pos items next_sym dd).2.1 ↔
      ∃ it ∈ items, x ∈ contribNew g chart cur_pos next_sym it := by
  induction items generalizing dd with
  | nil => simp [process]
  | cons a l ih =>
    simp only [process, Finset.mem_union, processItem_snd, ih, List.mem_cons]
    constructor
    · rintro (h | ⟨it, hit, hx⟩)
      · exact ⟨a, Or.inl rfl, h⟩
      · exact ⟨it, Or.inr hit, hx⟩
    · rintro ⟨it, (rfl | hit), hx⟩
      · exact Or.inl hx
      · exact Or.inr ⟨it, hit, hx⟩

theorem process_dd_extends (g : Grammar) (chart : Chart) (cur_pos : Nat)
    (items : List Item) (next_sym : Symbol) (dd : DeductionChart) {k v : DeductionSpan}
    (h : dedLookup dd k = some v) :
    dedLookup (process g chart cur_pos items next_sym dd).2.2 k = some v := by
  induction items generalizing dd with
  | nil => exact h
  | cons a l ih => exact ih _ (processItem_dd_extends _ _ _ _ _ _ h)

theorem feedLoop_length (g : Grammar) (cur : Nat) (cid : Symbol) (fuel : Nat)
    (chart : Chart) (old new : State) (dd : DeductionChart) :
    (feedLoop g cur cid fuel chart old new dd).1.length = chart.length := by
  induction fuel generalizing chart old new dd with
  | zero => rfl
  | succ n ih =>
    by_cases h : old = ∅ <;> simp [feedLoop, h, ih, List.length_set]

theorem feedLoop_getD_ne (g : Grammar) (cur : Nat) (cid : Symbol) (fuel : Nat)
    (chart : Chart) (old new : State) (dd : DeductionChart) (i : Nat) (hi : i ≠ cur) :
    (feedLoop g cur cid fuel chart old new dd).1.getD i ∅ = chart.getD i ∅ := by
  induction fuel generalizing chart old new dd with
  | zero => rfl
  | succ n ih =>
    by_cases h : old = ∅
    · simp [feedLoop, h]
    · simp only [feedLoop]
      rw [if_neg h, ih]
      exact getD_set_ne _ _ _ _ _ (Ne.symm hi)

theorem feedLoop_getD_cur_subset (g : Grammar) (cur : Nat) (cid : Symbol) (fuel : Nat)
    (chart : Chart) (old new : State) (dd : DeductionChart) :
    chart.getD cur ∅ ⊆ (feedLoop g cur cid fuel chart old new dd).1.getD cur ∅ := by
  induction fuel generalizing chart old new dd with
  | zero => exact fun _ h => h
  | succ n ih =>
    by_cases h : old = ∅
    · simp [feedLoop, h]
    · simp only [feedLoop]
      rw [if_neg h]
      refine Finset.Subset.trans ?_ (ih _ _ _ _)
      rw [getD_set_same]
      split
      · exact Finset.subset_union_left
      · exact fun _ h => h

theorem feedLoop_dd_extends (g : Grammar) (cur : Nat) (cid : Symbol) (fuel : Nat)
    (chart : Chart) (old new : State) (dd : DeductionChart) {k v : DeductionSpan}
    (h : dedLookup dd k = some v) :
    dedLookup (feedLoop g cur cid fuel chart old new dd).2.2 k = some v := by
  induction fuel generalizing chart old new dd with
  | zero => exact h
  | succ n ih =>
    by_cases he : old = ∅
    · simp only [feedLoop]
      rw [if_pos he]
      exact h
    · simp only [feedLoop]
      rw [if_neg he]
      exact ih _ _ _ _ (process_dd_extends _ _ _ _ _ _ h)

end Naive

theorem getD_append_left {α : Type} (l l' : List α) (i : Nat) (d : α) (h : i < l.length) :
    (l ++ l').getD i d = l.getD i d := by
  simp [List.getD_eq_getElem?_getD, List.getElem?_append, h]

namespace Fast

theorem mem_enumItemsF {s : State} {x : Item} : x ∈ enumItems s ↔ x ∈ s := by
  rcases s with ⟨m, hnd⟩
  induction m using Quotient.inductionOn with
  | h l =>
    simp only [enumItems, Finset.mem_mk]
    change x ∈ l.insertionSort (· ≤ ·) ↔ _
    rw [(List.perm_insertionSort _ _).mem_iff]
    simp

theorem process_fst_memF (g : Grammar) (chart : Chart) (cur_pos : Nat)
    (items : List Item) (next_sym : Symbol) (x : Item) :
    x ∈ (process g chart cur_pos items next_sym).1 ↔
      ∃ it ∈ items, x ∈ contribOld g chart cur_pos next_sym it := by
  induction items with
  | nil => simp [process]
  | cons a l ih =>
    simp only [process, Finset.mem_union, ih, List.mem_cons]
    constructor
    · rintro (h | ⟨it, hit, hx⟩)
      · exact ⟨a, Or.inl rfl, h⟩
      · exact ⟨it, Or.inr hit, hx⟩
    · rintro ⟨it, (rfl | hit), hx⟩
      · exact Or.inl hx
      · exact Or.inr ⟨it, hit, hx⟩

theorem process_snd_memF (g : Grammar) (chart : Chart) (cur_pos : Nat)
    (items : List Item) (next_sym : Symbol) (x : Item) :
    x ∈ (process g chart cur_pos items next_sym).2 ↔
      ∃ it ∈ items, x ∈ contribNew g chart cur_pos next_sym it := by
  induction items with
  | nil => simp [process]
  | cons a l ih =>
    simp only [process, Finset.mem_union, ih, List.mem_cons]
    constructor
    · rintro (h | ⟨it, hit, hx⟩)
      · exact ⟨a, Or.inl rfl, h⟩
      · exact ⟨it, Or.inr hit, hx⟩
    · rintro ⟨it, (rfl | hit), hx⟩
      · exact Or.inl hx
      · exact Or.inr ⟨it, hit, hx⟩

theorem feedLoop_lengthF (g : Grammar) (cur : Nat) (cid : Symbol) (fuel : Nat)
    (chart : Chart) (old new : State) :
    (feedLoop g cur cid fuel chart old new).1.length = chart.length := by
  induction fuel generalizing chart old new with
  | zero => rfl
  | succ n ih =>
    by_cases h : old = ∅ <;> simp [feedLoop, h, ih, List.length_set]

theorem feedLoop_getD_neF (g : Grammar) (cur : Nat) (cid : Symbol) (fuel : Nat)
    (chart : Chart) (old new : State) (i : Nat) (hi : i ≠ cur) :
    (feedLoop g cur cid fuel chart old new).1.getD i ∅ = chart.getD i ∅ := by
  induction fuel generalizing chart old new with
  | zero => rfl
  | succ n ih =>
    by_cases h : old = ∅
    · simp [feedLoop, h]
    · simp only [feedLoop]
      rw [if_neg h, ih]
      exact getD_set_ne _ _ _ _ _ (Ne.symm hi)

theorem feedLoop_getD_cur_subsetF (g : Grammar) (cur : Nat) (cid : Symbol) (fuel : Nat)
    (chart : Chart) (old new : State) :
    chart.getD cur ∅ ⊆ (feedLoop g cur cid fuel chart old new).1.getD cur ∅ := by
  induction fuel generalizing chart old new with
  | zero => exact fun _ h => h
  | succ n ih =>
    by_cases h : old = ∅
    · simp [feedLoop, h]
    · simp only [feedLoop]
      rw [if_neg h]
      refine Finset.Subset.trans ?_ (ih _ _ _)
      rw [getD_set_same]
      split
      · exact Finset.subset_union_left
      · exact fun _ h => h

end Fast

/-- C4: feeding the end-of-input sentinel leaves the chart length unchanged
while the final state may only gain items; feeding any other registered
terminal appends exactly one state; and a feed call never modifies a chart
state at a position other than the current last position.  Both engines. -/
theorem C4_feed_frame_effect :
    (∀ (e : Naive.Earley) (c : String) (e' : Naive.Earley), e.feed c = some e' →
      (c = "\x00" → e'.chart.length = e.chart.length ∧
        e.chart.getD (e.chart.length - 1) ∅ ⊆ e'.chart.getD (e.chart.length - 1) ∅) ∧
      (c ≠ "\x00" → e'.chart.length = e.chart.length + 1) ∧
      (∀ i, i ≠ e.chart.length - 1 → i < e.chart.length →
        e'.chart.getD i ∅ = e.chart.getD i ∅)) ∧
    (∀ (e : Fast.Earley) (c : String) (e' : Fast.Earley), e.feed c = some e' →
      (c = "\x00" → e'.chart.length = e.chart.length ∧
        e.chart.getD (e.chart.length - 1) ∅ ⊆ e'.chart.getD (e.chart.length - 1) ∅) ∧
      (c ≠ "\x00" → e'.chart.length = e.chart.length + 1) ∧
      (∀ i, i ≠ e.chart.length - 1 → i < e.chart.length →
        e'.chart.getD i ∅ = e.chart.getD i ∅)) := by
  constructor
  · intro e c e' h
    unfold Naive.Earley.feed Naive.Earley.feedFuel at h
    cases hts : e.grammar.terminal_symbol c with
    | none => rw [hts] at h; cases h
    | some cid =>
      rw [hts] at h
      simp only [Option.some_inj] at h
      subst h
      set cur := e.chart.length - 1 with hcur
      set cur_state := e.chart.getD cur ∅ with hcs
      set fuel := (Naive.itemUniverse e.grammar (e.chart.length - 1)).card + 1 with hfuel
      set r0 := Naive.process e.grammar e.chart cur (Naive.enumItems cur_state) cid e.deduced_by
        with hr0
      set old1 := r0.1 \ cur_state with hold1
      set chart1 := e.chart.set cur (cur_state ∪ old1) with hchart1
      have hlen1 : chart1.length = e.chart.length := List.length_set _ _ _
      have hloop_len :
          (Naive.feedLoop e.grammar cur cid fuel chart1 old1 r0.2.1 r0.2.2).1.length =
            e.chart.length := by
        rw [Naive.feedLoop_length, hlen1]
      have hslot : ∀ i, i ≠ cur →
          (Naive.feedLoop e.grammar cur cid fuel chart1 old1 r0.2.1 r0.2.2).1.getD i ∅ =
            e.chart.getD i ∅ := by
        intro i hi
        rw [Naive.feedLoop_getD_ne _ _ _ _ _ _ _ _ _ hi, hchart1,
          getD_set_ne _ _ _ _ _ (Ne.symm hi)]
      have hgrow :
          e.chart.getD cur ∅ ⊆
            (Naive.feedLoop e.grammar cur cid fuel chart1 old1 r0.2.1 r0.2.2).1.getD cur ∅ := by
        refine Finset.Subset.trans ?_ (Naive.feedLoop_getD_cur_subset _ _ _ _ _ _ _ _)
        rw [hchart1, getD_set_same]
        split
        · exact Finset.subset_union_left
        · exact fun _ hx => hx
      refine ⟨fun hc => ?_, fun hc => ?_, fun i hi hilt => ?_⟩
      · rw [if_pos hc]
        exact ⟨hloop_len, hgrow⟩
      · rw [if_neg hc]
        simp [hloop_len]
      · by_cases hsent : c = "\x00"
        · rw [if_pos hsent]
          exact hslot i hi
        · rw [if_neg hsent]
          rw [getD_append_left _ _ _ _ (by rw [hloop_len]; exact hilt)]
          exact hslot i hi
  · intro e c e' h
    unfold Fast.Earley.feed Fast.Earley.feedFuel at h
    cases hts : e.grammar.terminal_symbol c with
    | none => rw [hts] at h; cases h
    | some cid =>
      rw [hts] at h
      simp only [Option.some_inj] at h
      subst h
      set cur := e.chart.length - 1 with hcur
      set cur_state := e.chart.getD cur ∅ with hcs
      set fuel := (Fast.itemUniverse e.grammar (e.chart.length - 1)).card + 1 with hfuel
      set r0 := Fast.process e.grammar e.chart cur (Fast.enumItems cur_state) cid with hr0
      set old1 := r0.1 \ cur_state with hold1
      set chart1 := e.chart.set cur (cur_state ∪ old1) with hchart1
      have hlen1 : chart1.length = e.chart.length := List.length_set _ _ _
      have hloop_len :
          (Fast.feedLoop e.grammar cur cid fuel chart1 old1 r0.2).1.length = e.chart.length := by
        rw [Fast.feedLoop_lengthF, hlen1]
      have hslot : ∀ i, i ≠ cur →
          (Fast.feedLoop e.grammar cur cid fuel chart1 old1 r0.2).1.getD i ∅ =
            e.chart.getD i ∅ := by
        intro i hi
        rw [Fast.feedLoop_getD_neF _ _ _ _ _ _ _ _ hi, hchart1,
          getD_set_ne _ _ _ _ _ (Ne.symm hi)]
      have hgrow :
          e.chart.getD cur ∅ ⊆
            (Fast.feedLoop e.grammar cur cid fuel chart1 old1 r0.2).1.getD cur ∅ := by
        refine Finset.Subset.trans ?_ (Fast.feedLoop_getD_cur_subsetF _ _ _ _ _ _ _)
        rw [hchart1, getD_set_same]
        split
        · exact Finset.subset_union_left
        · exact fun _ hx => hx
      refine ⟨fun hc => ?_, fun hc => ?_, fun i hi hilt => ?_⟩
      · rw [if_pos hc]
        exact ⟨hloop_len, hgrow⟩
      · rw [if_neg hc]
        simp [hloop_len]
      · by_cases hsent : c = "\x00"
        · rw [if_pos hsent]
          exact hslot i hi
        · rw [if_neg hsent]
          rw [getD_append_left _ _ _ _ (by rw [hloop_len]; exact hilt)]
          exact hslot i hi

/-- Witness for C4 at a concrete input: feeding `"c"` to the freshly
initialised naive engine on the toy grammar appends exactly one state. -/
theorem C4_feed_frame_effect_witness :
    ∃ e' : Naive.Earley, (Naive.Earley.init toyGrammar).feed "c" = some e' ∧
      e'.chart.length = (Naive.Earley.init toyGrammar).chart.length + 1 := by
  have h : ((Naive.Earley.init toyGrammar).feed "c").isSome = true := by decide
  obtain ⟨e', he⟩ := Option.isSome_iff_exists.mp h
  exact ⟨e', he, (C4_feed_frame_effect.1 _ _ _ he).2.1 (by decide)⟩

theorem terminal_symbol_eq_none (g : Grammar) (tok : String)
    (h : ∀ i, g.symbols.get? i = some tok → i ∉ g.terminals) :
    g.terminal_symbol tok = none := by
  unfold Grammar.terminal_symbol
  cases hf : g.symbols.findIdx? (· == tok) with
  | none => rfl
  | some j =>
    obtain ⟨hj, hpj, -⟩ := List.findIdx?_eq_some_iff_getElem.mp hf
    have : g.symbols.get? j = some tok := by
      rw [List.get?_eq_getElem?]
      simp only [beq_iff_eq] at hpj
      exact List.getElem?_eq_some.mpr ⟨hj, hpj⟩
    simp [h j this]

theorem terminal_symbol_eq_some (g : Grammar) (tok : String) (i : Nat)
    (hnd : g.symbols.Nodup)
    (hget : g.symbols.get? i = some tok) (hterm : i ∈ g.terminals) :
    g.terminal_symbol tok = some i := by
  unfold Grammar.terminal_symbol
  obtain ⟨hi, hgi⟩ := List.getElem?_eq_some.mp (by rw [← List.get?_eq_getElem?]; exact hget)
  cases hf : g.symbols.findIdx? (· == tok) with
  | none =>
    rw [List.findIdx?_eq_none_iff] at hf
    have := hf _ (List.getElem_mem hi)
    simp [hgi] at this
  | some j =>
    obtain ⟨hj, hpj, -⟩ := List.findIdx?_eq_some_iff_getElem.mp hf
    simp only [beq_iff_eq] at hpj
    have : j = i := (List.Nodup.getElem_inj_iff hnd).mp (by rw [hpj, hgi])
    subst this
    simp [hterm]

/-- C9: feeding a token that was never registered, or registered as a
nonterminal, fails (`UnknownTerminal`, modelled as `none`) in both engines —
leaving the engine state unmodified — while feeding any token registered as a
terminal succeeds. -/
theorem C9_unknown_terminal :
    ∀ (g : Grammar), g.WF → ∀ (tok : String),
      ((∀ i, g.symbols.get? i = some tok → i ∉ g.terminals) →
        (∀ e : Naive.Earley, e.grammar = g → e.feed tok = none) ∧
        (∀ e : Fast.Earley, e.grammar = g → e.feed tok = none)) ∧
      (∀ i, g.symbols.get? i = some tok → i ∈ g.terminals →
        (∀ e : Naive.Earley, e.grammar = g → ∃ e', e.feed tok = some e') ∧
        (∀ e : Fast.Earley, e.grammar = g → ∃ e', e.feed tok = some e')) := by
  intro g hwf tok
  constructor
  · intro h
    constructor
    · intro e he
      unfold Naive.Earley.feed Naive.Earley.feedFuel
      rw [he, terminal_symbol_eq_none g tok h]
    · intro e he
      unfold Fast.Earley.feed Fast.Earley.feedFuel
      rw [he, terminal_symbol_eq_none g tok h]
  · intro i hget hterm
    have hnd : g.symbols.Nodup := hwf.2.2.1
    constructor
    · intro e he
      unfold Naive.Earley.feed Naive.Earley.feedFuel
      rw [he, terminal_symbol_eq_some g tok i hnd hget hterm]
      exact ⟨_, rfl⟩
    · intro e he
      unfold Fast.Earley.feed Fast.Earley.feedFuel
      rw [he, terminal_symbol_eq_some g tok i hnd hget hterm]
      exact ⟨_, rfl⟩

/-- Witness for C9 on the toy grammar: `"A"` is registered as a nonterminal so
feeding it fails; `"b"` is a registered terminal so feeding it succeeds. -/
theorem C9_unknown_terminal_witness :
    (Naive.Earley.init toyGrammar).feed "A" = none ∧
      ∃ e', (Naive.Earley.init toyGrammar).feed "b" = some e' := by
  constructor
  · refine ((C9_unknown_terminal toyGrammar (by decide) "A").1 ?_).1 _ rfl
    intro i hi
    rw [List.get?_eq_getElem?] at hi
    have h6 : i < 6 := by
      by_contra hge
      rw [List.getElem?_eq_none (by simpa using Nat.le_of_not_lt hge)] at hi
      cases hi
    interval_cases i <;> revert hi <;> decide
  · exact ((C9_unknown_terminal toyGrammar (by decide) "b").2 4 (by decide) (by decide)).1 _ rfl

/-- C5: the deduction map is write-once per key — once a span has a recorded
justification, no later completion or scan in any round of any later `feed`
call replaces it (every write in `Earley.process` is guarded by
`if span not in deduced_by`). -/
theorem C5_deduction_map_write_once :
    ∀ (e : Naive.Earley) (c : String) (e' : Naive.Earley), e.feed c = some e' →
      ∀ k v, dedLookup e.deduced_by k = some v → dedLookup e'.deduced_by k = some v := by
  intro e c e' h k v hk
  unfold Naive.Earley.feed Naive.Earley.feedFuel at h
  cases hts : e.grammar.terminal_symbol c with
  | none => rw [hts] at h; cases h
  | some cid =>
    rw [hts] at h
    simp only [Option.some_inj] at h
    subst h
    exact Naive.feedLoop_dd_extends _ _ _ _ _ _ _ _
      (Naive.process_dd_extends _ _ _ _ _ _ hk)

/-- Witness for C5: an engine state carrying one deduction entry keeps that
entry across a successful feed. -/
theorem C5_deduction_map_write_once_witness :
    ∃ e', Naive.Earley.feed
        ⟨toyGrammar, [∅], [(⟨DPoint.sym 5, (0, 1)⟩, ⟨DPoint.sym 3, (0, 1)⟩)]⟩ "c" = some e' ∧
      dedLookup e'.deduced_by ⟨DPoint.sym 5, (0, 1)⟩ = some ⟨DPoint.sym 3, (0, 1)⟩ := by
  have h : (Naive.Earley.feed
      ⟨toyGrammar, [∅], [(⟨DPoint.sym 5, (0, 1)⟩, ⟨DPoint.sym 3, (0, 1)⟩)]⟩ "c").isSome = true := by
    decide
  obtain ⟨e', he⟩ := Option.isSome_iff_exists.mp h
  exact ⟨e', he, C5_deduction_map_write_once _ _ _ he _ _ (by decide)⟩

/-- C2 counterexample: the claim says every span returned by `complete_items`
covers `[0, at)` (origin 0), but on the grammar `<start> → a | <start> <start>`
with input `["a", "a"]` the naive engine returns a span beginning at 1
(the item `<start> → a•` with origin 1 is in the final state and is not
filtered out, because `complete_items` never checks the origin). -/
theorem C2_counterexample :
    (Naive.run cexGrammar ["a", "a"]).map
      (fun e => (e.complete_items none).map (fun s => s.span)) =
      some [(1, 2), (0, 2)] := by
  decide

/-- C2 (amended): `complete_items(at)` returns exactly the items in the chart
state at `at` whose point is a fully matched Grammar Point of the start
nonterminal — regardless of origin — each rendered as a Deduction Span over
`[origin, at)`; the result is empty exactly when no such item exists. -/
theorem C2_complete_items_characterization :
    ∀ (e : Naive.Earley) (pos? : Option Nat) (s : DeductionSpan),
      s ∈ e.complete_items pos? ↔
        ∃ it ∈ e.chart.getD (pos?.getD (e.chart.length - 1)) ∅,
          it.point.sym = e.grammar.startSymbol ∧
          e.grammar.get_symbol_at_point it.point = none ∧
          s = it.deduction_span (pos?.getD (e.chart.length - 1)) := by
  intro e pos? s
  unfold Naive.Earley.complete_items
  simp only [List.mem_map, Naive.mem_enumItems, Finset.mem_filter]
  constructor
  · rintro ⟨it, ⟨hmem, h1, h2⟩, rfl⟩
    exact ⟨it, hmem, h1, h2, rfl⟩
  · rintro ⟨it, hmem, h1, h2, rfl⟩
    exact ⟨it, ⟨hmem, h1, h2⟩, rfl⟩

theorem mem_fastGpItems (s : Fast.State) (q : GrammarPoint) (b : Nat) :
    (⟨q, b⟩ : Naive.Item) ∈ fastGpItems s ↔ (⟨Fast.Point.gp q, b⟩ : Fast.Item) ∈ s := by
  unfold fastGpItems
  simp only [Finset.mem_image, Finset.mem_filter]
  constructor
  · rintro ⟨it, ⟨hmem, hgp⟩, heq⟩
    obtain ⟨p, beg⟩ := it
    cases p with
    | gp q' =>
      simp only [Fast.Point.toGp, Naive.Item.mk.injEq] at heq
      obtain ⟨rfl, rfl⟩ := heq
      exact hmem
    | sp p' => simp [Fast.Point.isGp] at hgp
  · intro hmem
    exact ⟨⟨Fast.Point.gp q, b⟩, ⟨hmem, rfl⟩, rfl⟩

/-- C3 counterexample: on the grammar `<start> → a | <start> <start>` with
input `["a", "a"]`, the span `<start> → a•` over `[1, 2)` is an element of
`complete_items()`, and `trace_deduction` on it yields a tree whose root span
is `(1, 2)`, not `[0, input length) = (0, 2)`. -/
theorem C3_counterexample :
    (Naive.run cexGrammar ["a", "a"]).map (fun e =>
      ((e.complete_items none).map (fun s => s.span),
        (trace_deduction e.deduced_by 10 ⟨DPoint.gp ⟨0, 0, 1⟩, (1, 2)⟩).map
          DeductionNode.span)) =
      some ([(1, 2), (0, 2)], some ⟨DPoint.gp ⟨0, 0, 1⟩, (1, 2)⟩) ∧
    ((1, 2) : Nat × Nat) ≠ (0, 2) := by
  constructor
  · decide
  · decide

/-- C7: the fast engine (with its `complete_items` modelled from the spec,
since the method the tests call is absent from the sources) exposes the same
`complete_items` contract as the naive engine: it returns exactly the spans of
the fully matched start-symbol Grammar-Point items of the chosen state, and on
states whose Grammar-Point items agree with a naive engine's state over the
same grammar it returns exactly the naive engine's spans. -/
theorem C7_fast_complete_items_contract :
    (∀ (e : Fast.Earley) (pos? : Option Nat) (s : DeductionSpan),
      s ∈ e.complete_items pos? ↔
        ∃ q : GrammarPoint, ∃ b : Nat,
          (⟨Fast.Point.gp q, b⟩ : Fast.Item) ∈ e.chart.getD (pos?.getD (e.chart.length - 1)) ∅ ∧
          q.sym = e.grammar.startSymbol ∧
          e.grammar.get_symbol_at_point q = none ∧
          s = ⟨DPoint.gp q, (b, pos?.getD (e.chart.length - 1))⟩) ∧
    (∀ (en : Naive.Earley) (ef : Fast.Earley), en.grammar = ef.grammar →
      ∀ p : Nat, fastGpItems (ef.chart.getD p ∅) = en.chart.getD p ∅ →
        ∀ s, s ∈ ef.complete_items (some p) ↔ s ∈ en.complete_items (some p)) := by
  have hchar : ∀ (e : Fast.Earley) (pos? : Option Nat) (s : DeductionSpan),
      s ∈ e.complete_items pos? ↔
        ∃ q : GrammarPoint, ∃ b : Nat,
          (⟨Fast.Point.gp q, b⟩ : Fast.Item) ∈ e.chart.getD (pos?.getD (e.chart.length - 1)) ∅ ∧
          q.sym = e.grammar.startSymbol ∧
          e.grammar.get_symbol_at_point q = none ∧
          s = ⟨DPoint.gp q, (b, pos?.getD (e.chart.length - 1))⟩ := by
    intro e pos? s
    unfold Fast.Earley.complete_items
    simp only [List.mem_filterMap, Fast.mem_enumItemsF, Finset.mem_filter]
    constructor
    · rintro ⟨it, ⟨hmem, hcs⟩, hf⟩
      obtain ⟨p, beg⟩ := it
      cases p with
      | gp q =>
        simp only [Option.some_inj] at hf
        unfold Fast.completeStart at hcs
        simp only [Bool.and_eq_true, decide_eq_true_eq] at hcs
        exact ⟨q, beg, hmem, hcs.1, hcs.2, hf.symm⟩
      | sp p' => cases hf
    · rintro ⟨q, b, hmem, h1, h2, rfl⟩
      refine ⟨⟨Fast.Point.gp q, b⟩, ⟨hmem, ?_⟩, rfl⟩
      unfold Fast.completeStart
      simp [h1, h2]
  refine ⟨hchar, ?_⟩
  intro en ef hg p hset s
  rw [hchar ef (some p) s, C2_complete_items_characterization en (some p) s]
  simp only [Option.getD_some]
  constructor
  · rintro ⟨q, b, hmem, h1, h2, rfl⟩
    refine ⟨⟨q, b⟩, ?_, ?_, ?_, rfl⟩
    · rw [← hset]
      exact (mem_fastGpItems _ _ _).mpr hmem
    · rw [hg]; exact h1
    · rw [hg]; exact h2
  · rintro ⟨it, hmem, h1, h2, heq⟩
    obtain ⟨q, b⟩ := it
    refine ⟨q, b, ?_, ?_, ?_, ?_⟩
    · rw [← hset] at hmem
      exact (mem_fastGpItems _ _ _).mp hmem
    · rw [← hg]; exact h1
    · rw [← hg]; exact h2
    · exact heq

set_option maxRecDepth 40000 in
/-- Witness for C7 on concrete runs: after parsing `"cac"` with the toy
grammar, the fast engine's (spec-modelled) `complete_items` at the final
position agrees with the naive engine's. -/
theorem C7_fast_complete_items_contract_witness :
    ∃ en ef, Naive.run toyGrammar ["c", "a", "c"] = some en ∧
      Fast.run toyGrammar ["c", "a", "c"] = some ef ∧
      ∀ s, s ∈ ef.complete_items (some 3) ↔ s ∈ en.complete_items (some 3) := by
  have hn : (Naive.run toyGrammar ["c", "a", "c"]).isSome = true := by decide
  have hf : (Fast.run toyGrammar ["c", "a", "c"]).isSome = true := by decide
  obtain ⟨en, hen⟩ := Option.isSome_iff_exists.mp hn
  obtain ⟨ef, hef⟩ := Option.isSome_iff_exists.mp hf
  refine ⟨en, ef, hen, hef, ?_⟩
  refine C7_fast_complete_items_contract.2 en ef ?_ 3 ?_
  · have hgn : Option.map Naive.Earley.grammar (Naive.run toyGrammar ["c", "a", "c"]) =
        some toyGrammar := by decide
    have hgf : Option.map Fast.Earley.grammar (Fast.run toyGrammar ["c", "a", "c"]) =
        some toyGrammar := by decide
    rw [hen] at hgn
    rw [hef] at hgf
    simp only [Option.map_some', Option.some_inj] at hgn hgf
    rw [hgn, hgf]
  · have h1 : Option.map (fun e => fastGpItems (e.chart.getD 3 ∅)) (Fast.run toyGrammar ["c", "a", "c"]) =
        Option.map (fun e => e.chart.getD 3 ∅) (Naive.run toyGrammar ["c", "a", "c"]) := by decide
    rw [hen, hef] at h1
    simpa using h1

theorem terminal_symbol_mem (g : Grammar) (c : String) (i : Symbol)
    (h : g.terminal_symbol c = some i) : i ∈ g.terminals := by
  unfold Grammar.terminal_symbol at h
  split at h
  · exact Option.noConfusion h
  · split_ifs at h with hj
    · injection h with h'
      subst h'
      exact hj

theorem mem_pointUniverse (g : Grammar) (p : GrammarPoint) :
    p ∈ pointUniverse g ↔ validPoint g p := by
  unfold pointUniverse validPoint
  simp only [Finset.mem_biUnion, Finset.mem_image, Finset.mem_range]
  constructor
  · rintro ⟨s, hs, r, hr, d, hd, rfl⟩
    refine ⟨hs, hr, ?_⟩
    show d ≤ (g.ruleAt s r).length
    omega
  · rintro ⟨hs, hr, hd⟩
    exact ⟨p.sym, hs, p.rule, hr, p.dot, by omega, rfl⟩

theorem WF_rhs (g : Grammar) (hwf : g.WF) :
    ∀ rs ∈ g.rules, ∀ rhs ∈ rs, rhs ≠ [] ∧ ∀ x ∈ rhs, x < g.symbols.length :=
  hwf.2.2.2.2.2.2.2.2

theorem WF_term_no_rules (g : Grammar) (hwf : g.WF) :
    ∀ s ∈ g.terminals, g.rules.getD s [] = [] :=
  hwf.2.2.2.2.2.2.2.1

theorem getD_mem_of_lt {α : Type} (l : List α) (i : Nat) (d : α) (h : i < l.length) :
    l.getD i d ∈ l := by
  rw [List.getD_eq_getElem?_getD, List.getElem?_eq_getElem h]
  exact List.getElem_mem h

theorem rules_getD_mem (g : Grammar) {s : Nat} (hs : s < g.rules.length) :
    g.rules.getD s [] ∈ g.rules :=
  getD_mem_of_lt _ _ _ hs

theorem ruleAt_mem (g : Grammar) {s r : Nat} (hr : r < (g.rules.getD s []).length) :
    g.ruleAt s r ∈ g.rules.getD s [] :=
  getD_mem_of_lt _ _ _ hr

theorem ruleAt_rhs_spec (g : Grammar) (hwf : g.WF) {s r : Nat}
    (hs : s < g.rules.length) (hr : r < (g.rules.getD s []).length) :
    g.ruleAt s r ≠ [] ∧ ∀ x ∈ g.ruleAt s r, x < g.symbols.length :=
  WF_rhs g hwf _ (rules_getD_mem g hs) _ (ruleAt_mem g hr)

theorem rules_getD_pos_lt (g : Grammar) {s : Nat}
    (h : 0 < (g.rules.getD s []).length) : s < g.rules.length := by
  by_contra hge
  rw [List.getD_eq_getElem?_getD, List.getElem?_eq_none (by omega)] at h
  simp at h

theorem get_symbol_at_point_none_iff (g : Grammar) (pt : GrammarPoint) :
    g.get_symbol_at_point pt = none ↔ (g.ruleAt pt.sym pt.rule).length ≤ pt.dot := by
  unfold Grammar.get_symbol_at_point
  exact List.get?_eq_none

theorem get_symbol_at_point_some_facts (g : Grammar) (pt : GrammarPoint) (s : Symbol)
    (h : g.get_symbol_at_point pt = some s) :
    pt.dot < (g.ruleAt pt.sym pt.rule).length ∧ s ∈ g.ruleAt pt.sym pt.rule := by
  unfold Grammar.get_symbol_at_point at h
  rw [List.get?_eq_getElem?] at h
  obtain ⟨hlt, hv⟩ := List.getElem?_eq_some.mp h
  exact ⟨hlt, hv ▸ List.getElem_mem hlt⟩

theorem complete_dot_pos (g : Grammar) (hwf : g.WF) {pt : GrammarPoint}
    (hv : validPoint g pt) (h : g.get_symbol_at_point pt = none) : 0 < pt.dot := by
  have hlen := (get_symbol_at_point_none_iff g pt).mp h
  have hne := (ruleAt_rhs_spec g hwf hv.1 hv.2.1).1
  have hpos : 0 < (g.ruleAt pt.sym pt.rule).length := List.length_pos.mpr hne
  omega

theorem validPoint_proceed (g : Grammar) {pt : GrammarPoint} {s : Symbol}
    (hv : validPoint g pt) (h : g.get_symbol_at_point pt = some s) :
    validPoint g pt.proceed := by
  obtain ⟨h1, h2, h3⟩ := hv
  have hlt := (get_symbol_at_point_some_facts g pt s h).1
  unfold GrammarPoint.proceed validPoint
  exact ⟨h1, h2, by simpa using hlt⟩

theorem complete_sym_not_terminal (g : Grammar) (hwf : g.WF) {pt : GrammarPoint}
    (hv : validPoint g pt) : pt.sym ∉ g.terminals := by
  intro hmem
  have h1 := WF_term_no_rules g hwf _ hmem
  have h2 := hv.2.1
  rw [h1] at h2
  simp at h2

namespace Naive

theorem mem_itemUniverse (g : Grammar) (cur : Nat) (x : Item) :
    x ∈ itemUniverse g cur ↔ validPoint g x.point ∧ x.beg ≤ cur := by
  unfold itemUniverse
  simp only [Finset.mem_biUnion, Finset.mem_image, Finset.mem_range, mem_pointUniverse]
  constructor
  · rintro ⟨p, hp, b, hb, rfl⟩
    refine ⟨hp, ?_⟩
    show b ≤ cur
    omega
  · rintro ⟨hp, hb⟩
    exact ⟨x.point, hp, x.beg, by omega, rfl⟩

theorem valid_mem_itemUniverse (g : Grammar) (cur : Nat) {x : Item}
    (hv : validItem g cur x) : x ∈ itemUniverse g cur :=
  (mem_itemUniverse g cur x).mpr ⟨hv.1, hv.2.1⟩

theorem valid_complete_beg_lt (g : Grammar) (hwf : g.WF) {cur : Nat} {it : Item}
    (hv : validItem g cur it) (hc : g.get_symbol_at_point it.point = none) :
    it.beg < cur := by
  obtain ⟨hvp, hle, hz⟩ := hv
  have hdot := complete_dot_pos g hwf hvp hc
  rcases Nat.lt_or_ge it.beg cur with h | h
  · exact h
  · have heq : it.beg = cur := le_antisymm hle h
    have := hz heq
    omega

theorem closOld_congr (g : Grammar) {chart chart' : Chart} (cur : Nat) (it : Item)
    (h : chart.getD it.beg ∅ = chart'.getD it.beg ∅) :
    closOld g chart cur it = closOld g chart' cur it := by
  cases hs : g.get_symbol_at_point it.point <;> simp only [closOld, hs, h]

theorem closOld_set_cur (g : Grammar) (hwf : g.WF) (chart : Chart) (cur : Nat)
    (X : State) {it : Item} (hv : validItem g cur it) :
    closOld g (chart.set cur X) cur it = closOld g chart cur it := by
  cases hs : g.get_symbol_at_point it.point with
  | none =>
    refine closOld_congr g cur it ?_
    refine getD_set_ne _ _ _ _ _ ?_
    have := valid_complete_beg_lt g hwf hv hs
    omega
  | some s => simp only [closOld, hs]

theorem contribOld_eq_closOld (g : Grammar) (chart : Chart) (cur : Nat) {cid : Symbol}
    (hcid : cid ∈ g.terminals) (it : Item) :
    contribOld g chart cur cid it = closOld g chart cur it := by
  cases hs : g.get_symbol_at_point it.point with
  | none => simp only [contribOld, processItem, closOld, hs]
  | some s =>
    simp only [contribOld, processItem, closOld, hs]
    by_cases h1 : s = cid
    · subst h1
      rw [if_pos rfl, if_neg (by simpa using hcid)]
    · rw [if_neg h1]
      split_ifs <;> rfl

theorem contribNew_eq_scanContrib (g : Grammar) (chart : Chart) (cur : Nat) (cid : Symbol)
    (it : Item) : contribNew g chart cur cid it = scanContrib g cid it := by
  cases hs : g.get_symbol_at_point it.point with
  | none => simp only [contribNew, processItem, scanContrib, hs]; rw [if_neg (by simp)]
  | some s =>
    simp only [contribNew, processItem, scanContrib, hs]
    by_cases h1 : s = cid
    · subst h1
      rw [if_pos rfl, if_pos rfl]
    · rw [if_neg h1, if_neg (fun hx => h1 (Option.some_inj.mp hx))]
      split_ifs <;> rfl

theorem closOld_valid (g : Grammar) (hwf : g.WF) (chart : Chart) (cur : Nat)
    (hchart : ∀ b it, it ∈ chart.getD b ∅ → validItem g b it)
    {it : Item} (hv : validItem g cur it) :
    ∀ x ∈ closOld g chart cur it, validItem g cur x := by
  intro x hx
  cases hs : g.get_symbol_at_point it.point with
  | none =>
    simp only [closOld, hs, Finset.mem_image, Finset.mem_filter] at hx
    obtain ⟨w, ⟨hw, hwait⟩, rfl⟩ := hx
    have hvw := hchart _ _ hw
    have hblt := valid_complete_beg_lt g hwf hv hs
    have hwb : w.beg ≤ it.beg := hvw.2.1
    refine ⟨validPoint_proceed g hvw.1 hwait, ?_, ?_⟩
    · show w.beg ≤ cur
      omega
    · intro hE
      exfalso
      have : w.beg = cur := hE
      omega
  | some s =>
    simp only [closOld, hs] at hx
    by_cases ht : s ∉ g.terminals
    · rw [if_pos ht] at hx
      simp only [Finset.mem_image, Finset.mem_range] at hx
      obtain ⟨r, hr, rfl⟩ := hx
      have hslt : s < g.rules.length := rules_getD_pos_lt g (by omega)
      exact ⟨⟨hslt, hr, by simp [Grammar.ruleAt]⟩, le_refl _, fun _ => rfl⟩
    · rw [if_neg ht] at hx
      simp at hx

theorem closOld_subset_univ (g : Grammar) (chart : Chart) (cur : Nat)
    (hchart : ∀ b it, it ∈ chart.getD b ∅ → validItem g b it)
    {x : Item} (hx : x ∈ itemUniverse g cur) :
    closOld g chart cur x ⊆ itemUniverse g cur := by
  intro y hy
  rw [mem_itemUniverse] at hx ⊢
  cases hs : g.get_symbol_at_point x.point with
  | none =>
    simp only [closOld, hs, Finset.mem_image, Finset.mem_filter] at hy
    obtain ⟨w, ⟨hw, hwait⟩, rfl⟩ := hy
    have hvw := hchart _ _ hw
    exact ⟨validPoint_proceed g hvw.1 hwait, le_trans hvw.2.1 hx.2⟩
  | some s =>
    simp only [closOld, hs] at hy
    by_cases ht : s ∉ g.terminals
    · rw [if_pos ht] at hy
      simp only [Finset.mem_image, Finset.mem_range] at hy
      obtain ⟨r, hr, rfl⟩ := hy
      have hslt : s < g.rules.length := rules_getD_pos_lt g (by omega)
      exact ⟨⟨hslt, hr, by simp [Grammar.ruleAt]⟩, le_refl _⟩
    · rw [if_neg ht] at hy
      simp at hy

theorem scanContrib_valid (g : Grammar) (cur : Nat) (cid : Symbol)
    {it : Item} (hv : validItem g cur it) :
    ∀ x ∈ scanContrib g cid it, validItem g (cur + 1) x := by
  intro x hx
  unfold scanContrib at hx
  split_ifs at hx with hs
  · simp only [Finset.mem_singleton] at hx
    subst hx
    have hb : it.beg ≤ cur := hv.2.1
    refine ⟨validPoint_proceed g hv.1 hs, ?_, ?_⟩
    · show it.beg ≤ cur + 1
      omega
    · intro hE
      exfalso
      have : it.beg = cur + 1 := hE
      omega
  · simp at hx

theorem feedLoop_eq_empty (g : Grammar) (cur : Nat) (cid : Symbol) :
    ∀ (fuel : Nat) (chart : Chart) (N : State) (dd : DeductionChart),
      feedLoop g cur cid fuel chart ∅ N dd = (chart, N, dd) := by
  intro fuel chart N dd
  cases fuel <;> simp [feedLoop]

theorem Clos_subset {α : Type} (f : α → Finset α) (seed : Finset α) (S : Finset α)
    (hseed : seed ⊆ S) (hclosed : ∀ x ∈ S, f x ⊆ S) :
    ∀ x, Clos f seed x → x ∈ S := by
  intro x hx
  induction hx with
  | base h => exact hseed h
  | step hx hy ih => exact hclosed _ ih hy

end Naive

namespace Naive

set_option maxHeartbeats 1000000 in
theorem feedLoop_main (g : Grammar) (hwf : g.WF) (chart₀ : Chart) (cur : Nat)
    (hcur : cur < chart₀.length)
    (hchart : ∀ b it, it ∈ chart₀.getD b ∅ → validItem g b it)
    (cid : Symbol) (hcid : cid ∈ g.terminals) :
    ∀ (fuel : Nat) (C O N : State) (dd : DeductionChart),
      O ⊆ C →
      (∀ it ∈ C, validItem g cur it) →
      (∀ it ∈ C, it ∉ O → closOld g chart₀ cur it ⊆ C) →
      (itemUniverse g cur).card - C.card < fuel →
      ∃ S : State,
        (∀ extra, feedLoop g cur cid (fuel + extra) (chart₀.set cur C) O N dd =
          feedLoop g cur cid fuel (chart₀.set cur C) O N dd) ∧
        (feedLoop g cur cid fuel (chart₀.set cur C) O N dd).1 = chart₀.set cur S ∧
        C ⊆ S ∧
        (∀ it ∈ S, validItem g cur it) ∧
        (∀ it ∈ S, closOld g chart₀ cur it ⊆ S) ∧
        (∀ P : Item → Prop, (∀ x ∈ C, P x) →
          (∀ x y, P x → y ∈ closOld g chart₀ cur x → P y) → ∀ x ∈ S, P x) ∧
        (feedLoop g cur cid fuel (chart₀.set cur C) O N dd).2.1 =
          N ∪ (S \ (C \ O)).biUnion (scanContrib g cid) := by
  intro fuel
  induction fuel using Nat.strong_induction_on with
  | _ fuel ih =>
    intro C O N dd hOC hvalC hproc hfuel
    obtain ⟨m, rfl⟩ : ∃ m, fuel = m + 1 := ⟨fuel - 1, by omega⟩
    by_cases hO : O = ∅
    · subst hO
      refine ⟨C, ?_, ?_, fun _ h => h, hvalC, fun it hit => hproc it hit (by simp), ?_, ?_⟩
      · intro extra
        rw [feedLoop_eq_empty, feedLoop_eq_empty]
      · rw [feedLoop_eq_empty]
      · intro P hbase _ x hx
        exact hbase x hx
      · rw [feedLoop_eq_empty]
        rw [Finset.sdiff_empty, Finset.sdiff_self, Finset.biUnion_empty, Finset.union_empty]
    · have hgetD : (chart₀.set cur C).getD cur ∅ = C := by
        rw [getD_set_same, if_pos hcur]
      have hproc1 : ∀ dd₁, (process g (chart₀.set cur C) cur (enumItems O) cid dd₁).1 =
          O.biUnion (closOld g chart₀ cur) := by
        intro dd₁
        ext x
        rw [process_fst_mem, Finset.mem_biUnion]
        constructor
        · rintro ⟨it, hit, hx⟩
          rw [mem_enumItems] at hit
          rw [contribOld_eq_closOld g _ cur hcid, closOld_set_cur g hwf chart₀ cur C
            (hvalC it (hOC hit))] at hx
          exact ⟨it, hit, hx⟩
        · rintro ⟨it, hit, hx⟩
          refine ⟨it, mem_enumItems.mpr hit, ?_⟩
          rw [contribOld_eq_closOld g _ cur hcid, closOld_set_cur g hwf chart₀ cur C
            (hvalC it (hOC hit))]
          exact hx
      have hproc2 : ∀ dd₁, (process g (chart₀.set cur C) cur (enumItems O) cid dd₁).2.1 =
          O.biUnion (scanContrib g cid) := by
        intro dd₁
        ext x
        rw [process_snd_mem, Finset.mem_biUnion]
        constructor
        · rintro ⟨it, hit, hx⟩
          rw [mem_enumItems] at hit
          rw [contribNew_eq_scanContrib] at hx
          exact ⟨it, hit, hx⟩
        · rintro ⟨it, hit, hx⟩
          refine ⟨it, mem_enumItems.mpr hit, ?_⟩
          rw [contribNew_eq_scanContrib]
          exact hx
      have hO'valid : ∀ x ∈ O.biUnion (closOld g chart₀ cur), validItem g cur x := by
        intro x hx
        rw [Finset.mem_biUnion] at hx
        obtain ⟨it, hit, hx⟩ := hx
        exact closOld_valid g hwf chart₀ cur hchart (hvalC it (hOC hit)) x hx
      have hstep : ∀ (k : Nat) (N₁ : State) (dd₁ : DeductionChart),
          feedLoop g cur cid (k + 1) (chart₀.set cur C) O N₁ dd₁ =
          feedLoop g cur cid k
            (chart₀.set cur
              (C ∪ ((process g (chart₀.set cur C) cur (enumItems O) cid dd₁).1 \ C)))
            ((process g (chart₀.set cur C) cur (enumItems O) cid dd₁).1 \ C)
            (N₁ ∪ (process g (chart₀.set cur C) cur (enumItems O) cid dd₁).2.1)
            (process g (chart₀.set cur C) cur (enumItems O) cid dd₁).2.2 := by
        intro k N₁ dd₁
        simp only [feedLoop]
        rw [if_neg hO, hgetD, List.set_set]
      by_cases hO' : O.biUnion (closOld g chart₀ cur) \ C = ∅
      · have hFOsub : O.biUnion (closOld g chart₀ cur) ⊆ C :=
          Finset.sdiff_eq_empty_iff_subset.mp hO'
        have hresult : ∀ (k : Nat),
            feedLoop g cur cid (k + 1) (chart₀.set cur C) O N dd =
            (chart₀.set cur C,
              N ∪ O.biUnion (scanContrib g cid),
              (process g (chart₀.set cur C) cur (enumItems O) cid dd).2.2) := by
          intro k
          rw [hstep k N dd, hproc1 dd, hproc2 dd, hO', Finset.union_empty,
            feedLoop_eq_empty]
        refine ⟨C, ?_, ?_, fun _ h => h, hvalC, ?_, ?_, ?_⟩
        · intro extra
          rw [show m + 1 + extra = (m + extra) + 1 by omega, hresult (m + extra), hresult m]
        · rw [hresult m]
        · intro it hit
          by_cases hitO : it ∈ O
          · exact fun x hx => hFOsub (Finset.mem_biUnion.mpr ⟨it, hitO, hx⟩)
          · exact hproc it hit hitO
        · intro P hbase _ x hx
          exact hbase x hx
        · rw [hresult m]
          have hco : C \ (C \ O) = O := by
            rw [Finset.sdiff_sdiff_self_left]
            exact Finset.inter_eq_right.mpr hOC
          rw [hco]
      · have hdisj : Disjoint C (O.biUnion (closOld g chart₀ cur) \ C) :=
          Finset.disjoint_left.mpr (fun a ha hb => (Finset.mem_sdiff.mp hb).2 ha)
        have hO'C' : O.biUnion (closOld g chart₀ cur) \ C ⊆
            C ∪ (O.biUnion (closOld g chart₀ cur) \ C) := Finset.subset_union_right
        have hvalC' : ∀ it ∈ C ∪ (O.biUnion (closOld g chart₀ cur) \ C),
            validItem g cur it := by
          intro it hit
          rcases Finset.mem_union.mp hit with h | h
          · exact hvalC it h
          · exact hO'valid it (Finset.sdiff_subset h)
        have hFOsubC' : O.biUnion (closOld g chart₀ cur) ⊆
            C ∪ (O.biUnion (closOld g chart₀ cur) \ C) := by
          intro x hx
          by_cases hxC : x ∈ C
          · exact Finset.mem_union_left _ hxC
          · exact Finset.mem_union_right _ (Finset.mem_sdiff.mpr ⟨hx, hxC⟩)
        have hproc' : ∀ it ∈ C ∪ (O.biUnion (closOld g chart₀ cur) \ C),
            it ∉ O.biUnion (closOld g chart₀ cur) \ C →
            closOld g chart₀ cur it ⊆ C ∪ (O.biUnion (closOld g chart₀ cur) \ C) := by
          intro it hit hitO'
          have hitC : it ∈ C := by
            rcases Finset.mem_union.mp hit with h | h
            · exact h
            · exact absurd h hitO'
          by_cases hitO : it ∈ O
          · intro x hx
            exact hFOsubC' (Finset.mem_biUnion.mpr ⟨it, hitO, hx⟩)
          · intro x hx
            exact Finset.mem_union_left _ (hproc it hitC hitO hx)
        have hcardlt : C.card < (C ∪ (O.biUnion (closOld g chart₀ cur) \ C)).card := by
          rw [Finset.card_union_of_disjoint hdisj]
          have hpos : 0 < (O.biUnion (closOld g chart₀ cur) \ C).card :=
            Finset.card_pos.mpr (Finset.nonempty_iff_ne_empty.mpr hO')
          omega
        have hsubU : C ∪ (O.biUnion (closOld g chart₀ cur) \ C) ⊆ itemUniverse g cur :=
          fun x hx => valid_mem_itemUniverse g cur (hvalC' x hx)
        have hfuel' : (itemUniverse g cur).card -
            (C ∪ (O.biUnion (closOld g chart₀ cur) \ C)).card < m := by
          have h1 := Finset.card_le_card hsubU
          omega
        obtain ⟨S, hstab, hchart', hCS, hvalS, hclosS, hsound, hNform⟩ :=
          ih m (Nat.lt_succ_self m) (C ∪ (O.biUnion (closOld g chart₀ cur) \ C))
            (O.biUnion (closOld g chart₀ cur) \ C)
            (N ∪ O.biUnion (scanContrib g cid))
            (process g (chart₀.set cur C) cur (enumItems O) cid dd).2.2
            hO'C' hvalC' hproc' hfuel'
        refine ⟨S, ?_, ?_, ?_, hvalS, hclosS, ?_, ?_⟩
        · intro extra
          rw [show m + 1 + extra = (m + extra) + 1 by omega]
          rw [hstep (m + extra) N dd, hstep m N dd, hproc1 dd, hproc2 dd]
          exact hstab extra
        · rw [hstep m N dd, hproc1 dd, hproc2 dd]
          exact hchart'
        · exact fun x hx => hCS (Finset.mem_union_left _ hx)
        · intro P hbase hstepP x hx
          refine hsound P ?_ hstepP x hx
          intro y hy
          rcases Finset.mem_union.mp hy with h | h
          · exact hbase y h
          · obtain ⟨it, hit, hyc⟩ := Finset.mem_biUnion.mp (Finset.sdiff_subset h)
            exact hstepP it y (hbase it (hOC hit)) hyc
        · rw [hstep m N dd, hproc1 dd, hproc2 dd, hNform]
          have hCO' : (C ∪ (O.biUnion (closOld g chart₀ cur) \ C)) \
              (O.biUnion (closOld g chart₀ cur) \ C) = C := by
            ext x
            simp only [Finset.mem_sdiff, Finset.mem_union]
            constructor
            · rintro ⟨h1 | h1, h2⟩
              · exact h1
              · exact absurd h1 h2
            · intro h1
              exact ⟨Or.inl h1, fun hc => hc.2 h1⟩
          rw [hCO']
          have hsplit : S \ (C \ O) = (S \ C) ∪ O := by
            ext x
            simp only [Finset.mem_sdiff, Finset.mem_union]
            constructor
            · rintro ⟨hxS, hx⟩
              by_cases hxC : x ∈ C
              · right
                by_contra hxO
                exact hx ⟨hxC, hxO⟩
              · exact Or.inl ⟨hxS, hxC⟩
            · rintro (⟨hxS, hxC⟩ | hxO)
              · exact ⟨hxS, fun hc => hxC hc.1⟩
              · exact ⟨hCS (Finset.mem_union_left _ (hOC hxO)), fun hc => hc.2 hxO⟩
          rw [hsplit]
          have hbu : ∀ (A B : State) (f : Item → State),
              (A ∪ B).biUnion f = A.biUnion f ∪ B.biUnion f := by
            intro A B f
            ext y
            simp only [Finset.mem_biUnion, Finset.mem_union]
            constructor
            · rintro ⟨a, h | h, hy⟩
              · exact Or.inl ⟨a, h, hy⟩
              · exact Or.inr ⟨a, h, hy⟩
            · rintro (⟨a, h, hy⟩ | ⟨a, h, hy⟩)
              · exact ⟨a, Or.inl h, hy⟩
              · exact ⟨a, Or.inr h, hy⟩
          rw [hbu]
          ext y
          simp only [Finset.mem_union]
          tauto

end Naive

theorem set_getD_self {α : Type} : ∀ (l : List α) (i : Nat) (d : α), i < l.length →
    l.set i (l.getD i d) = l := by
  intro l
  induction l with
  | nil => intro i d h; simp at h
  | cons a t ih =>
    intro i d h
    cases i with
    | zero => simp [List.getD]
    | succ n =>
      simp only [List.getD_cons_succ, List.set]
      rw [ih n d (by simpa using Nat.lt_of_succ_lt_succ h)]

theorem getD_append_last {α : Type} (l : List α) (a : α) (d : α) :
    (l ++ [a]).getD l.length d = a := by
  simp [List.getD_eq_getElem?_getD, List.getElem?_append_right]

theorem getD_of_le_length {α : Type} (l : List α) (i : Nat) (d : α) (h : l.length ≤ i) :
    l.getD i d = d :=
  List.getD_eq_default l d h

namespace Naive

theorem process_fst_eq (g : Grammar) (chart : Chart) (cur : Nat) {cid : Symbol}
    (hcid : cid ∈ g.terminals) (O : State) (dd : DeductionChart) :
    (process g chart cur (enumItems O) cid dd).1 = O.biUnion (closOld g chart cur) := by
  ext x
  rw [process_fst_mem, Finset.mem_biUnion]
  constructor
  · rintro ⟨it, hit, hx⟩
    rw [mem_enumItems] at hit
    rw [contribOld_eq_closOld g _ cur hcid] at hx
    exact ⟨it, hit, hx⟩
  · rintro ⟨it, hit, hx⟩
    refine ⟨it, mem_enumItems.mpr hit, ?_⟩
    rw [contribOld_eq_closOld g _ cur hcid]
    exact hx

theorem process_snd_eq (g : Grammar) (chart : Chart) (cur : Nat) (cid : Symbol)
    (O : State) (dd : DeductionChart) :
    (process g chart cur (enumItems O) cid dd).2.1 = O.biUnion (scanContrib g cid) := by
  ext x
  rw [process_snd_mem, Finset.mem_biUnion]
  constructor
  · rintro ⟨it, hit, hx⟩
    rw [mem_enumItems] at hit
    rw [contribNew_eq_scanContrib] at hx
    exact ⟨it, hit, hx⟩
  · rintro ⟨it, hit, hx⟩
    refine ⟨it, mem_enumItems.mpr hit, ?_⟩
    rw [contribNew_eq_scanContrib]
    exact hx

/-- `closOld` at the current position only reads frozen chart slots, so it is
unchanged by any chart surgery that preserves the slots below `cur`. -/
theorem closOld_frozen (g : Grammar) (hwf : g.WF) {chart chart' : Chart} (cur : Nat)
    {it : Item} (hv : validItem g cur it)
    (h : ∀ b, b < cur → chart'.getD b ∅ = chart.getD b ∅) :
    closOld g chart' cur it = closOld g chart cur it := by
  cases hs : g.get_symbol_at_point it.point with
  | none =>
    refine closOld_congr g cur it ?_
    exact h it.beg (valid_complete_beg_lt g hwf hv hs)
  | some s => simp only [closOld, hs]

/-- The closure loop started the way `feed` starts it (seed round already
processed) computes exactly the predict/complete closure of the current slot,
with fuel-stability and the scans accounted. -/
theorem feed_core (g : Grammar) (hwf : g.WF) (ch : Chart) (cur : Nat)
    (hcur : cur < ch.length)
    (hval : ∀ b it, it ∈ ch.getD b ∅ → validItem g b it)
    (cid : Symbol) (hcid : cid ∈ g.terminals)
    (r0 : State × State × DeductionChart)
    (h1 : r0.1 = (ch.getD cur ∅).biUnion (closOld g ch cur))
    (h2 : r0.2.1 = (ch.getD cur ∅).biUnion (scanContrib g cid)) :
    ∃ S : State,
      (∀ x, x ∈ S ↔ Clos (closOld g ch cur) (ch.getD cur ∅) x) ∧
      (∀ it ∈ S, validItem g cur it) ∧
      (∀ it ∈ S, closOld g ch cur it ⊆ S) ∧
      (∀ extra, feedLoop g cur cid ((itemUniverse g cur).card + 1 + extra)
          (ch.set cur (ch.getD cur ∅ ∪ (r0.1 \ ch.getD cur ∅)))
          (r0.1 \ ch.getD cur ∅) r0.2.1 r0.2.2 =
        feedLoop g cur cid ((itemUniverse g cur).card + 1)
          (ch.set cur (ch.getD cur ∅ ∪ (r0.1 \ ch.getD cur ∅)))
          (r0.1 \ ch.getD cur ∅) r0.2.1 r0.2.2) ∧
      (feedLoop g cur cid ((itemUniverse g cur).card + 1)
          (ch.set cur (ch.getD cur ∅ ∪ (r0.1 \ ch.getD cur ∅)))
          (r0.1 \ ch.getD cur ∅) r0.2.1 r0.2.2).1 = ch.set cur S ∧
      (feedLoop g cur cid ((itemUniverse g cur).card + 1)
          (ch.set cur (ch.getD cur ∅ ∪ (r0.1 \ ch.getD cur ∅)))
          (r0.1 \ ch.getD cur ∅) r0.2.1 r0.2.2).2.1 =
        S.biUnion (scanContrib g cid) := by
  have hvalCS : ∀ it ∈ ch.getD cur ∅, validItem g cur it := fun it hit => hval cur it hit
  have hvalO : ∀ x ∈ r0.1 \ ch.getD cur ∅, validItem g cur x := by
    intro x hx
    have hx1 := (Finset.mem_sdiff.mp hx).1
    rw [h1] at hx1
    obtain ⟨it, hit, hxc⟩ := Finset.mem_biUnion.mp hx1
    exact closOld_valid g hwf ch cur hval (hvalCS it hit) x hxc
  have hFOC : r0.1 ⊆ ch.getD cur ∅ ∪ (r0.1 \ ch.getD cur ∅) := by
    intro x hx
    by_cases h : x ∈ ch.getD cur ∅
    · exact Finset.mem_union_left _ h
    · exact Finset.mem_union_right _ (Finset.mem_sdiff.mpr ⟨hx, h⟩)
  have hvalC : ∀ it ∈ ch.getD cur ∅ ∪ (r0.1 \ ch.getD cur ∅), validItem g cur it := by
    intro it hit
    rcases Finset.mem_union.mp hit with h | h
    · exact hvalCS it h
    · exact hvalO it h
  have hprocC : ∀ it ∈ ch.getD cur ∅ ∪ (r0.1 \ ch.getD cur ∅),
      it ∉ r0.1 \ ch.getD cur ∅ →
      closOld g ch cur it ⊆ ch.getD cur ∅ ∪ (r0.1 \ ch.getD cur ∅) := by
    intro it hit hout
    have hitCS : it ∈ ch.getD cur ∅ := by
      rcases Finset.mem_union.mp hit with h | h
      · exact h
      · exact absurd h hout
    intro x hx
    refine hFOC ?_
    rw [h1]
    exact Finset.mem_biUnion.mpr ⟨it, hitCS, hx⟩
  have hfuel : (itemUniverse g cur).card -
      (ch.getD cur ∅ ∪ (r0.1 \ ch.getD cur ∅)).card < (itemUniverse g cur).card + 1 := by
    have := Nat.sub_le (itemUniverse g cur).card
      (ch.getD cur ∅ ∪ (r0.1 \ ch.getD cur ∅)).card
    omega
  obtain ⟨S, hstab, hchartS, hCsubS, hvalS, hclosS, hsound, hNform⟩ :=
    feedLoop_main g hwf ch cur hcur hval cid hcid
      ((itemUniverse g cur).card + 1)
      (ch.getD cur ∅ ∪ (r0.1 \ ch.getD cur ∅)) (r0.1 \ ch.getD cur ∅)
      r0.2.1 r0.2.2
      Finset.subset_union_right hvalC hprocC hfuel
  have hCSsubS : ch.getD cur ∅ ⊆ S :=
    fun x hx => hCsubS (Finset.mem_union_left _ hx)
  refine ⟨S, ?_, hvalS, hclosS, hstab, hchartS, ?_⟩
  · intro x
    constructor
    · intro hx
      refine hsound (Clos (closOld g ch cur) (ch.getD cur ∅)) ?_
        (fun a b ha hb => Clos.step ha hb) x hx
      intro y hy
      rcases Finset.mem_union.mp hy with h | h
      · exact Clos.base h
      · have hy1 := (Finset.mem_sdiff.mp h).1
        rw [h1] at hy1
        obtain ⟨it, hit, hyc⟩ := Finset.mem_biUnion.mp hy1
        exact Clos.step (Clos.base hit) hyc
    · intro hx
      exact Clos_subset (closOld g ch cur) (ch.getD cur ∅) S hCSsubS hclosS x hx
  · rw [hNform, h2]
    have hCO : (ch.getD cur ∅ ∪ (r0.1 \ ch.getD cur ∅)) \ (r0.1 \ ch.getD cur ∅) =
        ch.getD cur ∅ := by
      ext x
      simp only [Finset.mem_sdiff, Finset.mem_union]
      constructor
      · rintro ⟨h1' | h1', h2'⟩
        · exact h1'
        · exact absurd h1' h2'
      · intro h1'
        exact ⟨Or.inl h1', fun hc => hc.2 h1'⟩
    rw [hCO]
    ext x
    simp only [Finset.mem_union, Finset.mem_biUnion, Finset.mem_sdiff]
    constructor
    · rintro (⟨it, hit, hx⟩ | ⟨it, ⟨hit, -⟩, hx⟩)
      · exact ⟨it, hCSsubS hit, hx⟩
      · exact ⟨it, hit, hx⟩
    · rintro ⟨it, hit, hx⟩
      by_cases hitCS : it ∈ ch.getD cur ∅
      · exact Or.inl ⟨it, hitCS, hx⟩
      · exact Or.inr ⟨it, ⟨hit, hitCS⟩, hx⟩

/-- The full effect of one successful `feed` from an invariant-satisfying
engine state: the fuel provided by `feed` reaches the closure fixpoint (extra
fuel gives the same result), the current slot becomes exactly the
predict/complete closure of its previous contents, a non-sentinel feed appends
exactly the scans of that closure, and the engine invariant is preserved. -/
theorem feed_spec (g : Grammar) (hwf : g.WF) (e : Earley) (hinv : EngineInv g e)
    (c : String) (cid : Symbol) (hcid : g.terminal_symbol c = some cid) :
    ∃ S : State,
      (∀ x, x ∈ S ↔ Clos (closOld g e.chart (e.chart.length - 1))
        (e.chart.getD (e.chart.length - 1) ∅) x) ∧
      (∀ it ∈ S, validItem g (e.chart.length - 1) it) ∧
      (∀ it ∈ S, closOld g e.chart (e.chart.length - 1) it ⊆ S) ∧
      ∃ e' : Earley,
        (∀ extra, e.feedFuel c
          ((itemUniverse g (e.chart.length - 1)).card + 1 + extra) = some e') ∧
        e.feed c = some e' ∧
        e'.grammar = g ∧
        e'.chart = (if c = "\x00" then e.chart.set (e.chart.length - 1) S
          else e.chart.set (e.chart.length - 1) S ++
            [S.biUnion (scanContrib g cid)]) ∧
        EngineInv g e' := by
  obtain ⟨gr, ch, dd0⟩ := e
  obtain ⟨hg, hne, hval, hclosed⟩ := hinv
  dsimp only at hg hne hval hclosed ⊢
  have hg' := hg.symm
  subst hg'
  have hlen : 0 < ch.length := List.length_pos.mpr hne
  have hcurlt : ch.length - 1 < ch.length := by omega
  obtain ⟨S, hSiff, hSval, hSclos, hstab, hchartS, hscan⟩ :=
    feed_core g hwf ch (ch.length - 1) hcurlt hval cid (terminal_symbol_mem g c cid hcid)
      (process g ch (ch.length - 1) (enumItems (ch.getD (ch.length - 1) ∅)) cid dd0)
      (process_fst_eq g ch (ch.length - 1) (terminal_symbol_mem g c cid hcid)
        (ch.getD (ch.length - 1) ∅) dd0)
      (process_snd_eq g ch (ch.length - 1) cid (ch.getD (ch.length - 1) ∅) dd0)
  have hFF : ∀ F, Earley.feedFuel ⟨g, ch, dd0⟩ c F = some ⟨g,
      if c = "\x00" then (feedLoop g (ch.length - 1) cid F
          (ch.set (ch.length - 1) (ch.getD (ch.length - 1) ∅ ∪
            ((process g ch (ch.length - 1)
              (enumItems (ch.getD (ch.length - 1) ∅)) cid dd0).1 \
              ch.getD (ch.length - 1) ∅)))
          ((process g ch (ch.length - 1)
            (enumItems (ch.getD (ch.length - 1) ∅)) cid dd0).1 \
            ch.getD (ch.length - 1) ∅)
          (process g ch (ch.length - 1)
            (enumItems (ch.getD (ch.length - 1) ∅)) cid dd0).2.1
          (process g ch (ch.length - 1)
            (enumItems (ch.getD (ch.length - 1) ∅)) cid dd0).2.2).1
        else (feedLoop g (ch.length - 1) cid F
          (ch.set (ch.length - 1) (ch.getD (ch.length - 1) ∅ ∪
            ((process g ch (ch.length - 1)
              (enumItems (ch.getD (ch.length - 1) ∅)) cid dd0).1 \
              ch.getD (ch.length - 1) ∅)))
          ((process g ch (ch.length - 1)
            (enumItems (ch.getD (ch.length - 1) ∅)) cid dd0).1 \
            ch.getD (ch.length - 1) ∅)
          (process g ch (ch.length - 1)
            (enumItems (ch.getD (ch.length - 1) ∅)) cid dd0).2.1
          (process g ch (ch.length - 1)
            (enumItems (ch.getD (ch.length - 1) ∅)) cid dd0).2.2).1 ++
          [(feedLoop g (ch.length - 1) cid F
            (ch.set (ch.length - 1) (ch.getD (ch.length - 1) ∅ ∪
              ((process g ch (ch.length - 1)
                (enumItems (ch.getD (ch.length - 1) ∅)) cid dd0).1 \
                ch.getD (ch.length - 1) ∅)))
            ((process g ch (ch.length - 1)
              (enumItems (ch.getD (ch.length - 1) ∅)) cid dd0).1 \
              ch.getD (ch.length - 1) ∅)
            (process g ch (ch.length - 1)
              (enumItems (ch.getD (ch.length - 1) ∅)) cid dd0).2.1
            (process g ch (ch.length - 1)
              (enumItems (ch.getD (ch.length - 1) ∅)) cid dd0).2.2).2.1],
      (feedLoop g (ch.length - 1) cid F
        (ch.set (ch.length - 1) (ch.getD (ch.length - 1) ∅ ∪
          ((process g ch (ch.length - 1)
            (enumItems (ch.getD (ch.length - 1) ∅)) cid dd0).1 \
            ch.getD (ch.length - 1) ∅)))
        ((process g ch (ch.length - 1)
          (enumItems (ch.getD (ch.length - 1) ∅)) cid dd0).1 \
          ch.getD (ch.length - 1) ∅)
        (process g ch (ch.length - 1)
          (enumItems (ch.getD (ch.length - 1) ∅)) cid dd0).2.1
        (process g ch (ch.length - 1)
          (enumItems (ch.getD (ch.length - 1) ∅)) cid dd0).2.2).2.2⟩ := by
    intro F
    unfold Earley.feedFuel
    dsimp only
    rw [hcid]
  refine ⟨S, hSiff, hSval, hSclos,
    ⟨g,
      if c = "\x00" then ch.set (ch.length - 1) S
        else ch.set (ch.length - 1) S ++ [S.biUnion (scanContrib g cid)],
      (feedLoop g (ch.length - 1) cid ((itemUniverse g (ch.length - 1)).card + 1)
        (ch.set (ch.length - 1) (ch.getD (ch.length - 1) ∅ ∪
          ((process g ch (ch.length - 1)
            (enumItems (ch.getD (ch.length - 1) ∅)) cid dd0).1 \
            ch.getD (ch.length - 1) ∅)))
        ((process g ch (ch.length - 1)
          (enumItems (ch.getD (ch.length - 1) ∅)) cid dd0).1 \
          ch.getD (ch.length - 1) ∅)
        (process g ch (ch.length - 1)
          (enumItems (ch.getD (ch.length - 1) ∅)) cid dd0).2.1
        (process g ch (ch.length - 1)
          (enumItems (ch.getD (ch.length - 1) ∅)) cid dd0).2.2).2.2⟩,
    ?_, ?_, rfl, rfl, ?_⟩
  · intro extra
    rw [hFF, hstab extra, hchartS, hscan]
  · show Earley.feedFuel ⟨g, ch, dd0⟩ c _ = _
    rw [hFF, hchartS, hscan]
  · constructor
    · rfl
    refine ⟨?_, ?_, ?_⟩
    · dsimp only
      split
      · refine List.ne_nil_of_length_pos ?_
        rw [List.length_set]
        exact hlen
      · refine List.ne_nil_of_length_pos ?_
        rw [List.length_append, List.length_set]
        omega
    · dsimp only
      intro b it hit
      split at hit
      · by_cases hb : b = ch.length - 1
        · subst hb
          rw [getD_set_same, if_pos hcurlt] at hit
          exact hSval it hit
        · rw [getD_set_ne _ _ _ _ _ (fun heq => hb heq.symm)] at hit
          exact hval b it hit
      · rcases Nat.lt_trichotomy b ch.length with hb | hb | hb
        · rw [getD_append_left _ _ _ _ (by rw [List.length_set]; exact hb)] at hit
          by_cases hbc : b = ch.length - 1
          · subst hbc
            rw [getD_set_same, if_pos hcurlt] at hit
            exact hSval it hit
          · rw [getD_set_ne _ _ _ _ _ (fun heq => hbc heq.symm)] at hit
            exact hval b it hit
        · have hb' : b = (ch.set (ch.length - 1) S).length := by
            rw [List.length_set]; omega
          rw [hb', getD_append_last] at hit
          obtain ⟨w, hw, hx⟩ := Finset.mem_biUnion.mp hit
          have := scanContrib_valid g (ch.length - 1) cid (hSval w hw) it hx
          have hb2 : b = ch.length - 1 + 1 := by omega
          rw [hb2]
          exact this
        · rw [getD_of_le_length _ _ _
            (by rw [List.length_append, List.length_set]; simpa using hb)] at hit
          simp at hit
    · dsimp only
      split
      · rw [List.length_set]
        intro p hp it hit
        have hpcur : p < ch.length - 1 := by omega
        rw [getD_set_ne _ _ _ _ _ (by omega)] at hit
        have hbeg : it.beg ≤ p := (hval p it hit).2.1
        have hcongr : closOld g (ch.set (ch.length - 1) S) p it = closOld g ch p it := by
          refine (closOld_congr g p it ?_).symm
          rw [getD_set_ne _ _ _ _ _ (by omega)]
        rw [hcongr, getD_set_ne _ _ _ _ _ (by omega)]
        exact hclosed p hpcur it hit
      · rw [List.length_append, List.length_set]
        intro p hp it hit
        have hple : p < ch.length := by simp at hp; omega
        rw [getD_append_left _ _ _ _ (by rw [List.length_set]; exact hple)] at hit
        have hfrozen : ∀ b', b' < ch.length - 1 →
            (ch.set (ch.length - 1) S ++ [S.biUnion (scanContrib g cid)]).getD b' ∅ =
            ch.getD b' ∅ := by
          intro b' hb'
          rw [getD_append_left _ _ _ _ (by rw [List.length_set]; omega),
            getD_set_ne _ _ _ _ _ (by omega)]
        by_cases hpc : p = ch.length - 1
        · subst hpc
          rw [getD_set_same, if_pos hcurlt] at hit
          have hcongr : closOld g (ch.set (ch.length - 1) S ++
              [S.biUnion (scanContrib g cid)]) (ch.length - 1) it =
              closOld g ch (ch.length - 1) it :=
            closOld_frozen g hwf (ch.length - 1) (hSval it hit) hfrozen
          rw [hcongr,
            getD_append_left _ _ _ _ (by rw [List.length_set]; exact hcurlt),
            getD_set_same, if_pos hcurlt]
          exact hSclos it hit
        · have hplt : p < ch.length - 1 := by omega
          rw [getD_set_ne _ _ _ _ _ (by omega)] at hit
          have hbeg : it.beg ≤ p := (hval p it hit).2.1
          have hcongr : closOld g (ch.set (ch.length - 1) S ++
              [S.biUnion (scanContrib g cid)]) p it = closOld g ch p it := by
            refine (closOld_congr g p it ?_).symm
            rw [hfrozen it.beg (by omega)]
          rw [hcongr, hfrozen p hplt]
          exact hclosed p hplt it hit

/-- The freshly initialised engine satisfies the run invariant. -/
theorem init_EngineInv (g : Grammar) : EngineInv g (Earley.init g) := by
  refine ⟨rfl, by simp [Earley.init], ?_, ?_⟩
  · intro b it hit
    cases b with
    | zero =>
      rw [show (Earley.init g).chart = [(Finset.range
        (g.rules.getD g.startSymbol []).length).image
        (fun r => Item.mk ⟨g.startSymbol, r, 0⟩ 0)] from rfl,
        List.getD_cons_zero] at hit
      simp only [Finset.mem_image, Finset.mem_range] at hit
      obtain ⟨r, hr, rfl⟩ := hit
      exact ⟨⟨rules_getD_pos_lt g
        (show 0 < (g.rules.getD g.startSymbol []).length by omega), hr, Nat.zero_le _⟩,
        Nat.le_refl _, fun _ => rfl⟩
    | succ b =>
      rw [getD_of_le_length] at hit
      · simp at hit
      · show 1 ≤ b + 1
        omega
  · intro p hp
    exact absurd hp (by simp [Earley.init])

end Naive

/-- The end-of-input sentinel always resolves to terminal code `1` in a
well-formed grammar. -/
theorem sentinel_terminal (g : Grammar) (hwf : g.WF) :
    g.terminal_symbol "\x00" = some 1 := by
  obtain ⟨h0, h1, -, -, h1T, -⟩ := hwf
  unfold Grammar.terminal_symbol
  cases hsy : g.symbols with
  | nil =>
    rw [hsy] at h0
    exact absurd h0 (by simp)
  | cons a t =>
    cases htt : t with
    | nil =>
      rw [hsy, htt] at h1
      exact absurd h1 (by simp)
    | cons b rest =>
      rw [hsy, htt] at h0 h1
      have ha : a = "<start>" := by simpa using h0
      have hb : b = "\x00" := by simpa using h1
      subst ha hb
      rw [List.findIdx?_cons, if_neg (by decide), List.findIdx?_cons,
        if_pos (by decide)]
      show (if 1 ∈ g.terminals then some 1 else none) = some 1
      rw [if_pos h1T]

namespace Naive

/-- Feeding any list of registered terminals from an invariant-satisfying
state succeeds and preserves the invariant. -/
theorem foldlM_feed_inv (g : Grammar) (hwf : g.WF) :
    ∀ (toks : List String) (e : Earley), EngineInv g e →
    (∀ tok ∈ toks, registeredTerminal g tok) →
    ∃ e', toks.foldlM Earley.feed e = some e' ∧ EngineInv g e' := by
  intro toks
  induction toks with
  | nil => exact fun e he _ => ⟨e, rfl, he⟩
  | cons t ts ih =>
    intro e he hreg
    obtain ⟨cid, hcid⟩ := Option.isSome_iff_exists.mp (hreg t (by simp))
    obtain ⟨S, -, -, -, e1, -, hfeed, -, -, hinv1⟩ := feed_spec g hwf e he t cid hcid
    obtain ⟨e', hrun, hinv'⟩ := ih e1 hinv1 (fun tok ht => hreg tok (by simp [ht]))
    refine ⟨e', ?_, hinv'⟩
    rw [List.foldlM_cons, hfeed]
    exact hrun

/-- A full run on registered input succeeds and yields an invariant-satisfying
engine state. -/
theorem run_inv (g : Grammar) (hwf : g.WF) (input : List String)
    (hreg : ∀ tok ∈ input, registeredTerminal g tok) :
    ∃ e', run g input = some e' ∧ EngineInv g e' := by
  refine foldlM_feed_inv g hwf (input ++ ["\x00"]) (Earley.init g) (init_EngineInv g) ?_
  intro tok ht
  rcases List.mem_append.mp ht with h | h
  · exact hreg tok h
  · have htok : tok = "\x00" := by simpa using h
    subst htok
    show (g.terminal_symbol "\x00").isSome = true
    rw [sentinel_terminal g hwf]
    rfl

/-- A closure loop started on a slot that is already closed under predictions
and completions returns the chart unchanged, whatever the fuel. -/
theorem feedLoop_closed (g : Grammar) (cur : Nat) {cid : Symbol}
    (hcid : cid ∈ g.terminals) (chart : Chart) (hcur : cur < chart.length)
    (hslot : ∀ it ∈ chart.getD cur ∅, closOld g chart cur it ⊆ chart.getD cur ∅) :
    ∀ (fuel : Nat) (N : State) (dd : DeductionChart),
      (feedLoop g cur cid fuel chart (chart.getD cur ∅) N dd).1 = chart := by
  intro fuel N dd
  cases fuel with
  | zero => rfl
  | succ m =>
    by_cases hO : chart.getD cur ∅ = ∅
    · simp only [feedLoop]
      rw [if_pos hO]
    · have hempty : (process g chart cur (enumItems (chart.getD cur ∅)) cid dd).1 \
          chart.getD cur ∅ = ∅ := by
        refine Finset.sdiff_eq_empty_iff_subset.mpr ?_
        rw [process_fst_eq g chart cur hcid]
        intro x hx
        obtain ⟨it, hit, hxc⟩ := Finset.mem_biUnion.mp hx
        exact hslot it hit hxc
      simp only [feedLoop]
      rw [if_neg hO, hempty, Finset.union_empty, set_getD_self _ _ _ hcur,
        feedLoop_eq_empty]

end Naive

/-- **C8** (algebraic_relational): a chart slot produced by a completed `feed`
call is a closure fixpoint: re-running the closure loop on that slot — every
one of its items processed again as unseen, with the same next terminal —
leaves the chart, in particular the same-position item set, unchanged,
whatever fuel the loop is given. -/
theorem C8_closure_idempotent :
    ∀ g : Grammar, g.WF →
    ∀ e : Naive.Earley, Naive.EngineInv g e →
    ∀ (c : String) (cid : Symbol), g.terminal_symbol c = some cid →
    ∀ e₁ : Naive.Earley, e.feed c = some e₁ →
    ∀ (fuel : Nat) (N : Naive.State) (dd : DeductionChart),
      (Naive.feedLoop g (e.chart.length - 1) cid fuel e₁.chart
        (e₁.chart.getD (e.chart.length - 1) ∅) N dd).1 = e₁.chart := by
  intro g hwf e hinv c cid hcid e₁ hfeed fuel N dd
  obtain ⟨S, hSiff, hSval, hSclos, e', hstab, hfeed', hg', hchart', hinv'⟩ :=
    Naive.feed_spec g hwf e hinv c cid hcid
  have he : e' = e₁ := Option.some_inj.mp (hfeed'.symm.trans hfeed)
  subst he
  have hlen : 0 < e.chart.length := List.length_pos.mpr hinv.2.1
  have hcurlt : e.chart.length - 1 < e.chart.length := by omega
  have hfrozen : ∀ b, b < e.chart.length - 1 →
      e'.chart.getD b ∅ = e.chart.getD b ∅ := by
    intro b hb
    rw [hchart']
    split
    · exact getD_set_ne _ _ _ _ _ (by omega)
    · rw [getD_append_left _ _ _ _ (by rw [List.length_set]; omega)]
      exact getD_set_ne _ _ _ _ _ (by omega)
  have hslotS : e'.chart.getD (e.chart.length - 1) ∅ = S := by
    rw [hchart']
    split
    · rw [getD_set_same, if_pos hcurlt]
    · rw [getD_append_left _ _ _ _ (by rw [List.length_set]; exact hcurlt),
        getD_set_same, if_pos hcurlt]
  have hcur1 : e.chart.length - 1 < e'.chart.length := by
    rw [hchart']
    split
    · rw [List.length_set]
      exact hcurlt
    · rw [List.length_append, List.length_set]
      omega
  refine Naive.feedLoop_closed g (e.chart.length - 1)
    (terminal_symbol_mem g c cid hcid) e'.chart hcur1 ?_ fuel N dd
  intro it hit
  rw [hslotS] at hit ⊢
  rw [Naive.closOld_frozen g hwf (e.chart.length - 1) (hSval it hit) hfrozen]
  exact hSclos it hit

set_option maxRecDepth 40000 in
theorem C8_closure_idempotent_witness :
    (Naive.feedLoop toyGrammar ((Naive.Earley.init toyGrammar).chart.length - 1) 5 7
      (((Naive.Earley.init toyGrammar).feed "c").getD (Naive.Earley.init toyGrammar)).chart
      ((((Naive.Earley.init toyGrammar).feed "c").getD
        (Naive.Earley.init toyGrammar)).chart.getD
        ((Naive.Earley.init toyGrammar).chart.length - 1) ∅) ∅ []).1 =
      (((Naive.Earley.init toyGrammar).feed "c").getD
        (Naive.Earley.init toyGrammar)).chart :=
  C8_closure_idempotent toyGrammar (by decide) (Naive.Earley.init toyGrammar)
    (Naive.init_EngineInv toyGrammar) "c" 5 (by decide)
    (((Naive.Earley.init toyGrammar).feed "c").getD (Naive.Earley.init toyGrammar))
    (by decide) 7 ∅ []

namespace Fast

theorem closOld_gp_none {g : Grammar} {chart : Chart} {cur : Nat} {p : GrammarPoint}
    {b : Nat} (hs : g.get_symbol_at_point p = none) :
    closOld g chart cur ⟨Point.gp p, b⟩ =
      ((chart.getD b ∅).filter
        (fun cit => cit.point = Point.sp ⟨p.sym, false⟩)).image Item.proceed := by
  simp only [closOld, hs]

theorem closOld_gp_some {g : Grammar} {chart : Chart} {cur : Nat} {p : GrammarPoint}
    {b : Nat} {s : Symbol} (hs : g.get_symbol_at_point p = some s) :
    closOld g chart cur ⟨Point.gp p, b⟩ =
      (if s ∉ g.terminals then {⟨Point.sp ⟨s, false⟩, cur⟩} else ∅) := by
  simp only [closOld, hs]

theorem closOld_spF (g : Grammar) (chart : Chart) (cur : Nat) (A : Symbol) (b : Nat) :
    closOld g chart cur ⟨Point.sp ⟨A, false⟩, b⟩ =
      (Finset.range (g.rules.getD A []).length).image
        (fun r => Item.mk (Point.gp ⟨A, r, 0⟩) cur) := rfl

theorem closOld_spT (g : Grammar) (chart : Chart) (cur : Nat) (A : Symbol) (b : Nat) :
    closOld g chart cur ⟨Point.sp ⟨A, true⟩, b⟩ =
      ((chart.getD b ∅).filter (fun cit => waitsFor g A cit = true)).image
        Item.proceed := rfl

theorem validItem_gp {g : Grammar} {p : Nat} {q : GrammarPoint} {b : Nat} :
    validItem g p (⟨Point.gp q, b⟩ : Item) ↔
      validPoint g q ∧ b ≤ p ∧ (b = p → q.dot = 0) := Iff.rfl

theorem validItem_sp {g : Grammar} {p : Nat} {A : Symbol} {d : Bool} {b : Nat} :
    validItem g p (⟨Point.sp ⟨A, d⟩, b⟩ : Item) ↔
      (b ≤ p ∧ A < g.symbols.length ∧ A ∉ g.terminals ∧
        (d = false → b = p) ∧ (d = true → b ≠ p)) := Iff.rfl

theorem scanContrib_gp (g : Grammar) (cid : Symbol) (p : GrammarPoint) (b : Nat) :
    scanContrib g cid ⟨Point.gp p, b⟩ =
      (if g.get_symbol_at_point p = some cid
        then {(⟨Point.gp p, b⟩ : Item).proceed} else ∅) := rfl

theorem scanContrib_sp (g : Grammar) (cid : Symbol) (spp : StarPoint) (b : Nat) :
    scanContrib g cid ⟨Point.sp spp, b⟩ = ∅ := rfl

theorem processItem_gp_none {g : Grammar} {chart : Chart} {cur ns : Nat}
    {p : GrammarPoint} {b : Nat} (hs : g.get_symbol_at_point p = none) :
    processItem g chart cur ns ⟨Point.gp p, b⟩ =
      (((chart.getD b ∅).filter
        (fun cit => cit.point = Point.sp ⟨p.sym, false⟩)).image Item.proceed, ∅) := by
  simp only [processItem, hs]

theorem processItem_gp_some {g : Grammar} {chart : Chart} {cur ns : Nat}
    {p : GrammarPoint} {b : Nat} {s : Symbol} (hs : g.get_symbol_at_point p = some s) :
    processItem g chart cur ns ⟨Point.gp p, b⟩ =
      (if s = ns then (∅, {(⟨Point.gp p, b⟩ : Item).proceed})
        else if s ∉ g.terminals then ({⟨Point.sp ⟨s, false⟩, cur⟩}, ∅) else (∅, ∅)) := by
  simp only [processItem, hs]

theorem processItem_spF (g : Grammar) (chart : Chart) (cur ns : Nat) (A : Symbol)
    (b : Nat) :
    processItem g chart cur ns ⟨Point.sp ⟨A, false⟩, b⟩ =
      ((Finset.range (g.rules.getD A []).length).image
        (fun r => Item.mk (Point.gp ⟨A, r, 0⟩) cur), ∅) := rfl

theorem processItem_spT (g : Grammar) (chart : Chart) (cur ns : Nat) (A : Symbol)
    (b : Nat) :
    processItem g chart cur ns ⟨Point.sp ⟨A, true⟩, b⟩ =
      (((chart.getD b ∅).filter (fun cit => waitsFor g A cit = true)).image
        Item.proceed, ∅) := rfl

theorem contribOld_eq_closOldF (g : Grammar) (chart : Chart) (cur : Nat) {cid : Symbol}
    (hcid : cid ∈ g.terminals) (it : Item) :
    contribOld g chart cur cid it = closOld g chart cur it := by
  obtain ⟨pt, b⟩ := it
  cases pt with
  | gp p =>
    cases hs : g.get_symbol_at_point p with
    | none => rw [contribOld, processItem_gp_none hs, closOld_gp_none hs]
    | some s =>
      rw [contribOld, processItem_gp_some hs, closOld_gp_some hs]
      by_cases h1 : s = cid
      · subst h1
        rw [if_pos rfl, if_neg (by simpa using hcid)]
      · rw [if_neg h1]
        split_ifs <;> rfl
  | sp spp =>
    obtain ⟨A, d⟩ := spp
    cases d
    · rw [contribOld, processItem_spF, closOld_spF]
    · rw [contribOld, processItem_spT, closOld_spT]

theorem contribNew_eq_scanContribF (g : Grammar) (chart : Chart) (cur : Nat)
    (cid : Symbol) (it : Item) :
    contribNew g chart cur cid it = scanContrib g cid it := by
  obtain ⟨pt, b⟩ := it
  cases pt with
  | gp p =>
    cases hs : g.get_symbol_at_point p with
    | none =>
      rw [contribNew, processItem_gp_none hs, scanContrib_gp, hs,
        if_neg (by simp)]
    | some s =>
      rw [contribNew, processItem_gp_some hs, scanContrib_gp, hs]
      by_cases h1 : s = cid
      · subst h1
        rw [if_pos rfl, if_pos rfl]
      · rw [if_neg h1, if_neg (fun hx => h1 (Option.some_inj.mp hx))]
        split_ifs <;> rfl
  | sp spp =>
    obtain ⟨A, d⟩ := spp
    cases d
    · rw [contribNew, processItem_spF, scanContrib_sp]
    · rw [contribNew, processItem_spT, scanContrib_sp]

theorem valid_complete_beg_ltF (g : Grammar) (hwf : g.WF) {cur : Nat}
    {p : GrammarPoint} {b : Nat}
    (hv : validItem g cur (⟨Point.gp p, b⟩ : Item))
    (hc : g.get_symbol_at_point p = none) : b < cur := by
  obtain ⟨hq, hb, hz⟩ := validItem_gp.mp hv
  have hdot := complete_dot_pos g hwf hq hc
  rcases Nat.lt_or_ge b cur with h | h
  · exact h
  · have heq : b = cur := le_antisymm hb h
    have := hz heq
    omega

/-- Fast `closOld` at the current position only reads frozen chart slots. -/
theorem closOld_frozenF (g : Grammar) (hwf : g.WF) {chart chart' : Chart} (cur : Nat)
    {it : Item} (hv : validItem g cur it)
    (h : ∀ b, b < cur → chart'.getD b ∅ = chart.getD b ∅) :
    closOld g chart' cur it = closOld g chart cur it := by
  obtain ⟨pt, b⟩ := it
  cases pt with
  | gp p =>
    cases hs : g.get_symbol_at_point p with
    | none =>
      have hblt : b < cur := valid_complete_beg_ltF g hwf hv hs
      rw [closOld_gp_none hs, closOld_gp_none hs, h b hblt]
    | some s => rw [closOld_gp_some hs, closOld_gp_some hs]
  | sp spp =>
    obtain ⟨A, d⟩ := spp
    cases d
    · rw [closOld_spF, closOld_spF]
    · obtain ⟨hb, -, -, -, hne⟩ := validItem_sp.mp hv
      have hblt : b < cur := lt_of_le_of_ne hb (hne rfl)
      rw [closOld_spT, closOld_spT, h b hblt]

theorem closOld_set_curF (g : Grammar) (hwf : g.WF) (chart : Chart) (cur : Nat)
    (X : State) {it : Item} (hv : validItem g cur it) :
    closOld g (chart.set cur X) cur it = closOld g chart cur it :=
  closOld_frozenF g hwf cur hv
    (fun b hb => getD_set_ne _ _ _ _ _ (by omega))

theorem mem_fastPointUniverse (g : Grammar) (p : Point) :
    p ∈ fastPointUniverse g ↔
      ((∃ q, p = Point.gp q ∧ validPoint g q) ∨
        (∃ sp : StarPoint, p = Point.sp sp ∧ sp.sym < g.symbols.length)) := by
  unfold fastPointUniverse
  simp only [Finset.mem_union, Finset.mem_image, Finset.mem_biUnion, Finset.mem_range,
    Finset.mem_insert, Finset.mem_singleton, mem_pointUniverse]
  constructor
  · rintro (⟨q, hq, rfl⟩ | ⟨s, hs, (rfl | rfl)⟩)
    · exact Or.inl ⟨q, rfl, hq⟩
    · exact Or.inr ⟨⟨s, false⟩, rfl, hs⟩
    · exact Or.inr ⟨⟨s, true⟩, rfl, hs⟩
  · rintro (⟨q, rfl, hq⟩ | ⟨sp, rfl, hs⟩)
    · exact Or.inl ⟨q, hq, rfl⟩
    · obtain ⟨s, d⟩ := sp
      cases d
      · exact Or.inr ⟨s, hs, Or.inl rfl⟩
      · exact Or.inr ⟨s, hs, Or.inr rfl⟩

theorem valid_mem_itemUniverseF (g : Grammar) (cur : Nat) {x : Item}
    (hv : validItem g cur x) : x ∈ itemUniverse g cur := by
  obtain ⟨pt, b⟩ := x
  unfold itemUniverse
  simp only [Finset.mem_biUnion, Finset.mem_image, Finset.mem_range]
  cases pt with
  | gp q =>
    obtain ⟨hq, hb, -⟩ := validItem_gp.mp hv
    refine ⟨Point.gp q, ?_, b, by omega, rfl⟩
    rw [mem_fastPointUniverse]
    exact Or.inl ⟨q, rfl, hq⟩
  | sp spp =>
    obtain ⟨A, d⟩ := spp
    obtain ⟨hb, hs, -⟩ := validItem_sp.mp hv
    refine ⟨Point.sp ⟨A, d⟩, ?_, b, by omega, rfl⟩
    rw [mem_fastPointUniverse]
    exact Or.inr ⟨⟨A, d⟩, rfl, hs⟩

theorem closOld_validF (g : Grammar) (hwf : g.WF) (chart : Chart) (cur : Nat)
    (hchart : ∀ b it, it ∈ chart.getD b ∅ → validItem g b it)
    {it : Item} (hv : validItem g cur it) :
    ∀ x ∈ closOld g chart cur it, validItem g cur x := by
  intro x hx
  obtain ⟨pt, b⟩ := it
  cases pt with
  | gp p =>
    cases hs : g.get_symbol_at_point p with
    | none =>
      have hblt : b < cur := valid_complete_beg_ltF g hwf hv hs
      rw [closOld_gp_none hs] at hx
      simp only [Finset.mem_image, Finset.mem_filter] at hx
      obtain ⟨w, ⟨hw, hwp⟩, rfl⟩ := hx
      obtain ⟨wp, wb⟩ := w
      dsimp only at hwp
      subst hwp
      obtain ⟨hwb, hwsym, hwterm, hweq, -⟩ := validItem_sp.mp (hchart b _ hw)
      have hwbeq : wb = b := hweq rfl
      show validItem g cur (⟨Point.sp ⟨p.sym, true⟩, wb⟩ : Item)
      refine validItem_sp.mpr ⟨by omega, hwsym, hwterm, ?_, fun _ => by omega⟩
      intro hff
      exact absurd hff (by simp)
    | some s =>
      rw [closOld_gp_some hs] at hx
      by_cases ht : s ∉ g.terminals
      · rw [if_pos ht] at hx
        rw [Finset.mem_singleton] at hx
        subst hx
        obtain ⟨hq, -, -⟩ := validItem_gp.mp hv
        have hsym : s < g.symbols.length :=
          (ruleAt_rhs_spec g hwf hq.1 hq.2.1).2 s
            (get_symbol_at_point_some_facts g p s hs).2
        refine validItem_sp.mpr ⟨le_refl _, hsym, ht, fun _ => rfl, ?_⟩
        intro htt
        exact absurd htt (by simp)
      · rw [if_neg ht] at hx
        simp at hx
  | sp spp =>
    obtain ⟨A, d⟩ := spp
    cases d
    · rw [closOld_spF] at hx
      simp only [Finset.mem_image, Finset.mem_range] at hx
      obtain ⟨r, hr, rfl⟩ := hx
      exact validItem_gp.mpr ⟨⟨rules_getD_pos_lt g
        (show 0 < (g.rules.getD A []).length by omega), hr, Nat.zero_le _⟩,
        le_refl _, fun _ => rfl⟩
    · obtain ⟨hb, -, -, -, hne⟩ := validItem_sp.mp hv
      have hblt : b < cur := lt_of_le_of_ne hb (hne rfl)
      rw [closOld_spT] at hx
      simp only [Finset.mem_image, Finset.mem_filter] at hx
      obtain ⟨w, ⟨hw, hwait⟩, rfl⟩ := hx
      obtain ⟨wp, wb⟩ := w
      cases wp with
      | gp q =>
        have hq : g.get_symbol_at_point q = some A := by
          have := of_decide_eq_true hwait
          exact this
        obtain ⟨hwq, hwb, -⟩ := validItem_gp.mp (hchart b _ hw)
        show validItem g cur (⟨Point.gp q.proceed, wb⟩ : Item)
        refine validItem_gp.mpr ⟨validPoint_proceed g hwq hq, by omega, ?_⟩
        intro hE
        exfalso
        omega
      | sp wsp =>
        exact absurd hwait (by simp [waitsFor])

theorem scanContrib_validF (g : Grammar) (cur : Nat) (cid : Symbol)
    {it : Item} (hv : validItem g cur it) :
    ∀ x ∈ scanContrib g cid it, validItem g (cur + 1) x := by
  intro x hx
  obtain ⟨pt, b⟩ := it
  cases pt with
  | gp p =>
    rw [scanContrib_gp] at hx
    split_ifs at hx with hs
    · rw [Finset.mem_singleton] at hx
      subst hx
      obtain ⟨hq, hb, -⟩ := validItem_gp.mp hv
      show validItem g (cur + 1) (⟨Point.gp p.proceed, b⟩ : Item)
      refine validItem_gp.mpr ⟨validPoint_proceed g hq hs, by omega, ?_⟩
      intro hE
      exfalso
      omega
    · simp at hx
  | sp spp =>
    rw [scanContrib_sp] at hx
    simp at hx

theorem closOld_subset_univF (g : Grammar) (hwf : g.WF) (chart : Chart) (cur : Nat)
    (hchart : ∀ b it, it ∈ chart.getD b ∅ → validItem g b it)
    {x : Item} (hv : validItem g cur x) :
    closOld g chart cur x ⊆ itemUniverse g cur :=
  fun y hy => valid_mem_itemUniverseF g cur (closOld_validF g hwf chart cur hchart hv y hy)

theorem process_fst_eqF (g : Grammar) (chart : Chart) (cur : Nat) {cid : Symbol}
    (hcid : cid ∈ g.terminals) (O : State) :
    (process g chart cur (enumItems O) cid).1 = O.biUnion (closOld g chart cur) := by
  ext x
  rw [process_fst_memF, Finset.mem_biUnion]
  constructor
  · rintro ⟨it, hit, hx⟩
    rw [mem_enumItemsF] at hit
    rw [contribOld_eq_closOldF g _ cur hcid] at hx
    exact ⟨it, hit, hx⟩
  · rintro ⟨it, hit, hx⟩
    refine ⟨it, mem_enumItemsF.mpr hit, ?_⟩
    rw [contribOld_eq_closOldF g _ cur hcid]
    exact hx

theorem process_snd_eqF (g : Grammar) (chart : Chart) (cur : Nat) (cid : Symbol)
    (O : State) :
    (process g chart cur (enumItems O) cid).2 = O.biUnion (scanContrib g cid) := by
  ext x
  rw [process_snd_memF, Finset.mem_biUnion]
  constructor
  · rintro ⟨it, hit, hx⟩
    rw [mem_enumItemsF] at hit
    rw [contribNew_eq_scanContribF] at hx
    exact ⟨it, hit, hx⟩
  · rintro ⟨it, hit, hx⟩
    refine ⟨it, mem_enumItemsF.mpr hit, ?_⟩
    rw [contribNew_eq_scanContribF]
    exact hx

theorem feedLoop_eq_emptyF (g : Grammar) (cur : Nat) (cid : Symbol) :
    ∀ (fuel : Nat) (chart : Chart) (N : State),
      feedLoop g cur cid fuel chart ∅ N = (chart, N) := by
  intro fuel chart N
  cases fuel <;> simp [feedLoop]

end Fast

namespace Fast

set_option maxHeartbeats 1000000 in
theorem feedLoop_mainF (g : Grammar) (hwf : g.WF) (chart₀ : Chart) (cur : Nat)
    (hcur : cur < chart₀.length)
    (hchart : ∀ b it, it ∈ chart₀.getD b ∅ → validItem g b it)
    (cid : Symbol) (hcid : cid ∈ g.terminals) :
    ∀ (fuel : Nat) (C O N : State),
      O ⊆ C →
      (∀ it ∈ C, validItem g cur it) →
      (∀ it ∈ C, it ∉ O → closOld g chart₀ cur it ⊆ C) →
      (itemUniverse g cur).card - C.card < fuel →
      ∃ S : State,
        (∀ extra, feedLoop g cur cid (fuel + extra) (chart₀.set cur C) O N =
          feedLoop g cur cid fuel (chart₀.set cur C) O N) ∧
        (feedLoop g cur cid fuel (chart₀.set cur C) O N).1 = chart₀.set cur S ∧
        C ⊆ S ∧
        (∀ it ∈ S, validItem g cur it) ∧
        (∀ it ∈ S, closOld g chart₀ cur it ⊆ S) ∧
        (∀ P : Item → Prop, (∀ x ∈ C, P x) →
          (∀ x y, P x → y ∈ closOld g chart₀ cur x → P y) → ∀ x ∈ S, P x) ∧
        (feedLoop g cur cid fuel (chart₀.set cur C) O N).2 =
          N ∪ (S \ (C \ O)).biUnion (scanContrib g cid) := by
  intro fuel
  induction fuel using Nat.strong_induction_on with
  | _ fuel ih =>
    intro C O N hOC hvalC hproc hfuel
    obtain ⟨m, rfl⟩ : ∃ m, fuel = m + 1 := ⟨fuel - 1, by omega⟩
    by_cases hO : O = ∅
    · subst hO
      refine ⟨C, ?_, ?_, fun _ h => h, hvalC, fun it hit => hproc it hit (by simp), ?_, ?_⟩
      · intro extra
        rw [feedLoop_eq_emptyF, feedLoop_eq_emptyF]
      · rw [feedLoop_eq_emptyF]
      · intro P hbase _ x hx
        exact hbase x hx
      · rw [feedLoop_eq_emptyF]
        rw [Finset.sdiff_empty, Finset.sdiff_self, Finset.biUnion_empty, Finset.union_empty]
    · have hgetD : (chart₀.set cur C).getD cur ∅ = C := by
        rw [getD_set_same, if_pos hcur]
      have hproc1 : (process g (chart₀.set cur C) cur (enumItems O) cid).1 =
          O.biUnion (closOld g chart₀ cur) := by
        ext x
        rw [process_fst_memF, Finset.mem_biUnion]
        constructor
        · rintro ⟨it, hit, hx⟩
          rw [mem_enumItemsF] at hit
          rw [contribOld_eq_closOldF g _ cur hcid, closOld_set_curF g hwf chart₀ cur C
            (hvalC it (hOC hit))] at hx
          exact ⟨it, hit, hx⟩
        · rintro ⟨it, hit, hx⟩
          refine ⟨it, mem_enumItemsF.mpr hit, ?_⟩
          rw [contribOld_eq_closOldF g _ cur hcid, closOld_set_curF g hwf chart₀ cur C
            (hvalC it (hOC hit))]
          exact hx
      have hproc2 : (process g (chart₀.set cur C) cur (enumItems O) cid).2 =
          O.biUnion (scanContrib g cid) := by
        ext x
        rw [process_snd_memF, Finset.mem_biUnion]
        constructor
        · rintro ⟨it, hit, hx⟩
          rw [mem_enumItemsF] at hit
          rw [contribNew_eq_scanContribF] at hx
          exact ⟨it, hit, hx⟩
        · rintro ⟨it, hit, hx⟩
          refine ⟨it, mem_enumItemsF.mpr hit, ?_⟩
          rw [contribNew_eq_scanContribF]
          exact hx
      have hO'valid : ∀ x ∈ O.biUnion (closOld g chart₀ cur), validItem g cur x := by
        intro x hx
        rw [Finset.mem_biUnion] at hx
        obtain ⟨it, hit, hx⟩ := hx
        exact closOld_validF g hwf chart₀ cur hchart (hvalC it (hOC hit)) x hx
      have hstep : ∀ (k : Nat) (N₁ : State),
          feedLoop g cur cid (k + 1) (chart₀.set cur C) O N₁ =
          feedLoop g cur cid k
            (chart₀.set cur
              (C ∪ ((process g (chart₀.set cur C) cur (enumItems O) cid).1 \ C)))
            ((process g (chart₀.set cur C) cur (enumItems O) cid).1 \ C)
            (N₁ ∪ (process g (chart₀.set cur C) cur (enumItems O) cid).2) := by
        intro k N₁
        simp only [feedLoop]
        rw [if_neg hO, hgetD, List.set_set]
      by_cases hO' : O.biUnion (closOld g chart₀ cur) \ C = ∅
      · have hFOsub : O.biUnion (closOld g chart₀ cur) ⊆ C :=
          Finset.sdiff_eq_empty_iff_subset.mp hO'
        have hresult : ∀ (k : Nat),
            feedLoop g cur cid (k + 1) (chart₀.set cur C) O N =
            (chart₀.set cur C, N ∪ O.biUnion (scanContrib g cid)) := by
          intro k
          rw [hstep k N, hproc1, hproc2, hO', Finset.union_empty,
            feedLoop_eq_emptyF]
        refine ⟨C, ?_, ?_, fun _ h => h, hvalC, ?_, ?_, ?_⟩
        · intro extra
          rw [show m + 1 + extra = (m + extra) + 1 by omega, hresult (m + extra), hresult m]
        · rw [hresult m]
        · intro it hit
          by_cases hitO : it ∈ O
          · exact fun x hx => hFOsub (Finset.mem_biUnion.mpr ⟨it, hitO, hx⟩)
          · exact hproc it hit hitO
        · intro P hbase _ x hx
          exact hbase x hx
        · rw [hresult m]
          have hco : C \ (C \ O) = O := by
            rw [Finset.sdiff_sdiff_self_left]
            exact Finset.inter_eq_right.mpr hOC
          rw [hco]
      · have hdisj : Disjoint C (O.biUnion (closOld g chart₀ cur) \ C) :=
          Finset.disjoint_left.mpr (fun a ha hb => (Finset.mem_sdiff.mp hb).2 ha)
        have hO'C' : O.biUnion (closOld g chart₀ cur) \ C ⊆
            C ∪ (O.biUnion (closOld g chart₀ cur) \ C) := Finset.subset_union_right
        have hvalC' : ∀ it ∈ C ∪ (O.biUnion (closOld g chart₀ cur) \ C),
            validItem g cur it := by
          intro it hit
          rcases Finset.mem_union.mp hit with h | h
          · exact hvalC it h
          · exact hO'valid it (Finset.sdiff_subset h)
        have hFOsubC' : O.biUnion (closOld g chart₀ cur) ⊆
            C ∪ (O.biUnion (closOld g chart₀ cur) \ C) := by
          intro x hx
          by_cases hxC : x ∈ C
          · exact Finset.mem_union_left _ hxC
          · exact Finset.mem_union_right _ (Finset.mem_sdiff.mpr ⟨hx, hxC⟩)
        have hproc' : ∀ it ∈ C ∪ (O.biUnion (closOld g chart₀ cur) \ C),
            it ∉ O.biUnion (closOld g chart₀ cur) \ C →
            closOld g chart₀ cur it ⊆ C ∪ (O.biUnion (closOld g chart₀ cur) \ C) := by
          intro it hit hitO'
          have hitC : it ∈ C := by
            rcases Finset.mem_union.mp hit with h | h
            · exact h
            · exact absurd h hitO'
          by_cases hitO : it ∈ O
          · intro x hx
            exact hFOsubC' (Finset.mem_biUnion.mpr ⟨it, hitO, hx⟩)
          · intro x hx
            exact Finset.mem_union_left _ (hproc it hitC hitO hx)
        have hcardlt : C.card < (C ∪ (O.biUnion (closOld g chart₀ cur) \ C)).card := by
          rw [Finset.card_union_of_disjoint hdisj]
          have hpos : 0 < (O.biUnion (closOld g chart₀ cur) \ C).card :=
            Finset.card_pos.mpr (Finset.nonempty_iff_ne_empty.mpr hO')
          omega
        have hsubU : C ∪ (O.biUnion (closOld g chart₀ cur) \ C) ⊆ itemUniverse g cur :=
          fun x hx => valid_mem_itemUniverseF g cur (hvalC' x hx)
        have hfuel' : (itemUniverse g cur).card -
            (C ∪ (O.biUnion (closOld g chart₀ cur) \ C)).card < m := by
          have h1 := Finset.card_le_card hsubU
          omega
        obtain ⟨S, hstab, hchart', hCS, hvalS, hclosS, hsound, hNform⟩ :=
          ih m (Nat.lt_succ_self m) (C ∪ (O.biUnion (closOld g chart₀ cur) \ C))
            (O.biUnion (closOld g chart₀ cur) \ C)
            (N ∪ O.biUnion (scanContrib g cid))
            hO'C' hvalC' hproc' hfuel'
        refine ⟨S, ?_, ?_, ?_, hvalS, hclosS, ?_, ?_⟩
        · intro extra
          rw [show m + 1 + extra = (m + extra) + 1 by omega]
          rw [hstep (m + extra) N, hstep m N, hproc1, hproc2]
          exact hstab extra
        · rw [hstep m N, hproc1, hproc2]
          exact hchart'
        · exact fun x hx => hCS (Finset.mem_union_left _ hx)
        · intro P hbase hstepP x hx
          refine hsound P ?_ hstepP x hx
          intro y hy
          rcases Finset.mem_union.mp hy with h | h
          · exact hbase y h
          · obtain ⟨it, hit, hyc⟩ := Finset.mem_biUnion.mp (Finset.sdiff_subset h)
            exact hstepP it y (hbase it (hOC hit)) hyc
        · rw [hstep m N, hproc1, hproc2, hNform]
          have hCO' : (C ∪ (O.biUnion (closOld g chart₀ cur) \ C)) \
              (O.biUnion (closOld g chart₀ cur) \ C) = C := by
            ext x
            simp only [Finset.mem_sdiff, Finset.mem_union]
            constructor
            · rintro ⟨h1 | h1, h2⟩
              · exact h1
              · exact absurd h1 h2
            · intro h1
              exact ⟨Or.inl h1, fun hc => hc.2 h1⟩
          rw [hCO']
          have hsplit : S \ (C \ O) = (S \ C) ∪ O := by
            ext x
            simp only [Finset.mem_sdiff, Finset.mem_union]
            constructor
            · rintro ⟨hxS, hx⟩
              by_cases hxC : x ∈ C
              · right
                by_contra hxO
                exact hx ⟨hxC, hxO⟩
              · exact Or.inl ⟨hxS, hxC⟩
            · rintro (⟨hxS, hxC⟩ | hxO)
              · exact ⟨hxS, fun hc => hxC hc.1⟩
              · exact ⟨hCS (Finset.mem_union_left _ (hOC hxO)), fun hc => hc.2 hxO⟩
          rw [hsplit]
          have hbu : ∀ (A B : State) (f : Item → State),
              (A ∪ B).biUnion f = A.biUnion f ∪ B.biUnion f := by
            intro A B f
            ext y
            simp only [Finset.mem_biUnion, Finset.mem_union]
            constructor
            · rintro ⟨a, h | h, hy⟩
              · exact Or.inl ⟨a, h, hy⟩
              · exact Or.inr ⟨a, h, hy⟩
            · rintro (⟨a, h, hy⟩ | ⟨a, h, hy⟩)
              · exact ⟨a, Or.inl h, hy⟩
              · exact ⟨a, Or.inr h, hy⟩
          rw [hbu]
          ext y
          simp only [Finset.mem_union]
          tauto

theorem closOld_congrF (g : Grammar) {chart chart' : Chart} (cur : Nat) (it : Item)
    (h : chart.getD it.beg ∅ = chart'.getD it.beg ∅) :
    closOld g chart cur it = closOld g chart' cur it := by
  obtain ⟨pt, b⟩ := it
  dsimp only at h
  cases pt with
  | gp p =>
    cases hs : g.get_symbol_at_point p with
    | none => rw [closOld_gp_none hs, closOld_gp_none hs, h]
    | some s => rw [closOld_gp_some hs, closOld_gp_some hs]
  | sp spp =>
    obtain ⟨A, d⟩ := spp
    cases d
    · rw [closOld_spF, closOld_spF]
    · rw [closOld_spT, closOld_spT, h]

theorem validItem_beg_le (g : Grammar) {p : Nat} {it : Item}
    (hv : validItem g p it) : it.beg ≤ p := by
  obtain ⟨pt, b⟩ := it
  cases pt with
  | gp q => exact (validItem_gp.mp hv).2.1
  | sp spp =>
    obtain ⟨A, d⟩ := spp
    exact (validItem_sp.mp hv).1

/-- Fast-engine analogue of `Naive.feed_core`. -/
theorem feed_coreF (g : Grammar) (hwf : g.WF) (ch : Chart) (cur : Nat)
    (hcur : cur < ch.length)
    (hval : ∀ b it, it ∈ ch.getD b ∅ → validItem g b it)
    (cid : Symbol) (hcid : cid ∈ g.terminals)
    (r0 : State × State)
    (h1 : r0.1 = (ch.getD cur ∅).biUnion (closOld g ch cur))
    (h2 : r0.2 = (ch.getD cur ∅).biUnion (scanContrib g cid)) :
    ∃ S : State,
      (∀ x, x ∈ S ↔ Clos (closOld g ch cur) (ch.getD cur ∅) x) ∧
      (∀ it ∈ S, validItem g cur it) ∧
      (∀ it ∈ S, closOld g ch cur it ⊆ S) ∧
      (∀ extra, feedLoop g cur cid ((itemUniverse g cur).card + 1 + extra)
          (ch.set cur (ch.getD cur ∅ ∪ (r0.1 \ ch.getD cur ∅)))
          (r0.1 \ ch.getD cur ∅) r0.2 =
        feedLoop g cur cid ((itemUniverse g cur).card + 1)
          (ch.set cur (ch.getD cur ∅ ∪ (r0.1 \ ch.getD cur ∅)))
          (r0.1 \ ch.getD cur ∅) r0.2) ∧
      (feedLoop g cur cid ((itemUniverse g cur).card + 1)
          (ch.set cur (ch.getD cur ∅ ∪ (r0.1 \ ch.getD cur ∅)))
          (r0.1 \ ch.getD cur ∅) r0.2).1 = ch.set cur S ∧
      (feedLoop g cur cid ((itemUniverse g cur).card + 1)
          (ch.set cur (ch.getD cur ∅ ∪ (r0.1 \ ch.getD cur ∅)))
          (r0.1 \ ch.getD cur ∅) r0.2).2 =
        S.biUnion (scanContrib g cid) := by
  have hvalCS : ∀ it ∈ ch.getD cur ∅, validItem g cur it := fun it hit => hval cur it hit
  have hvalO : ∀ x ∈ r0.1 \ ch.getD cur ∅, validItem g cur x := by
    intro x hx
    have hx1 := (Finset.mem_sdiff.mp hx).1
    rw [h1] at hx1
    obtain ⟨it, hit, hxc⟩ := Finset.mem_biUnion.mp hx1
    exact closOld_validF g hwf ch cur hval (hvalCS it hit) x hxc
  have hFOC : r0.1 ⊆ ch.getD cur ∅ ∪ (r0.1 \ ch.getD cur ∅) := by
    intro x hx
    by_cases h : x ∈ ch.getD cur ∅
    · exact Finset.mem_union_left _ h
    · exact Finset.mem_union_right _ (Finset.mem_sdiff.mpr ⟨hx, h⟩)
  have hvalC : ∀ it ∈ ch.getD cur ∅ ∪ (r0.1 \ ch.getD cur ∅), validItem g cur it := by
    intro it hit
    rcases Finset.mem_union.mp hit with h | h
    · exact hvalCS it h
    · exact hvalO it h
  have hprocC : ∀ it ∈ ch.getD cur ∅ ∪ (r0.1 \ ch.getD cur ∅),
      it ∉ r0.1 \ ch.getD cur ∅ →
      closOld g ch cur it ⊆ ch.getD cur ∅ ∪ (r0.1 \ ch.getD cur ∅) := by
    intro it hit hout
    have hitCS : it ∈ ch.getD cur ∅ := by
      rcases Finset.mem_union.mp hit with h | h
      · exact h
      · exact absurd h hout
    intro x hx
    refine hFOC ?_
    rw [h1]
    exact Finset.mem_biUnion.mpr ⟨it, hitCS, hx⟩
  have hfuel : (itemUniverse g cur).card -
      (ch.getD cur ∅ ∪ (r0.1 \ ch.getD cur ∅)).card < (itemUniverse g cur).card + 1 := by
    have := Nat.sub_le (itemUniverse g cur).card
      (ch.getD cur ∅ ∪ (r0.1 \ ch.getD cur ∅)).card
    omega
  obtain ⟨S, hstab, hchartS, hCsubS, hvalS, hclosS, hsound, hNform⟩ :=
    feedLoop_mainF g hwf ch cur hcur hval cid hcid
      ((itemUniverse g cur).card + 1)
      (ch.getD cur ∅ ∪ (r0.1 \ ch.getD cur ∅)) (r0.1 \ ch.getD cur ∅)
      r0.2
      Finset.subset_union_right hvalC hprocC hfuel
  have hCSsubS : ch.getD cur ∅ ⊆ S :=
    fun x hx => hCsubS (Finset.mem_union_left _ hx)
  refine ⟨S, ?_, hvalS, hclosS, hstab, hchartS, ?_⟩
  · intro x
    constructor
    · intro hx
      refine hsound (Clos (closOld g ch cur) (ch.getD cur ∅)) ?_
        (fun a b ha hb => Clos.step ha hb) x hx
      intro y hy
      rcases Finset.mem_union.mp hy with h | h
      · exact Clos.base h
      · have hy1 := (Finset.mem_sdiff.mp h).1
        rw [h1] at hy1
        obtain ⟨it, hit, hyc⟩ := Finset.mem_biUnion.mp hy1
        exact Clos.step (Clos.base hit) hyc
    · intro hx
      exact Naive.Clos_subset (closOld g ch cur) (ch.getD cur ∅) S hCSsubS hclosS x hx
  · rw [hNform, h2]
    have hCO : (ch.getD cur ∅ ∪ (r0.1 \ ch.getD cur ∅)) \ (r0.1 \ ch.getD cur ∅) =
        ch.getD cur ∅ := by
      ext x
      simp only [Finset.mem_sdiff, Finset.mem_union]
      constructor
      · rintro ⟨h1' | h1', h2'⟩
        · exact h1'
        · exact absurd h1' h2'
      · intro h1'
        exact ⟨Or.inl h1', fun hc => hc.2 h1'⟩
    rw [hCO]
    ext x
    simp only [Finset.mem_union, Finset.mem_biUnion, Finset.mem_sdiff]
    constructor
    · rintro (⟨it, hit, hx⟩ | ⟨it, ⟨hit, -⟩, hx⟩)
      · exact ⟨it, hCSsubS hit, hx⟩
      · exact ⟨it, hit, hx⟩
    · rintro ⟨it, hit, hx⟩
      by_cases hitCS : it ∈ ch.getD cur ∅
      · exact Or.inl ⟨it, hitCS, hx⟩
      · exact Or.inr ⟨it, ⟨hit, hitCS⟩, hx⟩

/-- The full effect of one successful fast `feed` from an invariant-satisfying
engine state (fast-engine analogue of `Naive.feed_spec`). -/
theorem feed_specF (g : Grammar) (hwf : g.WF) (e : Earley) (hinv : EngineInv g e)
    (c : String) (cid : Symbol) (hcid : g.terminal_symbol c = some cid) :
    ∃ S : State,
      (∀ x, x ∈ S ↔ Clos (closOld g e.chart (e.chart.length - 1))
        (e.chart.getD (e.chart.length - 1) ∅) x) ∧
      (∀ it ∈ S, validItem g (e.chart.length - 1) it) ∧
      (∀ it ∈ S, closOld g e.chart (e.chart.length - 1) it ⊆ S) ∧
      ∃ e' : Earley,
        (∀ extra, e.feedFuel c
          ((itemUniverse g (e.chart.length - 1)).card + 1 + extra) = some e') ∧
        e.feed c = some e' ∧
        e'.grammar = g ∧
        e'.chart = (if c = "\x00" then e.chart.set (e.chart.length - 1) S
          else e.chart.set (e.chart.length - 1) S ++
            [S.biUnion (scanContrib g cid)]) ∧
        EngineInv g e' := by
  obtain ⟨gr, ch⟩ := e
  obtain ⟨hg, hne, hval, hclosed⟩ := hinv
  dsimp only at hg hne hval hclosed ⊢
  have hg' := hg.symm
  subst hg'
  have hlen : 0 < ch.length := List.length_pos.mpr hne
  have hcurlt : ch.length - 1 < ch.length := by omega
  obtain ⟨S, hSiff, hSval, hSclos, hstab, hchartS, hscan⟩ :=
    feed_coreF g hwf ch (ch.length - 1) hcurlt hval cid (terminal_symbol_mem g c cid hcid)
      (process g ch (ch.length - 1) (enumItems (ch.getD (ch.length - 1) ∅)) cid)
      (process_fst_eqF g ch (ch.length - 1) (terminal_symbol_mem g c cid hcid)
        (ch.getD (ch.length - 1) ∅))
      (process_snd_eqF g ch (ch.length - 1) cid (ch.getD (ch.length - 1) ∅))
  have hFF : ∀ F, Earley.feedFuel ⟨g, ch⟩ c F = some ⟨g,
      if c = "\x00" then (feedLoop g (ch.length - 1) cid F
          (ch.set (ch.length - 1) (ch.getD (ch.length - 1) ∅ ∪
            ((process g ch (ch.length - 1)
              (enumItems (ch.getD (ch.length - 1) ∅)) cid).1 \
              ch.getD (ch.length - 1) ∅)))
          ((process g ch (ch.length - 1)
            (enumItems (ch.getD (ch.length - 1) ∅)) cid).1 \
            ch.getD (ch.length - 1) ∅)
          (process g ch (ch.length - 1)
            (enumItems (ch.getD (ch.length - 1) ∅)) cid).2).1
        else (feedLoop g (ch.length - 1) cid F
          (ch.set (ch.length - 1) (ch.getD (ch.length - 1) ∅ ∪
            ((process g ch (ch.length - 1)
              (enumItems (ch.getD (ch.length - 1) ∅)) cid).1 \
              ch.getD (ch.length - 1) ∅)))
          ((process g ch (ch.length - 1)
            (enumItems (ch.getD (ch.length - 1) ∅)) cid).1 \
            ch.getD (ch.length - 1) ∅)
          (process g ch (ch.length - 1)
            (enumItems (ch.getD (ch.length - 1) ∅)) cid).2).1 ++
          [(feedLoop g (ch.length - 1) cid F
            (ch.set (ch.length - 1) (ch.getD (ch.length - 1) ∅ ∪
              ((process g ch (ch.length - 1)
                (enumItems (ch.getD (ch.length - 1) ∅)) cid).1 \
                ch.getD (ch.length - 1) ∅)))
            ((process g ch (ch.length - 1)
              (enumItems (ch.getD (ch.length - 1) ∅)) cid).1 \
              ch.getD (ch.length - 1) ∅)
            (process g ch (ch.length - 1)
              (enumItems (ch.getD (ch.length - 1) ∅)) cid).2).2]⟩ := by
    intro F
    unfold Earley.feedFuel
    dsimp only
    rw [hcid]
  refine ⟨S, hSiff, hSval, hSclos,
    ⟨g,
      if c = "\x00" then ch.set (ch.length - 1) S
        else ch.set (ch.length - 1) S ++ [S.biUnion (scanContrib g cid)]⟩,
    ?_, ?_, rfl, rfl, ?_⟩
  · intro extra
    rw [hFF, hstab extra, hchartS, hscan]
  · show Earley.feedFuel ⟨g, ch⟩ c _ = _
    rw [hFF, hchartS, hscan]
  · constructor
    · rfl
    refine ⟨?_, ?_, ?_⟩
    · dsimp only
      split
      · refine List.ne_nil_of_length_pos ?_
        rw [List.length_set]
        exact hlen
      · refine List.ne_nil_of_length_pos ?_
        rw [List.length_append, List.length_set]
        omega
    · dsimp only
      intro b it hit
      split at hit
      · by_cases hb : b = ch.length - 1
        · subst hb
          rw [getD_set_same, if_pos hcurlt] at hit
          exact hSval it hit
        · rw [getD_set_ne _ _ _ _ _ (fun heq => hb heq.symm)] at hit
          exact hval b it hit
      · rcases Nat.lt_trichotomy b ch.length with hb | hb | hb
        · rw [getD_append_left _ _ _ _ (by rw [List.length_set]; exact hb)] at hit
          by_cases hbc : b = ch.length - 1
          · subst hbc
            rw [getD_set_same, if_pos hcurlt] at hit
            exact hSval it hit
          · rw [getD_set_ne _ _ _ _ _ (fun heq => hbc heq.symm)] at hit
            exact hval b it hit
        · have hb' : b = (ch.set (ch.length - 1) S).length := by
            rw [List.length_set]
            omega
          rw [hb', getD_append_last] at hit
          obtain ⟨w, hw, hx⟩ := Finset.mem_biUnion.mp hit
          have := scanContrib_validF g (ch.length - 1) cid (hSval w hw) it hx
          have hb2 : b = ch.length - 1 + 1 := by omega
          rw [hb2]
          exact this
        · rw [getD_of_le_length _ _ _
            (by rw [List.length_append, List.length_set]; simpa using hb)] at hit
          simp at hit
    · dsimp only
      split
      · rw [List.length_set]
        intro p hp it hit
        have hpcur : p < ch.length - 1 := by omega
        rw [getD_set_ne _ _ _ _ _ (by omega)] at hit
        have hbeg : it.beg ≤ p := validItem_beg_le g (hval p it hit)
        have hcongr : closOld g (ch.set (ch.length - 1) S) p it = closOld g ch p it := by
          refine (closOld_congrF g p it ?_).symm
          rw [getD_set_ne _ _ _ _ _ (by omega)]
        rw [hcongr, getD_set_ne _ _ _ _ _ (by omega)]
        exact hclosed p hpcur it hit
      · rw [List.length_append, List.length_set]
        intro p hp it hit
        have hple : p < ch.length := by simp at hp; omega
        rw [getD_append_left _ _ _ _ (by rw [List.length_set]; exact hple)] at hit
        have hfrozen : ∀ b', b' < ch.length - 1 →
            (ch.set (ch.length - 1) S ++ [S.biUnion (scanContrib g cid)]).getD b' ∅ =
            ch.getD b' ∅ := by
          intro b' hb'
          rw [getD_append_left _ _ _ _ (by rw [List.length_set]; omega),
            getD_set_ne _ _ _ _ _ (by omega)]
        by_cases hpc : p = ch.length - 1
        · subst hpc
          rw [getD_set_same, if_pos hcurlt] at hit
          have hcongr : closOld g (ch.set (ch.length - 1) S ++
              [S.biUnion (scanContrib g cid)]) (ch.length - 1) it =
              closOld g ch (ch.length - 1) it :=
            closOld_frozenF g hwf (ch.length - 1) (hSval it hit) hfrozen
          rw [hcongr,
            getD_append_left _ _ _ _ (by rw [List.length_set]; exact hcurlt),
            getD_set_same, if_pos hcurlt]
          exact hSclos it hit
        · have hplt : p < ch.length - 1 := by omega
          rw [getD_set_ne _ _ _ _ _ (by omega)] at hit
          have hbeg : it.beg ≤ p := validItem_beg_le g (hval p it hit)
          have hcongr : closOld g (ch.set (ch.length - 1) S ++
              [S.biUnion (scanContrib g cid)]) p it = closOld g ch p it := by
            refine (closOld_congrF g p it ?_).symm
            rw [hfrozen it.beg (by omega)]
          rw [hcongr, hfrozen p hplt]
          exact hclosed p hplt it hit

/-- The freshly initialised fast engine satisfies the run invariant. -/
theorem init_EngineInvF (g : Grammar) : EngineInv g (Earley.init g) := by
  refine ⟨rfl, by simp [Earley.init], ?_, ?_⟩
  · intro b it hit
    cases b with
    | zero =>
      rw [show (Earley.init g).chart = [(Finset.range
        (g.rules.getD g.startSymbol []).length).image
        (fun r => Item.mk (Point.gp ⟨g.startSymbol, r, 0⟩) 0)] from rfl,
        List.getD_cons_zero] at hit
      simp only [Finset.mem_image, Finset.mem_range] at hit
      obtain ⟨r, hr, rfl⟩ := hit
      exact validItem_gp.mpr ⟨⟨rules_getD_pos_lt g
        (show 0 < (g.rules.getD g.startSymbol []).length by omega), hr, Nat.zero_le _⟩,
        Nat.le_refl _, fun _ => rfl⟩
    | succ b =>
      rw [getD_of_le_length] at hit
      · simp at hit
      · show 1 ≤ b + 1
        omega
  · intro p hp
    exact absurd hp (by simp [Earley.init])

/-- Feeding any list of registered terminals from an invariant-satisfying
state succeeds and preserves the invariant (fast engine). -/
theorem foldlM_feed_invF (g : Grammar) (hwf : g.WF) :
    ∀ (toks : List String) (e : Earley), EngineInv g e →
    (∀ tok ∈ toks, registeredTerminal g tok) →
    ∃ e', toks.foldlM Earley.feed e = some e' ∧ EngineInv g e' := by
  intro toks
  induction toks with
  | nil => exact fun e he _ => ⟨e, rfl, he⟩
  | cons t ts ih =>
    intro e he hreg
    obtain ⟨cid, hcid⟩ := Option.isSome_iff_exists.mp (hreg t (by simp))
    obtain ⟨S, -, -, -, e1, -, hfeed, -, -, hinv1⟩ := feed_specF g hwf e he t cid hcid
    obtain ⟨e', hrun, hinv'⟩ := ih e1 hinv1 (fun tok ht => hreg tok (by simp [ht]))
    refine ⟨e', ?_, hinv'⟩
    rw [List.foldlM_cons, hfeed]
    exact hrun

/-- A full fast run on registered input succeeds and yields an
invariant-satisfying engine state. -/
theorem run_invF (g : Grammar) (hwf : g.WF) (input : List String)
    (hreg : ∀ tok ∈ input, registeredTerminal g tok) :
    ∃ e', run g input = some e' ∧ EngineInv g e' := by
  refine foldlM_feed_invF g hwf (input ++ ["\x00"]) (Earley.init g) (init_EngineInvF g) ?_
  intro tok ht
  rcases List.mem_append.mp ht with h | h
  · exact hreg tok h
  · have htok : tok = "\x00" := by simpa using h
    subst htok
    show (g.terminal_symbol "\x00").isSome = true
    rw [sentinel_terminal g hwf]
    rfl

end Fast

/-- **C6** (termination_resources): for every well-formed (hence finite)
grammar, every invariant-satisfying engine state and every registered
terminal, the inner closure loop of a single `feed` call terminates: the
current state's item set only grows and is bounded by the finite universe of
possible items at that position, so the fuel `feed` provides already reaches
the round that produces no unseen same-position item, and any extra fuel
yields the identical result — in both the naive and the optimized engine. -/
theorem C6_closure_loop_terminates :
    ∀ g : Grammar, g.WF →
    ∀ (c : String) (cid : Symbol), g.terminal_symbol c = some cid →
    (∀ e : Naive.Earley, Naive.EngineInv g e →
      ∃ e', e.feed c = some e' ∧
        ∀ extra, e.feedFuel c
          ((Naive.itemUniverse g (e.chart.length - 1)).card + 1 + extra) = some e') ∧
    (∀ e : Fast.Earley, Fast.EngineInv g e →
      ∃ e', e.feed c = some e' ∧
        ∀ extra, e.feedFuel c
          ((Fast.itemUniverse g (e.chart.length - 1)).card + 1 + extra) = some e') := by
  intro g hwf c cid hcid
  constructor
  · intro e hinv
    obtain ⟨S, -, -, -, e', hstab, hfeed, -, -, -⟩ :=
      Naive.feed_spec g hwf e hinv c cid hcid
    exact ⟨e', hfeed, hstab⟩
  · intro e hinv
    obtain ⟨S, -, -, -, e', hstab, hfeed, -, -, -⟩ :=
      Fast.feed_specF g hwf e hinv c cid hcid
    exact ⟨e', hfeed, hstab⟩

theorem C6_closure_loop_terminates_witness :
    (∀ e : Naive.Earley, Naive.EngineInv toyGrammar e →
      ∃ e', e.feed "c" = some e' ∧
        ∀ extra, e.feedFuel "c"
          ((Naive.itemUniverse toyGrammar (e.chart.length - 1)).card + 1 + extra) =
            some e') ∧
    (∀ e : Fast.Earley, Fast.EngineInv toyGrammar e →
      ∃ e', e.feed "c" = some e' ∧
        ∀ extra, e.feedFuel "c"
          ((Fast.itemUniverse toyGrammar (e.chart.length - 1)).card + 1 + extra) =
            some e') :=
  C6_closure_loop_terminates toyGrammar (by decide) "c" 5 (by decide)

/-- **C10** (implicit origin-bound invariant): in both engines, after every
run (any sequence of `feed` calls on registered terminals, ended by the
sentinel), every item stored in the chart state at position `i` has origin
`beg ≤ i`. -/
theorem C10_origin_bound :
    ∀ g : Grammar, g.WF →
    ∀ input : List String, (∀ tok ∈ input, registeredTerminal g tok) →
    (∀ e', Naive.run g input = some e' →
      ∀ i it, it ∈ e'.chart.getD i ∅ → it.beg ≤ i) ∧
    (∀ e', Fast.run g input = some e' →
      ∀ i it, it ∈ e'.chart.getD i ∅ → it.beg ≤ i) := by
  intro g hwf input hreg
  constructor
  · intro e' hrun i it hit
    obtain ⟨e'', hrun', hinv⟩ := Naive.run_inv g hwf input hreg
    have he : e'' = e' := Option.some_inj.mp (hrun'.symm.trans hrun)
    subst he
    exact (hinv.2.2.1 i it hit).2.1
  · intro e' hrun i it hit
    obtain ⟨e'', hrun', hinv⟩ := Fast.run_invF g hwf input hreg
    have he : e'' = e' := Option.some_inj.mp (hrun'.symm.trans hrun)
    subst he
    exact Fast.validItem_beg_le g (hinv.2.2.1 i it hit)

/-- The heart of the engine-equivalence proof: over coupled charts (equal
Grammar-Point items everywhere, star items of closed slots characterized), the
naive closure of the current naive slot and the fast closure of the current
fast slot correspond: every naive closure item appears as a Grammar-Point item
of the fast closure, and every fast closure item is characterized (Grammar
Points project to naive closure items; star items carry naive witnesses). -/
theorem closure_correspondence (g : Grammar) (hwf : g.WF)
    (chN : Naive.Chart) (chF : Fast.Chart) (cur : Nat)
    (hvalN : ∀ b it, it ∈ chN.getD b ∅ → Naive.validItem g b it)
    (hvalF : ∀ b it, it ∈ chF.getD b ∅ → Fast.validItem g b it)
    (hslotgp : ∀ (i : Nat) (q : GrammarPoint) (b : Nat),
      (⟨Fast.Point.gp q, b⟩ : Fast.Item) ∈ chF.getD i ∅ ↔
      (⟨q, b⟩ : Naive.Item) ∈ chN.getD i ∅)
    (hstars : ∀ p, p < cur → starCharF g chF p ∧ starCharT g chF p)
    (hlast : noStars (chF.getD cur ∅) ∨ (starCharF g chF cur ∧ starCharT g chF cur))
    (Sn : Naive.State) (Sf : Fast.State)
    (hSiffN : ∀ x, x ∈ Sn ↔ Clos (Naive.closOld g chN cur) (chN.getD cur ∅) x)
    (hSiffF : ∀ x, x ∈ Sf ↔ Clos (Fast.closOld g chF cur) (chF.getD cur ∅) x)
    (hSvalN : ∀ it ∈ Sn, Naive.validItem g cur it)
    (hSvalF : ∀ it ∈ Sf, Fast.validItem g cur it)
    (hSclosN : ∀ it ∈ Sn, Naive.closOld g chN cur it ⊆ Sn)
    (hSclosF : ∀ it ∈ Sf, Fast.closOld g chF cur it ⊆ Sf) :
    (∀ it ∈ Sn, (⟨Fast.Point.gp it.point, it.beg⟩ : Fast.Item) ∈ Sf) ∧
    (∀ x ∈ Sf,
      (∀ q : GrammarPoint, x.point = Fast.Point.gp q →
        (⟨q, x.beg⟩ : Naive.Item) ∈ Sn) ∧
      (∀ A : Symbol, x.point = Fast.Point.sp ⟨A, false⟩ →
        x.beg = cur ∧ A ∉ g.terminals ∧
          ∃ w : Naive.Item, w ∈ Sn ∧ g.get_symbol_at_point w.point = some A) ∧
      (∀ A : Symbol, x.point = Fast.Point.sp ⟨A, true⟩ →
        x.beg < cur ∧
        (⟨Fast.Point.sp ⟨A, false⟩, x.beg⟩ : Fast.Item) ∈ chF.getD x.beg ∅ ∧
        ∃ q : GrammarPoint, q.sym = A ∧ g.get_symbol_at_point q = none ∧
          (⟨q, x.beg⟩ : Naive.Item) ∈ Sn)) := by
  constructor
  · -- naive closure to fast closure
    intro it hit
    have hclos := (hSiffN it).mp hit
    clear hit
    induction hclos with
    | base h =>
      exact (hSiffF _).mpr (Clos.base ((hslotgp cur _ _).mpr h))
    | step hx hy ih =>
      rename_i x y
      have hxSn : x ∈ Sn := (hSiffN x).mpr hx
      cases hs : g.get_symbol_at_point x.point with
      | none =>
        have hblt : x.beg < cur := Naive.valid_complete_beg_lt g hwf (hSvalN x hxSn) hs
        simp only [Naive.closOld, hs, Finset.mem_image, Finset.mem_filter] at hy
        obtain ⟨w, ⟨hw, hwait⟩, rfl⟩ := hy
        have hwF : (⟨Fast.Point.gp w.point, w.beg⟩ : Fast.Item) ∈ chF.getD x.beg ∅ :=
          (hslotgp x.beg _ _).mpr hw
        have hsfmem : (⟨Fast.Point.sp ⟨x.point.sym, false⟩, x.beg⟩ : Fast.Item) ∈
            chF.getD x.beg ∅ := by
          rw [(hstars x.beg hblt).1 x.point.sym x.beg]
          exact ⟨rfl, complete_sym_not_terminal g hwf (hSvalN x hxSn).1,
            w.point, w.beg, hwF, hwait⟩
        have hst : (⟨Fast.Point.sp ⟨x.point.sym, true⟩, x.beg⟩ : Fast.Item) ∈ Sf := by
          refine (hSiffF _).mpr (Clos.step ((hSiffF _).mp ih) ?_)
          rw [Fast.closOld_gp_none hs]
          simp only [Finset.mem_image, Finset.mem_filter]
          exact ⟨⟨Fast.Point.sp ⟨x.point.sym, false⟩, x.beg⟩, ⟨hsfmem, rfl⟩, rfl⟩
        refine (hSiffF _).mpr (Clos.step ((hSiffF _).mp hst) ?_)
        rw [Fast.closOld_spT]
        simp only [Finset.mem_image, Finset.mem_filter]
        refine ⟨⟨Fast.Point.gp w.point, w.beg⟩, ⟨hwF, ?_⟩, rfl⟩
        exact decide_eq_true hwait
      | some s =>
        by_cases hterm : s ∈ g.terminals
        · simp only [Naive.closOld, hs, if_neg (not_not_intro hterm)] at hy
          simp at hy
        · simp only [Naive.closOld, hs, if_pos hterm, Finset.mem_image,
            Finset.mem_range] at hy
          obtain ⟨r, hr, rfl⟩ := hy
          have hstF : (⟨Fast.Point.sp ⟨s, false⟩, cur⟩ : Fast.Item) ∈ Sf := by
            refine (hSiffF _).mpr (Clos.step ((hSiffF _).mp ih) ?_)
            rw [Fast.closOld_gp_some hs, if_pos hterm]
            exact Finset.mem_singleton_self _
          refine (hSiffF _).mpr (Clos.step ((hSiffF _).mp hstF) ?_)
          rw [Fast.closOld_spF]
          simp only [Finset.mem_image, Finset.mem_range]
          exact ⟨r, hr, rfl⟩
  · -- fast closure characterization
    intro x hx
    have hclos := (hSiffF x).mp hx
    clear hx
    induction hclos with
    | base h =>
      rename_i x
      refine ⟨?_, ?_, ?_⟩
      · intro q heq
        refine (hSiffN _).mpr (Clos.base ((hslotgp cur q x.beg).mp ?_))
        rw [← heq]
        exact h
      · intro A heq
        rcases hlast with hnost | ⟨hsF, hsT⟩
        · have hgp := hnost x h
          rw [heq] at hgp
          exact absurd hgp (by simp [Fast.Point.isGp])
        · have hx' : (⟨Fast.Point.sp ⟨A, false⟩, x.beg⟩ : Fast.Item) ∈
              chF.getD cur ∅ := by
            rw [← heq]
            exact h
          obtain ⟨hbcur, hAterm, q, bq, hq, hwait⟩ := (hsF A x.beg).mp hx'
          exact ⟨hbcur, hAterm, ⟨q, bq⟩,
            (hSiffN _).mpr (Clos.base ((hslotgp cur q bq).mp hq)), hwait⟩
      · intro A heq
        rcases hlast with hnost | ⟨hsF, hsT⟩
        · have hgp := hnost x h
          rw [heq] at hgp
          exact absurd hgp (by simp [Fast.Point.isGp])
        · have hx' : (⟨Fast.Point.sp ⟨A, true⟩, x.beg⟩ : Fast.Item) ∈
              chF.getD cur ∅ := by
            rw [← heq]
            exact h
          obtain ⟨hsfmem, q, hqsym, hqc, hqmem⟩ := (hsT A x.beg).mp hx'
          obtain ⟨hble, -, -, -, hne⟩ := Fast.validItem_sp.mp (hvalF cur _ hx')
          exact ⟨lt_of_le_of_ne hble (hne rfl), hsfmem, q, hqsym, hqc,
            (hSiffN _).mpr (Clos.base ((hslotgp cur q x.beg).mp hqmem))⟩
    | step hx hy ih =>
      rename_i x y
      obtain ⟨px, bx⟩ := x
      cases px with
      | gp q =>
        have hqSn : (⟨q, bx⟩ : Naive.Item) ∈ Sn := ih.1 q rfl
        cases hs : g.get_symbol_at_point q with
        | none =>
          rw [Fast.closOld_gp_none hs] at hy
          simp only [Finset.mem_image, Finset.mem_filter] at hy
          obtain ⟨w, ⟨hw, hwp⟩, rfl⟩ := hy
          obtain ⟨wp, wb⟩ := w
          dsimp only at hwp
          subst hwp
          obtain ⟨-, -, -, hweq, -⟩ := Fast.validItem_sp.mp (hvalF bx _ hw)
          have hwb : bx = wb := (hweq rfl).symm
          subst hwb
          have hbxlt : bx < cur :=
            Naive.valid_complete_beg_lt g hwf (hSvalN _ hqSn) hs
          refine ⟨?_, ?_, ?_⟩
          · intro q' heq
            exact Fast.Point.noConfusion
              (show Fast.Point.sp ⟨q.sym, true⟩ = Fast.Point.gp q' from heq)
          · intro A heq
            have heq' : Fast.Point.sp ⟨q.sym, true⟩ = Fast.Point.sp ⟨A, false⟩ := heq
            injection heq' with h1
            injection h1 with h1a h1b
            exact absurd h1b (by simp)
          · intro A heq
            have heq' : Fast.Point.sp ⟨q.sym, true⟩ = Fast.Point.sp ⟨A, true⟩ := heq
            injection heq' with h1
            injection h1 with h1a h1b
            refine ⟨hbxlt, ?_, q, h1a, hs, hqSn⟩
            rw [← h1a]
            exact hw
        | some s =>
          rw [Fast.closOld_gp_some hs] at hy
          split_ifs at hy with hterm
          · simp at hy
          · rw [Finset.mem_singleton] at hy
            subst hy
            refine ⟨?_, ?_, ?_⟩
            · intro q' heq
              exact Fast.Point.noConfusion
                (show Fast.Point.sp ⟨s, false⟩ = Fast.Point.gp q' from heq)
            · intro A heq
              have heq' : Fast.Point.sp ⟨s, false⟩ = Fast.Point.sp ⟨A, false⟩ := heq
              injection heq' with h1
              injection h1 with h1a h1b
              subst h1a
              exact ⟨rfl, hterm, ⟨q, bx⟩, hqSn, hs⟩
            · intro A heq
              have heq' : Fast.Point.sp ⟨s, false⟩ = Fast.Point.sp ⟨A, true⟩ := heq
              injection heq' with h1
              injection h1 with h1a h1b
              exact absurd h1b (by simp)
      | sp spp =>
        obtain ⟨A, d⟩ := spp
        cases d with
        | false =>
          obtain ⟨hbcur, hAterm, w, hwSn, hwait⟩ := ih.2.1 A rfl
          rw [Fast.closOld_spF] at hy
          simp only [Finset.mem_image, Finset.mem_range] at hy
          obtain ⟨r, hr, rfl⟩ := hy
          refine ⟨?_, ?_, ?_⟩
          · intro q' heq
            have heq' : Fast.Point.gp ⟨A, r, 0⟩ = Fast.Point.gp q' := heq
            injection heq' with h1
            subst h1
            refine hSclosN w hwSn ?_
            simp only [Naive.closOld, hwait, if_pos hAterm, Finset.mem_image,
              Finset.mem_range]
            exact ⟨r, hr, rfl⟩
          · intro A' heq
            exact Fast.Point.noConfusion
              (show Fast.Point.gp ⟨A, r, 0⟩ = Fast.Point.sp ⟨A', false⟩ from heq)
          · intro A' heq
            exact Fast.Point.noConfusion
              (show Fast.Point.gp ⟨A, r, 0⟩ = Fast.Point.sp ⟨A', true⟩ from heq)
        | true =>
          obtain ⟨hblt, hsfmem, qc, hqcsym, hqcc, hqcSn⟩ := ih.2.2 A rfl
          subst hqcsym
          rw [Fast.closOld_spT] at hy
          simp only [Finset.mem_image, Finset.mem_filter] at hy
          obtain ⟨w, ⟨hw, hwait⟩, rfl⟩ := hy
          obtain ⟨wp, wb⟩ := w
          cases wp with
          | sp wsp => exact absurd hwait (by simp [Fast.waitsFor])
          | gp qw =>
            have hqw : g.get_symbol_at_point qw = some qc.sym := of_decide_eq_true hwait
            have hwSn : (⟨qw, wb⟩ : Naive.Item) ∈ chN.getD bx ∅ :=
              (hslotgp bx qw wb).mp hw
            refine ⟨?_, ?_, ?_⟩
            · intro q' heq
              have heq' : Fast.Point.gp qw.proceed = Fast.Point.gp q' := heq
              injection heq' with h1
              subst h1
              refine hSclosN ⟨qc, bx⟩ hqcSn ?_
              simp only [Naive.closOld, hqcc, Finset.mem_image, Finset.mem_filter]
              refine ⟨⟨qw, wb⟩, ⟨hwSn, ?_⟩, rfl⟩
              exact hqw
            · intro A' heq
              exact Fast.Point.noConfusion
                (show Fast.Point.gp qw.proceed = Fast.Point.sp ⟨A', false⟩ from heq)
            · intro A' heq
              exact Fast.Point.noConfusion
                (show Fast.Point.gp qw.proceed = Fast.Point.sp ⟨A', true⟩ from heq)

set_option maxHeartbeats 1000000 in
/-- One successful `feed` on both engines preserves the coupled invariant. -/
theorem coupled_feed (g : Grammar) (hwf : g.WF) (en : Naive.Earley) (ef : Fast.Earley)
    (hc : Coupled g en ef) (c : String) (cid : Symbol)
    (hcid : g.terminal_symbol c = some cid) :
    ∃ (en' : Naive.Earley) (ef' : Fast.Earley),
      en.feed c = some en' ∧ ef.feed c = some ef' ∧ Coupled g en' ef' := by
  obtain ⟨hinvN, hinvF, hlen, hslots, hstars, hlast⟩ := hc
  have hcidT : cid ∈ g.terminals := terminal_symbol_mem g c cid hcid
  have hneN : en.chart ≠ [] := hinvN.2.1
  have hlenNpos : 0 < en.chart.length := List.length_pos.mpr hneN
  have hcc : ef.chart.length - 1 = en.chart.length - 1 := by rw [hlen]
  obtain ⟨Sn, hSiffN, hSvalN, hSclosN, en', hstabN, hfeedN, hgN, hchartN, hinvN'⟩ :=
    Naive.feed_spec g hwf en hinvN c cid hcid
  obtain ⟨Sf, hSiffF, hSvalF, hSclosF, ef', hstabF, hfeedF, hgF, hchartF, hinvF'⟩ :=
    Fast.feed_specF g hwf ef hinvF c cid hcid
  rw [hcc] at hSiffF hSvalF hSclosF hchartF
  rw [hcc] at hlast
  set cur := en.chart.length - 1 with hcur
  have hslotgp : ∀ (i : Nat) (q : GrammarPoint) (b : Nat),
      (⟨Fast.Point.gp q, b⟩ : Fast.Item) ∈ ef.chart.getD i ∅ ↔
      (⟨q, b⟩ : Naive.Item) ∈ en.chart.getD i ∅ := by
    intro i q b
    rw [← hslots i, mem_fastGpItems]
  obtain ⟨hQ, hP⟩ := closure_correspondence g hwf en.chart ef.chart cur
    hinvN.2.2.1 hinvF.2.2.1 hslotgp hstars hlast Sn Sf hSiffN hSiffF
    hSvalN hSvalF hSclosN hSclosF
  have hcurltN : cur < en.chart.length := by omega
  have hcurltF : cur < ef.chart.length := by rw [← hlen]; omega
  -- slot facts about the post-feed charts
  have hfrN : ∀ b, b < cur → en'.chart.getD b ∅ = en.chart.getD b ∅ := by
    intro b hb
    rw [hchartN]
    split
    · exact getD_set_ne _ _ _ _ _ (by omega)
    · rw [getD_append_left _ _ _ _ (by rw [List.length_set]; omega)]
      exact getD_set_ne _ _ _ _ _ (by omega)
  have hfrF : ∀ b, b < cur → ef'.chart.getD b ∅ = ef.chart.getD b ∅ := by
    intro b hb
    rw [hchartF]
    split
    · exact getD_set_ne _ _ _ _ _ (by omega)
    · rw [getD_append_left _ _ _ _ (by rw [List.length_set]; omega)]
      exact getD_set_ne _ _ _ _ _ (by omega)
  have hslotN' : en'.chart.getD cur ∅ = Sn := by
    rw [hchartN]
    split
    · rw [getD_set_same, if_pos hcurltN]
    · rw [getD_append_left _ _ _ _ (by rw [List.length_set]; exact hcurltN),
        getD_set_same, if_pos hcurltN]
  have hslotF' : ef'.chart.getD cur ∅ = Sf := by
    rw [hchartF]
    split
    · rw [getD_set_same, if_pos hcurltF]
    · rw [getD_append_left _ _ _ _ (by rw [List.length_set]; exact hcurltF),
        getD_set_same, if_pos hcurltF]
  have hlenN' : en'.chart.length =
      if c = "\x00" then en.chart.length else en.chart.length + 1 := by
    rw [hchartN]
    split
    · rw [List.length_set]
    · rw [List.length_append, List.length_set]
      rfl
  have hlenF' : ef'.chart.length =
      if c = "\x00" then ef.chart.length else ef.chart.length + 1 := by
    rw [hchartF]
    split
    · rw [List.length_set]
    · rw [List.length_append, List.length_set]
      rfl
  have hscanN' : ¬ c = "\x00" →
      en'.chart.getD (cur + 1) ∅ = Sn.biUnion (Naive.scanContrib g cid) := by
    intro hc1
    rw [hchartN, if_neg hc1,
      show cur + 1 = (en.chart.set cur Sn).length by rw [List.length_set]; omega,
      getD_append_last]
  have hscanF' : ¬ c = "\x00" →
      ef'.chart.getD (cur + 1) ∅ = Sf.biUnion (Fast.scanContrib g cid) := by
    intro hc1
    rw [hchartF, if_neg hc1,
      show cur + 1 = (ef.chart.set cur Sf).length by
        rw [List.length_set, ← hlen]; omega,
      getD_append_last]
  -- the projected slot equalities
  have hgpSf : fastGpItems Sf = Sn := by
    ext x
    obtain ⟨q, b⟩ := x
    rw [mem_fastGpItems]
    constructor
    · intro h
      exact (hP _ h).1 q rfl
    · intro h
      exact hQ _ h
  have hscan_slot : fastGpItems (Sf.biUnion (Fast.scanContrib g cid)) =
      Sn.biUnion (Naive.scanContrib g cid) := by
    ext x
    obtain ⟨q, b⟩ := x
    rw [mem_fastGpItems]
    constructor
    · intro hmem
      obtain ⟨itf, hitf, hsc⟩ := Finset.mem_biUnion.mp hmem
      obtain ⟨pf, bf⟩ := itf
      cases pf with
      | sp spp =>
        rw [Fast.scanContrib_sp] at hsc
        simp at hsc
      | gp qf =>
        rw [Fast.scanContrib_gp] at hsc
        split_ifs at hsc with hqf
        · rw [Finset.mem_singleton] at hsc
          have h1 : Fast.Point.gp q = Fast.Point.gp qf.proceed :=
            congrArg Fast.Item.point hsc
          injection h1 with h1'
          have h2 : b = bf := congrArg Fast.Item.beg hsc
          subst h1' h2
          refine Finset.mem_biUnion.mpr ⟨⟨qf, b⟩, (hP _ hitf).1 qf rfl, ?_⟩
          unfold Naive.scanContrib
          rw [if_pos hqf, Finset.mem_singleton]
          rfl
        · simp at hsc
    · intro hmem
      obtain ⟨itn, hitn, hsc⟩ := Finset.mem_biUnion.mp hmem
      unfold Naive.scanContrib at hsc
      split_ifs at hsc with hqn
      · rw [Finset.mem_singleton] at hsc
        have h1 : q = itn.point.proceed := congrArg Naive.Item.point hsc
        have h2 : b = itn.beg := congrArg Naive.Item.beg hsc
        subst h1 h2
        refine Finset.mem_biUnion.mpr
          ⟨⟨Fast.Point.gp itn.point, itn.beg⟩, hQ itn hitn, ?_⟩
        rw [Fast.scanContrib_gp, if_pos hqn, Finset.mem_singleton]
        rfl
      · simp at hsc
  have hfempty : fastGpItems (∅ : Fast.State) = ∅ := rfl
  -- star characterizations of the freshly closed slot
  have hstarF_cur : ∀ (A : Symbol) (b : Nat),
      (⟨Fast.Point.sp ⟨A, false⟩, b⟩ : Fast.Item) ∈ Sf ↔
      (b = cur ∧ A ∉ g.terminals ∧
        ∃ q : GrammarPoint, ∃ bq : Nat,
          (⟨Fast.Point.gp q, bq⟩ : Fast.Item) ∈ Sf ∧
          g.get_symbol_at_point q = some A) := by
    intro A b
    constructor
    · intro h
      obtain ⟨hbc, hAt, w, hwSn, hwait⟩ := (hP _ h).2.1 A rfl
      exact ⟨hbc, hAt, w.point, w.beg, hQ w hwSn, hwait⟩
    · rintro ⟨rfl, hAt, q, bq, hq, hwait⟩
      refine hSclosF _ hq ?_
      rw [Fast.closOld_gp_some hwait, if_pos hAt]
      exact Finset.mem_singleton_self _
  have hstarT_cur : ∀ (A : Symbol) (b : Nat),
      (⟨Fast.Point.sp ⟨A, true⟩, b⟩ : Fast.Item) ∈ Sf ↔
      ((⟨Fast.Point.sp ⟨A, false⟩, b⟩ : Fast.Item) ∈ ef.chart.getD b ∅ ∧
        ∃ q : GrammarPoint, q.sym = A ∧ g.get_symbol_at_point q = none ∧
          (⟨Fast.Point.gp q, b⟩ : Fast.Item) ∈ Sf) := by
    intro A b
    constructor
    · intro h
      obtain ⟨hblt, hsfm, q, hqs, hqc, hqSn⟩ := (hP _ h).2.2 A rfl
      exact ⟨hsfm, q, hqs, hqc, hQ _ hqSn⟩
    · rintro ⟨hsfm, q, hqs, hqc, hqSf⟩
      refine hSclosF _ hqSf ?_
      rw [Fast.closOld_gp_none hqc]
      simp only [Finset.mem_image, Finset.mem_filter]
      refine ⟨⟨Fast.Point.sp ⟨A, false⟩, b⟩, ⟨hsfm, ?_⟩, rfl⟩
      rw [hqs]
  have hscF_cur : starCharF g ef'.chart cur := by
    unfold starCharF
    intro A b
    rw [hslotF']
    exact hstarF_cur A b
  have hscT_cur : starCharT g ef'.chart cur := by
    unfold starCharT
    intro A b
    rw [hslotF']
    constructor
    · intro h
      obtain ⟨hsfm, q, hqs, hqc, hqSf⟩ := (hstarT_cur A b).mp h
      have hblt : b < cur := Fast.valid_complete_beg_ltF g hwf (hSvalF _ hqSf) hqc
      refine ⟨?_, q, hqs, hqc, hqSf⟩
      rw [hfrF b hblt]
      exact hsfm
    · rintro ⟨hsfm, q, hqs, hqc, hqSf⟩
      have hblt : b < cur := Fast.valid_complete_beg_ltF g hwf (hSvalF _ hqSf) hqc
      refine (hstarT_cur A b).mpr ⟨?_, q, hqs, hqc, hqSf⟩
      rw [← hfrF b hblt]
      exact hsfm
  have htransF : ∀ p, p < cur → starCharF g ef'.chart p := by
    intro p hp
    have hold := (hstars p hp).1
    unfold starCharF at hold ⊢
    intro A b
    rw [hfrF p hp]
    exact hold A b
  have htransT : ∀ p, p < cur → starCharT g ef'.chart p := by
    intro p hp
    have hold := (hstars p hp).2
    unfold starCharT at hold ⊢
    intro A b
    rcases Nat.lt_or_ge b cur with hb | hb
    · rw [hfrF p hp, hfrF b hb]
      exact hold A b
    · constructor
      · intro h
        exfalso
        have hble : b ≤ p := Fast.validItem_beg_le g (hinvF'.2.2.1 p _ h)
        omega
      · rintro ⟨h1, q, hqs, hqc, h2⟩
        exfalso
        have hble : b ≤ p := Fast.validItem_beg_le g (hinvF'.2.2.1 p _ h2)
        omega
  have hnost : noStars (Sf.biUnion (Fast.scanContrib g cid)) := by
    intro x hx
    obtain ⟨itf, hitf, hsc⟩ := Finset.mem_biUnion.mp hx
    obtain ⟨pf, bf⟩ := itf
    cases pf with
    | sp spp =>
      rw [Fast.scanContrib_sp] at hsc
      simp at hsc
    | gp qf =>
      rw [Fast.scanContrib_gp] at hsc
      split_ifs at hsc with h
      · rw [Finset.mem_singleton] at hsc
        subst hsc
        rfl
      · simp at hsc
  -- assemble the new coupled invariant
  refine ⟨en', ef', hfeedN, hfeedF, hinvN', hinvF', ?_, ?_, ?_, ?_⟩
  · rw [hlenN', hlenF', hlen]
  · intro i
    by_cases hci : c = "\x00"
    · rcases Nat.lt_trichotomy i cur with hi | rfl | hi
      · rw [hfrF i hi, hfrN i hi]
        exact hslots i
      · rw [hslotF', hslotN']
        exact hgpSf
      · rw [getD_of_le_length ef'.chart i ∅ (by rw [hlenF', if_pos hci, ← hlen]; omega),
          getD_of_le_length en'.chart i ∅ (by rw [hlenN', if_pos hci]; omega)]
        exact hfempty
    · rcases Nat.lt_trichotomy i cur with hi | rfl | hi
      · rw [hfrF i hi, hfrN i hi]
        exact hslots i
      · rw [hslotF', hslotN']
        exact hgpSf
      · by_cases hi1 : i = cur + 1
        · subst hi1
          rw [hscanF' hci, hscanN' hci]
          exact hscan_slot
        · rw [getD_of_le_length ef'.chart i ∅
              (by rw [hlenF', if_neg hci, ← hlen]; omega),
            getD_of_le_length en'.chart i ∅ (by rw [hlenN', if_neg hci]; omega)]
          exact hfempty
  · intro p hp
    rw [hlenN'] at hp
    by_cases hci : c = "\x00"
    · rw [if_pos hci] at hp
      have hp' : p < cur := by omega
      exact ⟨htransF p hp', htransT p hp'⟩
    · rw [if_neg hci] at hp
      rcases Nat.lt_or_ge p cur with hp' | hp'
      · exact ⟨htransF p hp', htransT p hp'⟩
      · have hpeq : p = cur := by omega
        subst hpeq
        exact ⟨hscF_cur, hscT_cur⟩
  · by_cases hci : c = "\x00"
    · right
      have hidx : ef'.chart.length - 1 = cur := by
        rw [hlenF', if_pos hci, ← hlen]
      rw [hidx]
      exact ⟨hscF_cur, hscT_cur⟩
    · left
      have hidx : ef'.chart.length - 1 = cur + 1 := by
        rw [hlenF', if_neg hci, ← hlen]
        omega
      rw [hidx, hscanF' hci]
      exact hnost

/-- The freshly initialised engines are coupled. -/
theorem coupled_init (g : Grammar) : Coupled g (Naive.Earley.init g) (Fast.Earley.init g) := by
  refine ⟨Naive.init_EngineInv g, Fast.init_EngineInvF g, rfl, ?_, ?_, ?_⟩
  · intro i
    cases i with
    | zero =>
      rw [show (Fast.Earley.init g).chart = [(Finset.range
          (g.rules.getD g.startSymbol []).length).image
          (fun r => Fast.Item.mk (Fast.Point.gp ⟨g.startSymbol, r, 0⟩) 0)] from rfl,
        show (Naive.Earley.init g).chart = [(Finset.range
          (g.rules.getD g.startSymbol []).length).image
          (fun r => Naive.Item.mk ⟨g.startSymbol, r, 0⟩ 0)] from rfl,
        List.getD_cons_zero, List.getD_cons_zero]
      ext x
      obtain ⟨q, b⟩ := x
      rw [mem_fastGpItems]
      simp only [Finset.mem_image, Finset.mem_range]
      constructor
      · rintro ⟨r, hr, heq⟩
        refine ⟨r, hr, ?_⟩
        have h1 : Fast.Point.gp ⟨g.startSymbol, r, 0⟩ = Fast.Point.gp q :=
          congrArg Fast.Item.point heq
        injection h1 with h1'
        have h2 : (0 : Nat) = b := congrArg Fast.Item.beg heq
        rw [← h1', ← h2]
      · rintro ⟨r, hr, heq⟩
        refine ⟨r, hr, ?_⟩
        have h1 : (⟨g.startSymbol, r, 0⟩ : GrammarPoint) = q :=
          congrArg Naive.Item.point heq
        have h2 : (0 : Nat) = b := congrArg Naive.Item.beg heq
        rw [← h1, ← h2]
    | succ i =>
      rw [getD_of_le_length (Fast.Earley.init g).chart (i + 1) ∅
          (by show 1 ≤ i + 1; omega),
        getD_of_le_length (Naive.Earley.init g).chart (i + 1) ∅
          (by show 1 ≤ i + 1; omega)]
      rfl
  · intro p hp
    exact absurd hp (by simp [Naive.Earley.init])
  · left
    intro x hx
    have hx' : x ∈ (Finset.range (g.rules.getD g.startSymbol []).length).image
        (fun r => Fast.Item.mk (Fast.Point.gp ⟨g.startSymbol, r, 0⟩) 0) := hx
    simp only [Finset.mem_image, Finset.mem_range] at hx'
    obtain ⟨r, hr, rfl⟩ := hx'
    rfl

/-- Feeding any list of registered terminals preserves the coupling. -/
theorem coupled_foldlM (g : Grammar) (hwf : g.WF) :
    ∀ (toks : List String) (en : Naive.Earley) (ef : Fast.Earley),
      Coupled g en ef → (∀ tok ∈ toks, registeredTerminal g tok) →
      ∃ (en' : Naive.Earley) (ef' : Fast.Earley),
        toks.foldlM Naive.Earley.feed en = some en' ∧
        toks.foldlM Fast.Earley.feed ef = some ef' ∧ Coupled g en' ef' := by
  intro toks
  induction toks with
  | nil => exact fun en ef hc _ => ⟨en, ef, rfl, rfl, hc⟩
  | cons t ts ih =>
    intro en ef hc hreg
    obtain ⟨cid, hcid⟩ := Option.isSome_iff_exists.mp (hreg t (by simp))
    obtain ⟨en1, ef1, hfN, hfF, hc1⟩ := coupled_feed g hwf en ef hc t cid hcid
    obtain ⟨en', ef', hrN, hrF, hc'⟩ := ih en1 ef1 hc1
      (fun tok ht => hreg tok (by simp [ht]))
    refine ⟨en', ef', ?_, ?_, hc'⟩
    · rw [List.foldlM_cons, hfN]
      exact hrN
    · rw [List.foldlM_cons, hfF]
      exact hrF

/-- **C1** (refinement_equivalence): for every well-formed grammar and every
input sequence of registered terminals (fed in order, followed by the
end-of-input sentinel), both engines' runs succeed and produce charts of equal
length whose states, at every position, contain exactly the same set of
Grammar-Point items — the star items that only the optimized engine adds are
disregarded by the `fastGpItems` projection. -/
theorem C1_engine_equivalence :
    ∀ g : Grammar, g.WF →
    ∀ input : List String, (∀ tok ∈ input, registeredTerminal g tok) →
    ∃ (en : Naive.Earley) (ef : Fast.Earley),
      Naive.run g input = some en ∧ Fast.run g input = some ef ∧
      en.chart.length = ef.chart.length ∧
      ∀ i, fastGpItems (ef.chart.getD i ∅) = en.chart.getD i ∅ := by
  intro g hwf input hreg
  have hreg' : ∀ tok ∈ input ++ ["\x00"], registeredTerminal g tok := by
    intro tok ht
    rcases List.mem_append.mp ht with h | h
    · exact hreg tok h
    · have htok : tok = "\x00" := by simpa using h
      subst htok
      show (g.terminal_symbol "\x00").isSome = true
      rw [sentinel_terminal g hwf]
      rfl
  obtain ⟨en, ef, hrN, hrF, hc⟩ := coupled_foldlM g hwf (input ++ ["\x00"])
    (Naive.Earley.init g) (Fast.Earley.init g) (coupled_init g) hreg'
  exact ⟨en, ef, hrN, hrF, hc.2.2.1, hc.2.2.2.1⟩

theorem C1_engine_equivalence_witness :
    ∃ (en : Naive.Earley) (ef : Fast.Earley),
      Naive.run toyGrammar ["c", "a", "c"] = some en ∧
      Fast.run toyGrammar ["c", "a", "c"] = some ef ∧
      en.chart.length = ef.chart.length ∧
      ∀ i, fastGpItems (ef.chart.getD i ∅) = en.chart.getD i ∅ :=
  C1_engine_equivalence toyGrammar (by decide) ["c", "a", "c"]
    (by intro tok ht; fin_cases ht <;> rfl)

/-!  ## The deduction chart as a well-founded justification structure  -/

theorem get?_append_of_some {α : Type} {l : List α} (l' : List α) {j : Nat} {x : α}
    (h : l.get? j = some x) : (l ++ l').get? j = some x := by
  have hj : j < l.length := by
    by_contra hge
    rw [List.get?_eq_getElem?, List.getElem?_eq_none (by omega)] at h
    exact Option.noConfusion h
  rw [List.get?_eq_getElem?] at h ⊢
  rw [List.getElem?_append, if_pos hj]
  exact h

theorem get?_append_last {α : Type} (l : List α) (x : α) :
    (l ++ [x]).get? l.length = some x := by
  rw [List.get?_eq_getElem?, List.getElem?_append_right (le_refl _)]
  simp

theorem keyIdx_spec : ∀ (dd : DeductionChart) (k : DeductionSpan) (i : Nat),
    keyIdx dd k = some i →
    ∃ v, dd.get? i = some (k, v) ∧ dedLookup dd k = some v ∧
      ∀ j, j < i → ∀ kv : DeductionSpan × DeductionSpan,
        dd.get? j = some kv → kv.1 ≠ k := by
  intro dd
  induction dd with
  | nil => intro k i h; exact Option.noConfusion h
  | cons e rest ih =>
    intro k i h
    obtain ⟨k1, v1⟩ := e
    rw [keyIdx] at h
    split_ifs at h with he
    · injection h with h0
      subst h0
      subst he
      refine ⟨v1, rfl, ?_, ?_⟩
      · unfold dedLookup
        simp only [List.lookup]
        rw [show (k1 == k1) = true from beq_iff_eq.mpr rfl]
      · intro j hj
        exact absurd hj (Nat.not_lt_zero j)
    · rw [Option.map_eq_some'] at h
      obtain ⟨i', hi', rfl⟩ := h
      obtain ⟨v, hget, hlook, hmin⟩ := ih k i' hi'
      refine ⟨v, by simpa using hget, ?_, ?_⟩
      · unfold dedLookup at hlook ⊢
        simp only [List.lookup]
        rw [show (k == k1) = false from beq_eq_false_iff_ne.mpr (fun hh => he hh.symm)]
        exact hlook
      · intro j hj kv hkv
        cases j with
        | zero =>
          have hkv' : (k1, v1) = kv := Option.some_inj.mp hkv
          intro hk
          rw [← hkv'] at hk
          exact he hk
        | succ j' =>
          exact hmin j' (by omega) kv (by simpa using hkv)

theorem get?_to_keyIdx : ∀ (dd : DeductionChart) (j : Nat) (k v : DeductionSpan),
    dd.get? j = some (k, v) → ∃ i, keyIdx dd k = some i ∧ i ≤ j := by
  intro dd
  induction dd with
  | nil => intro j k v h; exact absurd h (by simp)
  | cons e rest ih =>
    intro j k v h
    obtain ⟨k1, v1⟩ := e
    by_cases he : k1 = k
    · exact ⟨0, by rw [keyIdx, if_pos he], Nat.zero_le j⟩
    · cases j with
      | zero =>
        have h1 : (k1, v1) = (k, v) := by
          injection h with h'
        injection h1 with h1a h1b
        exact absurd h1a he
      | succ j' =>
        obtain ⟨i, hi, hle⟩ := ih j' k v (by simpa using h)
        refine ⟨i + 1, ?_, by omega⟩
        rw [keyIdx, if_neg he, hi]
        rfl

theorem dedLookup_isSome_keyIdx : ∀ (dd : DeductionChart) (k : DeductionSpan),
    (dedLookup dd k).isSome = true → ∃ i, keyIdx dd k = some i := by
  intro dd
  induction dd with
  | nil => intro k h; simp [dedLookup, List.lookup] at h
  | cons e rest ih =>
    intro k h
    obtain ⟨k1, v1⟩ := e
    by_cases he : k1 = k
    · exact ⟨0, by rw [keyIdx, if_pos he]⟩
    · have h' : (dedLookup rest k).isSome = true := by
        unfold dedLookup at h ⊢
        simp only [List.lookup] at h
        rw [show (k == k1) = false from
          beq_eq_false_iff_ne.mpr (fun hh => he hh.symm)] at h
        exact h
      obtain ⟨i, hi⟩ := ih k h'
      exact ⟨i + 1, by rw [keyIdx, if_neg he, hi]; rfl⟩

theorem GoodEntry_append_mono {dd : DeductionChart} (l : DeductionChart) {i : Nat}
    {k v : DeductionSpan} (h : GoodEntry dd i k v) : GoodEntry (dd ++ l) i k v := by
  obtain ⟨pk, kb, ke, hk, hdot, hval, hpred⟩ := h
  refine ⟨pk, kb, ke, hk, hdot, ?_, ?_⟩
  · rcases hval with h | ⟨pv, vb, hveq, h1, h2, h3, j, hj, v', hget⟩
    · exact Or.inl h
    · exact Or.inr ⟨pv, vb, hveq, h1, h2, h3, j, hj, v', get?_append_of_some l hget⟩
  · intro hd
    obtain ⟨j, hj, v', hget⟩ := hpred hd
    exact ⟨j, hj, v', get?_append_of_some l hget⟩

theorem dedLookup_dedInsert_self (dd : DeductionChart) (k v : DeductionSpan) :
    (dedLookup (dedInsert dd k v) k).isSome = true := by
  unfold dedInsert
  split_ifs with h
  · exact h
  · have hnone : List.lookup k dd = none := by
      cases hl : List.lookup k dd with
      | none => rfl
      | some w =>
        rw [show dedLookup dd k = some w from hl] at h
        simp at h
    unfold dedLookup
    rw [List.lookup_append, hnone]
    simp [List.lookup]

theorem isSome_of_extends {dd dd' : DeductionChart}
    (hext : ∀ k v, dedLookup dd k = some v → dedLookup dd' k = some v)
    {k : DeductionSpan} (h : (dedLookup dd k).isSome = true) :
    (dedLookup dd' k).isSome = true := by
  obtain ⟨v, hv⟩ := Option.isSome_iff_exists.mp h
  rw [hext k v hv]
  rfl

theorem dedInsert_good {dd : DeductionChart} {k v : DeductionSpan} (hg : DdGood dd)
    (hnew : GoodEntry dd dd.length k v) : DdGood (dedInsert dd k v) := by
  unfold dedInsert
  split_ifs with h
  · exact hg
  · intro i k' v' hget
    rcases Nat.lt_trichotomy i dd.length with hi | rfl | hi
    · have hget' : dd.get? i = some (k', v') := by
        rw [List.get?_eq_getElem?] at hget ⊢
        rw [List.getElem?_append, if_pos hi] at hget
        exact hget
      exact GoodEntry_append_mono _ (hg i k' v' hget')
    · rw [get?_append_last] at hget
      injection hget with hkv
      injection hkv with h1 h2
      subst h1 h2
      exact GoodEntry_append_mono _ hnew
    · rw [List.get?_eq_getElem?,
        List.getElem?_eq_none (by simp only [List.length_append]; simp; omega)] at hget
      exact Option.noConfusion hget

theorem dedLookup_to_get? {dd : DeductionChart} {k v : DeductionSpan}
    (h : dedLookup dd k = some v) :
    ∃ j, j < dd.length ∧ dd.get? j = some (k, v) := by
  obtain ⟨i, hi⟩ := dedLookup_isSome_keyIdx dd k (by rw [h]; rfl)
  obtain ⟨v₀, hget, hlook, -⟩ := keyIdx_spec dd k i hi
  rw [h] at hlook
  injection hlook with hv
  subst hv
  have hlt : i < dd.length := by
    by_contra hge
    rw [List.get?_eq_getElem?, List.getElem?_eq_none (by omega)] at hget
    exact Option.noConfusion hget
  exact ⟨i, hlt, hget⟩

theorem goodEntry_scan (dd : DeductionChart) (pk : GrammarPoint) (kb ke : Nat)
    (s : Symbol) (hdot : 1 ≤ pk.dot) (hlt : kb < ke)
    (hpred : 1 < pk.dot →
      (dedLookup dd ⟨DPoint.gp ⟨pk.sym, pk.rule, pk.dot - 1⟩, (kb, ke - 1)⟩).isSome =
        true) :
    GoodEntry dd dd.length ⟨DPoint.gp pk, (kb, ke)⟩ ⟨DPoint.sym s, (ke - 1, ke)⟩ := by
  refine ⟨pk, kb, ke, rfl, hdot, Or.inl ⟨s, rfl, hlt⟩, ?_⟩
  intro hd
  obtain ⟨v, hv⟩ := Option.isSome_iff_exists.mp (hpred hd)
  obtain ⟨j, hj, hget⟩ := dedLookup_to_get? hv
  exact ⟨j, hj, v, hget⟩

theorem goodEntry_complete (dd : DeductionChart) (pk pv : GrammarPoint)
    (kb vb ke : Nat) (hdot : 1 ≤ pk.dot) (hvdot : 1 ≤ pv.dot) (h1 : kb ≤ vb)
    (h2 : vb < ke)
    (hvkey : (dedLookup dd ⟨DPoint.gp pv, (vb, ke)⟩).isSome = true)
    (hpred : 1 < pk.dot →
      (dedLookup dd ⟨DPoint.gp ⟨pk.sym, pk.rule, pk.dot - 1⟩, (kb, vb)⟩).isSome =
        true) :
    GoodEntry dd dd.length ⟨DPoint.gp pk, (kb, ke)⟩ ⟨DPoint.gp pv, (vb, ke)⟩ := by
  refine ⟨pk, kb, ke, rfl, hdot, ?_, ?_⟩
  · obtain ⟨v, hv⟩ := Option.isSome_iff_exists.mp hvkey
    obtain ⟨j, hj, hget⟩ := dedLookup_to_get? hv
    exact Or.inr ⟨pv, vb, rfl, hvdot, h1, h2, j, hj, v, hget⟩
  · intro hd
    obtain ⟨v, hv⟩ := Option.isSome_iff_exists.mp (hpred hd)
    obtain ⟨j, hj, hget⟩ := dedLookup_to_get? hv
    exact ⟨j, hj, v, hget⟩

namespace Naive

theorem foldl_dedInsert_trace (cur : Nat) (w : DeductionSpan) (dd₀ : DeductionChart) :
    ∀ (L : List Item),
      (∀ nit ∈ L, ∀ dd' : DeductionChart,
        (∀ k v, dedLookup dd₀ k = some v → dedLookup dd' k = some v) →
        GoodEntry dd' dd'.length (nit.deduction_span cur) w) →
      ∀ (dd : DeductionChart), DdGood dd →
        (∀ k v, dedLookup dd₀ k = some v → dedLookup dd k = some v) →
        DdGood (L.foldl (fun m nit => dedInsert m (nit.deduction_span cur) w) dd) ∧
        (∀ k v, dedLookup dd k = some v →
          dedLookup (L.foldl (fun m nit => dedInsert m (nit.deduction_span cur) w) dd)
            k = some v) ∧
        ∀ nit ∈ L, (dedLookup
          (L.foldl (fun m nit => dedInsert m (nit.deduction_span cur) w) dd)
          (nit.deduction_span cur)).isSome = true := by
  intro L
  induction L with
  | nil =>
    intro _ dd hg _
    exact ⟨hg, fun k v h => h, by simp⟩
  | cons a L ih =>
    intro hE dd hg hmono
    have hnew := hE a (List.mem_cons_self a L) dd hmono
    obtain ⟨hg', hmono', hall⟩ := ih
      (fun nit hn => hE nit (List.mem_cons_of_mem a hn))
      (dedInsert dd (a.deduction_span cur) w) (dedInsert_good hg hnew)
      (fun k v h => dedLookup_dedInsert_of_some _ _ (hmono k v h))
    refine ⟨hg', fun k v h => hmono' k v (dedLookup_dedInsert_of_some _ _ h), ?_⟩
    intro nit hnit
    rcases List.mem_cons.mp hnit with rfl | hnit
    · exact isSome_of_extends hmono' (dedLookup_dedInsert_self dd _ w)
    · exact hall nit hnit

theorem processItem_trace (g : Grammar) (hwf : g.WF) (chart : Chart) (cur : Nat)
    (cid : Symbol) (dd : DeductionChart) (it : Item)
    (hval : ∀ b x, x ∈ chart.getD b ∅ → validItem g b x)
    (hT1 : ∀ p x, x ∈ chart.getD p ∅ → 1 ≤ x.point.dot →
      (dedLookup dd (x.deduction_span p)).isSome = true)
    (hit : it ∈ chart.getD cur ∅) (hg : DdGood dd) :
    DdGood (processItem g chart cur cid dd it).2.2 ∧
    (∀ x ∈ (processItem g chart cur cid dd it).1, 1 ≤ x.point.dot →
      (dedLookup (processItem g chart cur cid dd it).2.2
        (x.deduction_span cur)).isSome = true) ∧
    (∀ x ∈ (processItem g chart cur cid dd it).2.1,
      (dedLookup (processItem g chart cur cid dd it).2.2
        (x.deduction_span (cur + 1))).isSome = true) := by
  have hvit := hval cur it hit
  cases hs : g.get_symbol_at_point it.point with
  | none =>
    have hdotit : 1 ≤ it.point.dot := complete_dot_pos g hwf hvit.1 hs
    have hblt : it.beg < cur := valid_complete_beg_lt g hwf hvit hs
    have hwkey : (dedLookup dd (it.deduction_span cur)).isSome = true :=
      hT1 cur it hit hdotit
    have hE : ∀ nit ∈ enumItems (((chart.getD it.beg ∅).filter
          (fun cit => g.get_symbol_at_point cit.point = some it.point.sym)).image
          Item.proceed),
        ∀ dd' : DeductionChart,
        (∀ k v, dedLookup dd k = some v → dedLookup dd' k = some v) →
        GoodEntry dd' dd'.length (nit.deduction_span cur) (it.deduction_span cur) := by
      intro nit hnit dd' hmono'
      rw [mem_enumItems] at hnit
      simp only [Finset.mem_image, Finset.mem_filter] at hnit
      obtain ⟨cit, ⟨hcit, hwait⟩, rfl⟩ := hnit
      have hvcit := hval it.beg cit hcit
      refine goodEntry_complete dd' cit.point.proceed it.point cit.beg it.beg cur
        (show 1 ≤ cit.point.dot + 1 by omega) hdotit hvcit.2.1 hblt
        (isSome_of_extends hmono' hwkey) ?_
      intro hd
      have hcd : 1 ≤ cit.point.dot := by
        have h' : 1 < cit.point.dot + 1 := hd
        omega
      exact isSome_of_extends hmono' (hT1 it.beg cit hcit hcd)
    obtain ⟨hg', hmono', hall⟩ := foldl_dedInsert_trace cur (it.deduction_span cur) dd
      _ hE dd hg (fun k v h => h)
    simp only [processItem, hs]
    refine ⟨hg', ?_, ?_⟩
    · intro x hx h1
      exact hall x (mem_enumItems.mpr hx)
    · intro x hx
      simp at hx
  | some s =>
    by_cases hsc : s = cid
    · subst hsc
      have hknew : GoodEntry dd dd.length
          ((it.proceed).deduction_span (cur + 1)) ⟨DPoint.sym s, (cur, cur + 1)⟩ := by
        refine goodEntry_scan dd it.point.proceed it.beg (cur + 1) s
          (show 1 ≤ it.point.dot + 1 by omega)
          (by have hb := hvit.2.1; omega) ?_
        intro hd
        have h1 : 1 ≤ it.point.dot := by
          have h' : 1 < it.point.dot + 1 := hd
          omega
        exact hT1 cur it hit h1
      have hred : processItem g chart cur s dd it =
          (∅, {it.proceed}, dedInsert dd (it.proceed.deduction_span (cur + 1))
            ⟨DPoint.sym s, (cur, cur + 1)⟩) := by
        simp [processItem, hs]
      rw [hred]
      refine ⟨dedInsert_good hg hknew, ?_, ?_⟩
      · intro x hx
        simp at hx
      · intro x hx
        rw [Finset.mem_singleton] at hx
        subst hx
        exact dedLookup_dedInsert_self dd _ _
    · by_cases hterm : s ∈ g.terminals
      · have hred : processItem g chart cur cid dd it = (∅, ∅, dd) := by
          simp [processItem, hs, if_neg hsc, hterm]
        rw [hred]
        exact ⟨hg, fun x hx h1 => by simp at hx, fun x hx => by simp at hx⟩
      · have hred : processItem g chart cur cid dd it =
            (((Finset.range (g.rules.getD s []).length).image
              (fun r => ⟨⟨s, r, 0⟩, cur⟩ : Nat → Item)), ∅, dd) := by
          simp [processItem, hs, if_neg hsc, hterm]
        rw [hred]
        refine ⟨hg, ?_, ?_⟩
        · intro x hx h1
          simp only [Finset.mem_image, Finset.mem_range] at hx
          obtain ⟨r, hr, rfl⟩ := hx
          exact absurd h1 (Nat.not_succ_le_zero 0)
        · intro x hx
          simp at hx

theorem process_trace (g : Grammar) (hwf : g.WF) (chart : Chart) (cur : Nat)
    (cid : Symbol)
    (hval : ∀ b x, x ∈ chart.getD b ∅ → validItem g b x) :
    ∀ (items : List Item) (dd : DeductionChart),
      (∀ x ∈ items, x ∈ chart.getD cur ∅) →
      (∀ p x, x ∈ chart.getD p ∅ → 1 ≤ x.point.dot →
        (dedLookup dd (x.deduction_span p)).isSome = true) →
      DdGood dd →
      DdGood (process g chart cur items cid dd).2.2 ∧
      (∀ x ∈ (process g chart cur items cid dd).1, 1 ≤ x.point.dot →
        (dedLookup (process g chart cur items cid dd).2.2
          (x.deduction_span cur)).isSome = true) ∧
      (∀ x ∈ (process g chart cur items cid dd).2.1,
        (dedLookup (process g chart cur items cid dd).2.2
          (x.deduction_span (cur + 1))).isSome = true) := by
  intro items
  induction items with
  | nil =>
    intro dd _ _ hg
    exact ⟨hg, fun x hx => by simp [process] at hx, fun x hx => by simp [process] at hx⟩
  | cons a rest ih =>
    intro dd hmem hT1 hg
    obtain ⟨hg1, h1old, h1new⟩ := processItem_trace g hwf chart cur cid dd a hval hT1
      (hmem a (List.mem_cons_self a rest)) hg
    have hT1' : ∀ p x, x ∈ chart.getD p ∅ → 1 ≤ x.point.dot →
        (dedLookup (processItem g chart cur cid dd a).2.2
          (x.deduction_span p)).isSome = true := by
      intro p x hx hdx
      exact isSome_of_extends
        (fun k v h => processItem_dd_extends g chart cur cid dd a h)
        (hT1 p x hx hdx)
    obtain ⟨hg2, h2old, h2new⟩ := ih (processItem g chart cur cid dd a).2.2
      (fun x hx => hmem x (List.mem_cons_of_mem a hx)) hT1' hg1
    have hext2 : ∀ k v,
        dedLookup (processItem g chart cur cid dd a).2.2 k = some v →
        dedLookup (process g chart cur rest cid
          (processItem g chart cur cid dd a).2.2).2.2 k = some v :=
      fun k v h => process_dd_extends g chart cur rest cid _ h
    refine ⟨hg2, ?_, ?_⟩
    · intro x hx hdx
      rcases Finset.mem_union.mp hx with h | h
      · exact isSome_of_extends hext2 (h1old x h hdx)
      · exact h2old x h hdx
    · intro x hx
      rcases Finset.mem_union.mp hx with h | h
      · exact isSome_of_extends hext2 (h1new x h)
      · exact h2new x h

theorem feedLoop_trace (g : Grammar) (hwf : g.WF) (cur : Nat) {cid : Symbol}
    (hcid : cid ∈ g.terminals) :
    ∀ (fuel : Nat) (chart : Chart) (O N : State) (dd : DeductionChart),
      cur < chart.length →
      (∀ b x, x ∈ chart.getD b ∅ → validItem g b x) →
      O ⊆ chart.getD cur ∅ →
      (∀ p x, x ∈ chart.getD p ∅ → 1 ≤ x.point.dot →
        (dedLookup dd (x.deduction_span p)).isSome = true) →
      (∀ x ∈ N, (dedLookup dd (x.deduction_span (cur + 1))).isSome = true) →
      DdGood dd →
      (∀ b x, x ∈ (feedLoop g cur cid fuel chart O N dd).1.getD b ∅ →
        validItem g b x) ∧
      DdGood (feedLoop g cur cid fuel chart O N dd).2.2 ∧
      (∀ p x, x ∈ (feedLoop g cur cid fuel chart O N dd).1.getD p ∅ →
        1 ≤ x.point.dot →
        (dedLookup (feedLoop g cur cid fuel chart O N dd).2.2
          (x.deduction_span p)).isSome = true) ∧
      (∀ x ∈ (feedLoop g cur cid fuel chart O N dd).2.1,
        (dedLookup (feedLoop g cur cid fuel chart O N dd).2.2
          (x.deduction_span (cur + 1))).isSome = true) := by
  intro fuel
  induction fuel with
  | zero =>
    intro chart O N dd _ hval _ hT1 hN hg
    exact ⟨hval, hg, hT1, hN⟩
  | succ m ih =>
    intro chart O N dd hcur hval hO hT1 hN hg
    by_cases hOe : O = ∅
    · subst hOe
      rw [feedLoop_eq_empty]
      exact ⟨hval, hg, hT1, hN⟩
    · have hmemO : ∀ x ∈ enumItems O, x ∈ chart.getD cur ∅ :=
        fun x hx => hO (mem_enumItems.mp hx)
      obtain ⟨hgP, hPold, hPnew⟩ := process_trace g hwf chart cur cid hval
        (enumItems O) dd hmemO hT1 hg
      have hextP : ∀ k v, dedLookup dd k = some v →
          dedLookup (process g chart cur (enumItems O) cid dd).2.2 k = some v :=
        fun k v h => process_dd_extends g chart cur (enumItems O) cid dd h
      have hvalP : ∀ x ∈ (process g chart cur (enumItems O) cid dd).1,
          validItem g cur x := by
        intro x hx
        rw [process_fst_mem] at hx
        obtain ⟨a, ha, hx⟩ := hx
        rw [contribOld_eq_closOld g _ cur hcid] at hx
        exact closOld_valid g hwf chart cur hval (hval cur a (hmemO a ha)) x hx
      have hval' : ∀ b x, x ∈ (chart.set cur (chart.getD cur ∅ ∪
          ((process g chart cur (enumItems O) cid dd).1 \ chart.getD cur ∅))).getD b ∅ →
          validItem g b x := by
        intro b x hx
        by_cases hb : b = cur
        · rw [hb] at hx ⊢
          rw [getD_set_same, if_pos hcur] at hx
          rcases Finset.mem_union.mp hx with h | h
          · exact hval cur x h
          · exact hvalP x (Finset.mem_sdiff.mp h).1
        · rw [getD_set_ne _ _ _ _ _ (fun heq => hb heq.symm)] at hx
          exact hval b x hx
      have hT1' : ∀ p x, x ∈ (chart.set cur (chart.getD cur ∅ ∪
          ((process g chart cur (enumItems O) cid dd).1 \ chart.getD cur ∅))).getD p ∅ →
          1 ≤ x.point.dot →
          (dedLookup (process g chart cur (enumItems O) cid dd).2.2
            (x.deduction_span p)).isSome = true := by
        intro p x hx hdx
        by_cases hb : p = cur
        · rw [hb] at hx ⊢
          rw [getD_set_same, if_pos hcur] at hx
          rcases Finset.mem_union.mp hx with h | h
          · exact isSome_of_extends hextP (hT1 cur x h hdx)
          · exact hPold x (Finset.mem_sdiff.mp h).1 hdx
        · rw [getD_set_ne _ _ _ _ _ (fun heq => hb heq.symm)] at hx
          exact isSome_of_extends hextP (hT1 p x hx hdx)
      have hO' : (process g chart cur (enumItems O) cid dd).1 \ chart.getD cur ∅ ⊆
          (chart.set cur (chart.getD cur ∅ ∪
            ((process g chart cur (enumItems O) cid dd).1 \ chart.getD cur ∅))).getD
            cur ∅ := by
        intro x hx
        rw [getD_set_same, if_pos hcur]
        exact Finset.mem_union_right _ hx
      have hN' : ∀ x ∈ N ∪ (process g chart cur (enumItems O) cid dd).2.1,
          (dedLookup (process g chart cur (enumItems O) cid dd).2.2
            (x.deduction_span (cur + 1))).isSome = true := by
        intro x hx
        rcases Finset.mem_union.mp hx with h | h
        · exact isSome_of_extends hextP (hN x h)
        · exact hPnew x h
      have hcur' : cur < (chart.set cur (chart.getD cur ∅ ∪
          ((process g chart cur (enumItems O) cid dd).1 \ chart.getD cur ∅))).length := by
        rw [List.length_set]
        exact hcur
      have hstep : feedLoop g cur cid (m + 1) chart O N dd =
          feedLoop g cur cid m
            (chart.set cur (chart.getD cur ∅ ∪
              ((process g chart cur (enumItems O) cid dd).1 \ chart.getD cur ∅)))
            ((process g chart cur (enumItems O) cid dd).1 \ chart.getD cur ∅)
            (N ∪ (process g chart cur (enumItems O) cid dd).2.1)
            (process g chart cur (enumItems O) cid dd).2.2 := by
        simp only [feedLoop]
        rw [if_neg hOe]
      rw [hstep]
      exact ih _ _ _ _ hcur' hval' hO' hT1' hN' hgP

theorem feed_trace (g : Grammar) (hwf : g.WF) (e : Earley) (hinv : EngineInv g e)
    (htr : TraceInv e) (c : String) (cid : Symbol)
    (hcid : g.terminal_symbol c = some cid) (e' : Earley)
    (hfeed : e.feed c = some e') : TraceInv e' := by
  obtain ⟨gr, ch, dd0⟩ := e
  obtain ⟨hg, hne, hval, hclosed⟩ := hinv
  obtain ⟨hgood0, hT1⟩ := htr
  dsimp only at hg hne hval hclosed hgood0 hT1
  have hg' := hg.symm
  subst hg'
  have hlen : 0 < ch.length := List.length_pos.mpr hne
  have hcurlt : ch.length - 1 < ch.length := by omega
  have hcidT : cid ∈ g.terminals := terminal_symbol_mem g c cid hcid
  have key : ∀ R : Chart × State × DeductionChart,
      DdGood R.2.2 →
      (∀ p x, x ∈ R.1.getD p ∅ → 1 ≤ x.point.dot →
        (dedLookup R.2.2 (x.deduction_span p)).isSome = true) →
      (∀ x ∈ R.2.1,
        (dedLookup R.2.2 (x.deduction_span (ch.length - 1 + 1))).isSome = true) →
      R.1.length = ch.length →
      TraceInv ⟨g, if c = "\x00" then R.1 else R.1 ++ [R.2.1], R.2.2⟩ := by
    intro R hgR hT1R hNR hLR
    refine ⟨hgR, ?_⟩
    intro p x hx hdx
    dsimp only at hx ⊢
    split at hx
    · exact hT1R p x hx hdx
    · rcases Nat.lt_trichotomy p R.1.length with hp | hp | hp
      · rw [getD_append_left _ _ _ _ hp] at hx
        exact hT1R p x hx hdx
      · rw [hp, getD_append_last] at hx
        have hp' : p = ch.length - 1 + 1 := by rw [hp, hLR]; omega
        rw [hp']
        exact hNR x hx
      · rw [getD_of_le_length _ _ _
          (by rw [List.length_append]; simp only [List.length_singleton]; omega)] at hx
        simp at hx
  have hmem0 : ∀ x ∈ enumItems (ch.getD (ch.length - 1) ∅),
      x ∈ ch.getD (ch.length - 1) ∅ := fun x hx => mem_enumItems.mp hx
  obtain ⟨hgP, hPold, hPnew⟩ := process_trace g hwf ch (ch.length - 1) cid hval
    (enumItems (ch.getD (ch.length - 1) ∅)) dd0 hmem0 hT1 hgood0
  have hextP : ∀ k v, dedLookup dd0 k = some v →
      dedLookup (process g ch (ch.length - 1)
        (enumItems (ch.getD (ch.length - 1) ∅)) cid dd0).2.2 k = some v :=
    fun k v h => process_dd_extends g ch (ch.length - 1) _ cid dd0 h
  have hvalP : ∀ x ∈ (process g ch (ch.length - 1)
      (enumItems (ch.getD (ch.length - 1) ∅)) cid dd0).1,
      validItem g (ch.length - 1) x := by
    intro x hx
    rw [process_fst_mem] at hx
    obtain ⟨a, ha, hx⟩ := hx
    rw [contribOld_eq_closOld g _ (ch.length - 1) hcidT] at hx
    exact closOld_valid g hwf ch (ch.length - 1) hval
      (hval (ch.length - 1) a (hmem0 a ha)) x hx
  have hval1 : ∀ b x, x ∈ (ch.set (ch.length - 1) (ch.getD (ch.length - 1) ∅ ∪
      ((process g ch (ch.length - 1)
        (enumItems (ch.getD (ch.length - 1) ∅)) cid dd0).1 \
        ch.getD (ch.length - 1) ∅))).getD b ∅ → validItem g b x := by
    intro b x hx
    by_cases hb : b = ch.length - 1
    · rw [hb] at hx ⊢
      rw [getD_set_same, if_pos hcurlt] at hx
      rcases Finset.mem_union.mp hx with h | h
      · exact hval (ch.length - 1) x h
      · exact hvalP x (Finset.mem_sdiff.mp h).1
    · rw [getD_set_ne _ _ _ _ _ (fun heq => hb heq.symm)] at hx
      exact hval b x hx
  have hT11 : ∀ p x, x ∈ (ch.set (ch.length - 1) (ch.getD (ch.length - 1) ∅ ∪
      ((process g ch (ch.length - 1)
        (enumItems (ch.getD (ch.length - 1) ∅)) cid dd0).1 \
        ch.getD (ch.length - 1) ∅))).getD p ∅ → 1 ≤ x.point.dot →
      (dedLookup (process g ch (ch.length - 1)
        (enumItems (ch.getD (ch.length - 1) ∅)) cid dd0).2.2
        (x.deduction_span p)).isSome = true := by
    intro p x hx hdx
    by_cases hb : p = ch.length - 1
    · rw [hb] at hx ⊢
      rw [getD_set_same, if_pos hcurlt] at hx
      rcases Finset.mem_union.mp hx with h | h
      · exact isSome_of_extends hextP (hT1 (ch.length - 1) x h hdx)
      · exact hPold x (Finset.mem_sdiff.mp h).1 hdx
    · rw [getD_set_ne _ _ _ _ _ (fun heq => hb heq.symm)] at hx
      exact isSome_of_extends hextP (hT1 p x hx hdx)
  have hO1 : (process g ch (ch.length - 1)
      (enumItems (ch.getD (ch.length - 1) ∅)) cid dd0).1 \
      ch.getD (ch.length - 1) ∅ ⊆
      (ch.set (ch.length - 1) (ch.getD (ch.length - 1) ∅ ∪
        ((process g ch (ch.length - 1)
          (enumItems (ch.getD (ch.length - 1) ∅)) cid dd0).1 \
          ch.getD (ch.length - 1) ∅))).getD (ch.length - 1) ∅ := by
    intro x hx
    rw [getD_set_same, if_pos hcurlt]
    exact Finset.mem_union_right _ hx
  have hcur1 : ch.length - 1 < (ch.set (ch.length - 1) (ch.getD (ch.length - 1) ∅ ∪
      ((process g ch (ch.length - 1)
        (enumItems (ch.getD (ch.length - 1) ∅)) cid dd0).1 \
        ch.getD (ch.length - 1) ∅))).length := by
    rw [List.length_set]
    exact hcurlt
  obtain ⟨hvalR, hgR, hT1R, hNR⟩ := feedLoop_trace g hwf (ch.length - 1) hcidT
    ((itemUniverse g (ch.length - 1)).card + 1)
    (ch.set (ch.length - 1) (ch.getD (ch.length - 1) ∅ ∪
      ((process g ch (ch.length - 1)
        (enumItems (ch.getD (ch.length - 1) ∅)) cid dd0).1 \
        ch.getD (ch.length - 1) ∅)))
    ((process g ch (ch.length - 1)
      (enumItems (ch.getD (ch.length - 1) ∅)) cid dd0).1 \
      ch.getD (ch.length - 1) ∅)
    (process g ch (ch.length - 1)
      (enumItems (ch.getD (ch.length - 1) ∅)) cid dd0).2.1
    (process g ch (ch.length - 1)
      (enumItems (ch.getD (ch.length - 1) ∅)) cid dd0).2.2
    hcur1 hval1 hO1 hT11 hPnew hgP
  have hLR : (feedLoop g (ch.length - 1) cid
      ((itemUniverse g (ch.length - 1)).card + 1)
      (ch.set (ch.length - 1) (ch.getD (ch.length - 1) ∅ ∪
        ((process g ch (ch.length - 1)
          (enumItems (ch.getD (ch.length - 1) ∅)) cid dd0).1 \
          ch.getD (ch.length - 1) ∅)))
      ((process g ch (ch.length - 1)
        (enumItems (ch.getD (ch.length - 1) ∅)) cid dd0).1 \
        ch.getD (ch.length - 1) ∅)
      (process g ch (ch.length - 1)
        (enumItems (ch.getD (ch.length - 1) ∅)) cid dd0).2.1
      (process g ch (ch.length - 1)
        (enumItems (ch.getD (ch.length - 1) ∅)) cid dd0).2.2).1.length =
      ch.length := by
    rw [feedLoop_length, List.length_set]
  unfold Earley.feed Earley.feedFuel at hfeed
  dsimp only at hfeed
  rw [hcid] at hfeed
  rw [Option.some_inj] at hfeed
  rw [← hfeed]
  exact key _ hgR hT1R hNR hLR

/-- The freshly initialised engine satisfies the trace invariant: the
deduction chart is empty and every seeded item has dot `0`. -/
theorem init_trace (g : Grammar) : TraceInv (Earley.init g) := by
  constructor
  · intro i k v hget
    rw [show (Earley.init g).deduced_by = [] from rfl] at hget
    cases i <;> exact Option.noConfusion hget
  · intro p it hit hdot
    cases p with
    | zero =>
      rw [show (Earley.init g).chart = [(Finset.range
        (g.rules.getD g.startSymbol []).length).image
        (fun r => Item.mk ⟨g.startSymbol, r, 0⟩ 0)] from rfl,
        List.getD_cons_zero] at hit
      simp only [Finset.mem_image, Finset.mem_range] at hit
      obtain ⟨r, hr, rfl⟩ := hit
      exact absurd hdot (Nat.not_succ_le_zero 0)
    | succ b =>
      rw [getD_of_le_length] at hit
      · simp at hit
      · show 1 ≤ b + 1
        omega

theorem foldlM_feed_trace (g : Grammar) (hwf : g.WF) :
    ∀ (toks : List String) (e : Earley), EngineInv g e → TraceInv e →
    (∀ tok ∈ toks, registeredTerminal g tok) →
    ∃ e', toks.foldlM Earley.feed e = some e' ∧ EngineInv g e' ∧ TraceInv e' := by
  intro toks
  induction toks with
  | nil => exact fun e he ht _ => ⟨e, rfl, he, ht⟩
  | cons t ts ih =>
    intro e he ht hreg
    obtain ⟨cid, hcid⟩ := Option.isSome_iff_exists.mp (hreg t (by simp))
    obtain ⟨S, -, -, -, e1, -, hfeed, -, -, hinv1⟩ := feed_spec g hwf e he t cid hcid
    have htr1 : TraceInv e1 := feed_trace g hwf e he ht t cid hcid e1 hfeed
    obtain ⟨e', hrun, hinv', htr'⟩ := ih e1 hinv1 htr1
      (fun tok htok => hreg tok (by simp [htok]))
    refine ⟨e', ?_, hinv', htr'⟩
    rw [List.foldlM_cons, hfeed]
    exact hrun

/-- A full run on registered input succeeds, preserves the engine invariant,
and yields a deduction chart in which every entry is well founded and every
dotted chart item has a recorded justification. -/
theorem run_trace (g : Grammar) (hwf : g.WF) (input : List String)
    (hreg : ∀ tok ∈ input, registeredTerminal g tok) :
    ∃ e', run g input = some e' ∧ EngineInv g e' ∧ TraceInv e' := by
  refine foldlM_feed_trace g hwf (input ++ ["\x00"]) (Earley.init g)
    (init_EngineInv g) (init_trace g) ?_
  intro tok ht
  rcases List.mem_append.mp ht with h | h
  · exact hreg tok h
  · have htok : tok = "\x00" := by simpa using h
    subst htok
    show (g.terminal_symbol "\x00").isSome = true
    rw [sentinel_terminal g hwf]
    rfl

end Naive

/-!  ## Termination and shape of `trace_deduction` on a well-founded chart  -/

theorem goodLeavesList_iff : ∀ l : List DeductionNode,
    goodLeavesList l = true ↔ ∀ c ∈ l, goodLeaves c = true := by
  intro l
  induction l with
  | nil => simp [goodLeavesList]
  | cons c cs ih =>
    rw [show goodLeavesList (c :: cs) = (goodLeaves c && goodLeavesList cs) from rfl,
      Bool.and_eq_true, ih, List.forall_mem_cons]

theorem goodLeavesList_reverse_of (l : List DeductionNode)
    (h : goodLeavesList l = true) : goodLeavesList l.reverse = true := by
  rw [goodLeavesList_iff] at h ⊢
  intro c hc
  exact h c (List.mem_reverse.mp hc)

theorem traceLoop_succ (dd : DeductionChart)
    (tr : DeductionSpan → Option DeductionNode) (s r b d e : Nat) :
    traceLoop dd tr s r b (d + 1) e =
      match dedLookup dd ⟨DPoint.gp ⟨s, r, d + 1⟩, (b, e)⟩ with
      | none => none
      | some v =>
        if (⟨DPoint.gp ⟨s, r, d + 1⟩, (b, e)⟩ : DeductionSpan) = v then
          traceLoop dd tr s r b d v.span.1
        else
          match tr v with
          | none => none
          | some c => (traceLoop dd tr s r b d v.span.1).map
              (fun rest => c :: rest) := rfl

theorem trace_deduction_gp (dd : DeductionChart) (fl ps pr pd kb ke : Nat) :
    trace_deduction dd (fl + 1) ⟨DPoint.gp ⟨ps, pr, pd⟩, (kb, ke)⟩ =
      match traceLoop dd (trace_deduction dd fl) ps pr kb pd ke with
      | none => none
      | some children =>
        some (.mk ⟨DPoint.gp ⟨ps, pr, pd⟩, (kb, ke)⟩ children.reverse) := rfl

theorem trace_deduction_nongp (dd : DeductionChart) (fl : Nat) (k : DeductionSpan)
    (h : ∀ p : GrammarPoint, k.point ≠ DPoint.gp p) :
    trace_deduction dd (fl + 1) k = some (.mk k []) := by
  obtain ⟨kp, ks⟩ := k
  cases kp with
  | gp p => exact absurd rfl (h p)
  | sp p => rfl
  | sym s => rfl

theorem traceLoop_mono (dd : DeductionChart)
    (tr tr' : DeductionSpan → Option DeductionNode)
    (h : ∀ v t, tr v = some t → tr' v = some t) (s r b : Nat) :
    ∀ (d e : Nat) (res : List DeductionNode),
      traceLoop dd tr s r b d e = some res →
      traceLoop dd tr' s r b d e = some res := by
  intro d
  induction d with
  | zero => exact fun e res h0 => h0
  | succ d ihd =>
    intro e res hres
    rw [traceLoop_succ] at hres
    rw [traceLoop_succ]
    cases hlk : dedLookup dd ⟨DPoint.gp ⟨s, r, d + 1⟩, (b, e)⟩ with
    | none =>
      rw [hlk] at hres
      exact absurd hres (by simp)
    | some v =>
      rw [hlk] at hres
      dsimp only at hres ⊢
      by_cases heq : (⟨DPoint.gp ⟨s, r, d + 1⟩, (b, e)⟩ : DeductionSpan) = v
      · rw [if_pos heq] at hres ⊢
        exact ihd _ _ hres
      · rw [if_neg heq] at hres ⊢
        cases htv : tr v with
        | none =>
          rw [htv] at hres
          exact absurd hres (by simp)
        | some c =>
          rw [htv] at hres
          rw [h v c htv]
          dsimp only at hres ⊢
          cases hrest : traceLoop dd tr s r b d v.span.1 with
          | none =>
            rw [hrest] at hres
            exact absurd hres (by simp)
          | some rest =>
            rw [hrest] at hres
            rw [ihd _ _ hrest]
            exact hres

theorem trace_mono (dd : DeductionChart) :
    ∀ f f' : Nat, f ≤ f' → ∀ (k : DeductionSpan) (t : DeductionNode),
      trace_deduction dd f k = some t → trace_deduction dd f' k = some t := by
  intro f
  induction f with
  | zero =>
    intro f' _ k t h
    exact absurd h (by rw [show trace_deduction dd 0 k = none from rfl]; simp)
  | succ m ih =>
    intro f' hle k t h
    obtain ⟨m', rfl⟩ : ∃ m', f' = m' + 1 := ⟨f' - 1, by omega⟩
    have hm : m ≤ m' := by omega
    obtain ⟨kp, ks⟩ := k
    cases kp with
    | gp p =>
      obtain ⟨ps, pr, pd⟩ := p
      obtain ⟨b, e⟩ := ks
      rw [trace_deduction_gp] at h
      rw [trace_deduction_gp]
      cases hl : traceLoop dd (trace_deduction dd m) ps pr b pd e with
      | none =>
        rw [hl] at h
        exact absurd h (by simp)
      | some children =>
        rw [hl] at h
        rw [traceLoop_mono dd (trace_deduction dd m) (trace_deduction dd m')
          (fun v t' hv => ih m' hm v t' hv) ps pr b pd e children hl]
        exact h
    | sp p =>
      rw [trace_deduction_nongp dd m ⟨DPoint.sp p, ks⟩
        (fun q hq => DPoint.noConfusion hq)] at h
      rw [trace_deduction_nongp dd m' ⟨DPoint.sp p, ks⟩
        (fun q hq => DPoint.noConfusion hq)]
      exact h
    | sym s =>
      rw [trace_deduction_nongp dd m ⟨DPoint.sym s, ks⟩
        (fun q hq => DPoint.noConfusion hq)] at h
      rw [trace_deduction_nongp dd m' ⟨DPoint.sym s, ks⟩
        (fun q hq => DPoint.noConfusion hq)]
      exact h

theorem traceLoop_of_good (dd : DeductionChart) (hgood : DdGood dd) (i : Nat)
    (IH : ∀ i', i' < i → ∀ k, keyIdx dd k = some i' →
      ∃ tree, trace_deduction dd (i' + 2) k = some tree ∧ tree.span = k ∧
        goodLeaves tree = true)
    (s r b : Nat) :
    ∀ d e : Nat,
      (0 < d → ∃ i₀, i₀ ≤ i ∧ keyIdx dd ⟨DPoint.gp ⟨s, r, d⟩, (b, e)⟩ = some i₀) →
      ∃ children,
        traceLoop dd (trace_deduction dd (i + 1)) s r b d e = some children ∧
        children.length = d ∧ goodLeavesList children = true := by
  intro d
  induction d with
  | zero =>
    intro e _
    exact ⟨[], rfl, rfl, rfl⟩
  | succ d ihd =>
    intro e hk
    obtain ⟨i₀, hile, hki⟩ := hk (Nat.succ_pos d)
    obtain ⟨v, hget, hlook, hmin⟩ := keyIdx_spec dd _ i₀ hki
    obtain ⟨pk, kb, ke, hkeq, hdot, hvcase, hpred⟩ := hgood i₀ _ v hget
    injection hkeq with hpt hsp
    injection hpt with hpk
    subst hpk
    injection hsp with hb he
    rw [← hb, ← he] at hvcase
    rw [← hb] at hpred
    rcases hvcase with ⟨s', hveq, hblt⟩ |
      ⟨pv, vb, hveq, hpvdot, hbvb, hvblt, j, hj, v', hgetj⟩
    · subst hveq
      have hne : (⟨DPoint.gp ⟨s, r, d + 1⟩, (b, e)⟩ : DeductionSpan) ≠
          ⟨DPoint.sym s', (e - 1, e)⟩ := by
        intro h
        exact absurd (congrArg DeductionSpan.point h) (by simp)
      have hcv : trace_deduction dd (i + 1) ⟨DPoint.sym s', (e - 1, e)⟩ =
          some (.mk ⟨DPoint.sym s', (e - 1, e)⟩ []) := rfl
      have hcont : 0 < d →
          ∃ i₁, i₁ ≤ i ∧ keyIdx dd ⟨DPoint.gp ⟨s, r, d⟩, (b, e - 1)⟩ = some i₁ := by
        intro hd
        obtain ⟨j', hj', v'', hgetj'⟩ := hpred (show 1 < d + 1 by omega)
        obtain ⟨i₁, hki₁, hile₁⟩ := get?_to_keyIdx dd j' _ _ hgetj'
        exact ⟨i₁, by omega, hki₁⟩
      obtain ⟨rest, hrest, hlenr, hglr⟩ := ihd (e - 1) hcont
      refine ⟨.mk ⟨DPoint.sym s', (e - 1, e)⟩ [] :: rest, ?_, ?_, ?_⟩
      · rw [traceLoop_succ, hlook]
        dsimp only
        rw [if_neg hne, hcv]
        dsimp only
        rw [hrest]
        rfl
      · simp [hlenr]
      · have hc : goodLeaves (.mk ⟨DPoint.sym s', (e - 1, e)⟩ []) = true := by
          show decide (e = e - 1 + 1) = true
          rw [decide_eq_true_eq]
          omega
        show (goodLeaves (.mk ⟨DPoint.sym s', (e - 1, e)⟩ []) &&
          goodLeavesList rest) = true
        rw [hc, hglr]
        rfl
    · subst hveq
      have hne : (⟨DPoint.gp ⟨s, r, d + 1⟩, (b, e)⟩ : DeductionSpan) ≠
          ⟨DPoint.gp pv, (vb, e)⟩ := by
        intro h
        exact hmin j hj (⟨DPoint.gp pv, (vb, e)⟩, v') hgetj h.symm
      obtain ⟨iv, hkiv, hivle⟩ := get?_to_keyIdx dd j _ _ hgetj
      obtain ⟨tree, htr, hspan, hgl⟩ := IH iv (by omega) _ hkiv
      have hcv : trace_deduction dd (i + 1) ⟨DPoint.gp pv, (vb, e)⟩ = some tree :=
        trace_mono dd (iv + 2) (i + 1) (by omega) _ tree htr
      have hcont : 0 < d →
          ∃ i₁, i₁ ≤ i ∧ keyIdx dd ⟨DPoint.gp ⟨s, r, d⟩, (b, vb)⟩ = some i₁ := by
        intro hd
        obtain ⟨j', hj', v'', hgetj'⟩ := hpred (show 1 < d + 1 by omega)
        obtain ⟨i₁, hki₁, hile₁⟩ := get?_to_keyIdx dd j' _ _ hgetj'
        exact ⟨i₁, by omega, hki₁⟩
      obtain ⟨rest, hrest, hlenr, hglr⟩ := ihd vb hcont
      refine ⟨tree :: rest, ?_, ?_, ?_⟩
      · rw [traceLoop_succ, hlook]
        dsimp only
        rw [if_neg hne, hcv]
        dsimp only
        rw [hrest]
        rfl
      · simp [hlenr]
      · show (goodLeaves tree && goodLeavesList rest) = true
        rw [hgl, hglr]
        rfl

theorem trace_of_good (dd : DeductionChart) (hgood : DdGood dd) :
    ∀ i k, keyIdx dd k = some i →
      ∃ tree, trace_deduction dd (i + 2) k = some tree ∧ tree.span = k ∧
        goodLeaves tree = true := by
  intro i
  induction i using Nat.strong_induction_on with
  | _ i IH =>
    intro k hki
    obtain ⟨v, hget, hlook, hmin⟩ := keyIdx_spec dd k i hki
    obtain ⟨pk, kb, ke, hkeq, hdot, -, -⟩ := hgood i k v hget
    subst hkeq
    obtain ⟨ps, pr, pd⟩ := pk
    have hpd : 1 ≤ pd := hdot
    have hcont : 0 < pd →
        ∃ i₀, i₀ ≤ i ∧ keyIdx dd ⟨DPoint.gp ⟨ps, pr, pd⟩, (kb, ke)⟩ = some i₀ :=
      fun _ => ⟨i, Nat.le_refl i, hki⟩
    obtain ⟨children, hloopEq, hlen, hgl⟩ :=
      traceLoop_of_good dd hgood i IH ps pr kb pd ke hcont
    have hchne : children ≠ [] := by
      intro hnil
      rw [hnil] at hlen
      simp at hlen
      omega
    obtain ⟨c, cs, hrev⟩ : ∃ c cs, children.reverse = c :: cs := by
      cases hr : children.reverse with
      | nil =>
        rw [List.reverse_eq_nil_iff] at hr
        exact absurd hr hchne
      | cons c cs => exact ⟨c, cs, rfl⟩
    refine ⟨.mk ⟨DPoint.gp ⟨ps, pr, pd⟩, (kb, ke)⟩ children.reverse, ?_, rfl, ?_⟩
    · rw [show i + 2 = (i + 1) + 1 from rfl, trace_deduction_gp, hloopEq]
    · rw [hrev]
      show goodLeavesList (c :: cs) = true
      rw [← hrev]
      exact goodLeavesList_reverse_of children hgl

/-- C3 (amended): after a full run of the naive engine on any registered
input, `trace_deduction` applied to any element of `complete_items()`
succeeds (given enough fuel) and yields a derivation tree whose root node's
span is exactly that element's own span, and all of whose leaf nodes are
bare-terminal Deduction Spans whose span has width exactly one.  The original
claim's stronger root-span condition `[0, n)` is refuted by
`C3_counterexample`: `complete_items` does not filter on the origin, so a
returned span may begin after `0` and the traced root keeps that origin. -/
theorem C3_trace_root_and_leaves (g : Grammar) (hwf : g.WF)
    (input : List String) (hreg : ∀ tok ∈ input, registeredTerminal g tok)
    (e : Naive.Earley) (hrun : Naive.run g input = some e)
    (d : DeductionSpan) (hd : d ∈ e.complete_items none) :
    ∃ fuel tree, trace_deduction e.deduced_by fuel d = some tree ∧
      tree.span = d ∧ goodLeaves tree = true := by
  obtain ⟨e', hrun', hinv, htr⟩ := Naive.run_trace g hwf input hreg
  rw [hrun] at hrun'
  injection hrun' with he
  rw [← he] at hinv htr
  obtain ⟨hgood, hT1⟩ := htr
  unfold Naive.Earley.complete_items at hd
  simp only [List.mem_map, Naive.mem_enumItems, Finset.mem_filter] at hd
  obtain ⟨it, ⟨hmem, hsym, hcomp⟩, rfl⟩ := hd
  have hvalid := hinv.2.2.1 _ it hmem
  rw [hinv.1] at hcomp
  have h0 : 0 < it.point.dot := complete_dot_pos g hwf hvalid.1 hcomp
  have hlk := hT1 _ it hmem h0
  obtain ⟨i, hki⟩ := dedLookup_isSome_keyIdx e.deduced_by _ hlk
  obtain ⟨tree, htr2, hspan, hgl⟩ := trace_of_good e.deduced_by hgood i _ hki
  exact ⟨i + 2, tree, htr2, hspan, hgl⟩

set_option maxRecDepth 40000 in
theorem C3_trace_root_and_leaves_witness :
    toyGrammar.WF ∧
    (⟨DPoint.gp ⟨0, 0, 2⟩, (0, 3)⟩ : DeductionSpan) ∈
      ((Naive.run toyGrammar ["c", "a", "c"]).getD
        (Naive.Earley.init toyGrammar)).complete_items none ∧
    ∃ fuel tree,
      trace_deduction ((Naive.run toyGrammar ["c", "a", "c"]).getD
          (Naive.Earley.init toyGrammar)).deduced_by fuel
          ⟨DPoint.gp ⟨0, 0, 2⟩, (0, 3)⟩ = some tree ∧
      tree.span = ⟨DPoint.gp ⟨0, 0, 2⟩, (0, 3)⟩ ∧ goodLeaves tree = true :=
  ⟨by decide, by decide,
    C3_trace_root_and_leaves toyGrammar (by decide) ["c", "a", "c"]
      (by intro tok ht; fin_cases ht <;> rfl)
      ((Naive.run toyGrammar ["c", "a", "c"]).getD (Naive.Earley.init toyGrammar))
      (by decide) ⟨DPoint.gp ⟨0, 0, 2⟩, (0, 3)⟩ (by decide)⟩

theorem C10_origin_bound_witness :
    (∀ e', Naive.run toyGrammar ["c", "a", "c"] = some e' →
      ∀ i it, it ∈ e'.chart.getD i ∅ → it.beg ≤ i) ∧
    (∀ e', Fast.run toyGrammar ["c", "a", "c"] = some e' →
      ∀ i it, it ∈ e'.chart.getD i ∅ → it.beg ≤ i) :=
  C10_origin_bound toyGrammar (by decide) ["c", "a", "c"]
    (by intro tok ht; fin_cases ht <;> rfl)

end Astar
